import Mathlib

/-!
# ccmetrics: the skip-list map of `src/concurrent_skip_list_map.h`

A shallow embedding of `ConcurrentSkipListMap<Key, Value>` as run by one thread.

* Memory is a list of nodes; the node allocated as number `j` (counting from 0) lives at
  address `8 * (j + 1)`, so addresses are non-null, 8-byte aligned and never reused.
  The `next_` array of a node is kept in the node record.
* A pointer word (`uintptr_t`) is an unbounded natural number; its low bit is the mark.
* The four hazard slots of the calling thread and its retired list are part of the state.
* The key type carries a linear order, which stands for the operators `<`, `>=` and `==` of
  `Key`; `Key()` and `Value()` are `default`.
* Every loop of the source is a recursive function with a bound on its number of
  iterations (`fuel`); `none` means that the bound was hit or that the code faulted
  (null or misaligned dereference, out-of-bounds index, failed `assert`).
* One scan of `values()` is also run with a call `erase` of a second thread in its
  middle (`valuesDuringErase`); each thread then has its own hazard slots.
* The metric registry of `src/metric_registry_impl.h`, whose method bodies are not part of
  the sources, is modelled as a map with get-or-insert per kind of metric.
-/

namespace ccmetrics

/-! ## Pointers and tagged pointers -/

/-- The constant `kMaxHeight = 12` of the class. -/
def kMaxHeight : Nat := 12

/-- The function `mark`: `ptr | 0x1`. -/
def mark (ptr : Nat) : Nat := ptr ||| 1

/-- The function `markedi`: `0 != (ptr & 0x1) && 0x1 != ptr`. -/
def markedi (ptr : Nat) : Bool := (ptr &&& 1 != 0) && (ptr != 1)

/-- The function `marked0`: `0 != (ptr & 0x1)`. -/
def marked0 (ptr : Nat) : Bool := ptr &&& 1 != 0

/-- The function `marked`: `level == 0 ? marked0(ptr) : markedi(ptr)`. -/
def marked (ptr : Nat) (level : Nat) : Bool :=
  if level = 0 then marked0 ptr else markedi ptr

/-- The function `clear`: `ptr & ~0x1`. On a word of any width this removes bit 0, which is
written here as subtracting the low bit. -/
def clear (ptr : Nat) : Nat := ptr - (ptr &&& 1)

/-! ## Nodes, hazard slots and the map -/

/-- The struct `Node`. `height` and `link_count` are `uint8_t` values; `next_` is the
array of `height` tagged pointers. -/
structure Node (K V : Type) where
  key : K
  value : V
  height : Nat
  link_count : Nat
  next_ : List Nat
deriving DecidableEq, Repr

/-- The four hazard slots of the calling thread (`HazardPointers<Node, 4>`). -/
structure Hazards where
  hp0 : Nat
  hp1 : Nat
  hp2 : Nat
  hp3 : Nat
deriving DecidableEq, Repr

/-- Writes slot `i`; an index outside `0..3` writes nothing. -/
def Hazards.put (h : Hazards) (i : Nat) (p : Nat) : Hazards :=
  match i with
  | 0 => { h with hp0 := p }
  | 1 => { h with hp1 := p }
  | 2 => { h with hp2 := p }
  | 3 => { h with hp3 := p }
  | _ => h

/-- The class `ConcurrentSkipListMap` together with what it reaches: the memory holding its
nodes, the fields `head_` and `height_`, and the calling thread's part of `smr_` (hazard slots
and retired list). -/
structure ConcurrentSkipListMap (K V : Type) where
  mem : List (Node K V)
  head_ : Nat
  height_ : Nat
  hp : Hazards
  retired : List Nat
deriving DecidableEq, Repr

/-- The struct `FindResult`; the field `match` is called `match_`. -/
structure FindResult where
  prev : Nat
  cur : Nat
  next : Nat
  match_ : Bool
deriving DecidableEq, Repr

section Memory

variable {K V : Type}

/-- Index in memory of the node at address `p`. -/
def slot (p : Nat) : Nat := p / 8 - 1

/-- Address of the next node to be allocated. -/
def freshPtr (mem : List (Node K V)) : Nat := 8 * (mem.length + 1)

/-- Dereferences `p`: the node at address `p`, if `p` is a non-null aligned address
of an allocated node. -/
def deref (mem : List (Node K V)) (p : Nat) : Option (Node K V) :=
  if p % 8 = 0 ∧ p ≠ 0 then mem[slot p]? else none

/-- Overwrites the node at address `p` with `f` of it. -/
def modifyNode (s : ConcurrentSkipListMap K V) (p : Nat) (f : Node K V → Node K V) :
    Option (ConcurrentSkipListMap K V) :=
  match deref s.mem p with
  | none => none
  | some n => some { s with mem := s.mem.set (slot p) (f n) }

/-- An atomic load of `p->next_[i]`. -/
def loadNext (s : ConcurrentSkipListMap K V) (p : Nat) (i : Nat) : Option Nat :=
  match deref s.mem p with
  | none => none
  | some n => n.next_[i]?

/-- An atomic store `p->next_[i] = v`. -/
def storeNext (s : ConcurrentSkipListMap K V) (p : Nat) (i : Nat) (v : Nat) :
    Option (ConcurrentSkipListMap K V) :=
  match deref s.mem p with
  | none => none
  | some n =>
    if i < n.next_.length then
      some { s with mem := s.mem.set (slot p) { n with next_ := n.next_.set i v } }
    else none

/-- The call `p->next_[i].compare_exchange_strong(expected, desired)`. The value written back
to `expected` on failure is dropped: no caller reads it. -/
def casNext (s : ConcurrentSkipListMap K V) (p : Nat) (i : Nat) (expected desired : Nat) :
    Option (Bool × ConcurrentSkipListMap K V) :=
  match loadNext s p i with
  | none => none
  | some v =>
    if v = expected then
      match storeNext s p i desired with
      | none => none
      | some s1 => some (true, s1)
    else some (false, s)

/-- The method `Node::dead`: whether `next_[0]` has its low bit set. -/
def dead (s : ConcurrentSkipListMap K V) (p : Nat) : Option Bool :=
  match loadNext s p 0 with
  | none => none
  | some v => some (v &&& 1 != 0)

end Memory

/-! ## Hazard pointers

`hazard_pointers.h` is not part of the sources; its operations follow section 4.2 of the
specification, for a single thread. -/

section HazardOps

variable {K V : Type}

/-- Modelled from the spec: `hazard_pointers.h` is missing. `set(i, p)` publishes that slot
`i` protects `p`. -/
def setHazard (s : ConcurrentSkipListMap K V) (i : Nat) (p : Nat) : ConcurrentSkipListMap K V :=
  { s with hp := s.hp.put i p }

/-- Modelled from the spec: `hazard_pointers.h` is missing. `clear(i)` publishes null into
slot `i`. -/
def clearHazard (s : ConcurrentSkipListMap K V) (i : Nat) : ConcurrentSkipListMap K V :=
  { s with hp := s.hp.put i 0 }

/-- Modelled from the spec: `hazard_pointers.h` is missing. `load_and_set(src, i)` reads the
atomic pointer `src`, here `p->next_[lvl]`, and publishes it to slot `i`. -/
def loadAndSetHazard (s : ConcurrentSkipListMap K V) (p : Nat) (lvl : Nat) (i : Nat) :
    Option (Nat × ConcurrentSkipListMap K V) :=
  match loadNext s p lvl with
  | none => none
  | some v => some (v, setHazard s i v)

/-- Modelled from the spec: `hazard_pointers.h` is missing. `load_and_set_or_fail(src, i, out)`
is `load_and_set` that returns false if a re-check reads another pointer than the one
published; with one thread the re-check reads the same word. -/
def loadAndSetHazardOrFail (s : ConcurrentSkipListMap K V) (p : Nat) (lvl : Nat) (i : Nat) :
    Option (Bool × Nat × ConcurrentSkipListMap K V) :=
  match loadNext s p lvl with
  | none => none
  | some v =>
    let s1 := setHazard s i v
    match loadNext s1 p lvl with
    | none => none
    | some w => some (decide (w = v), v, s1)

/-- Modelled from the spec: `hazard_pointers.h` is missing. `retire(node)` appends the node to
the thread's retired list. The reclamation scan, which frees retired nodes that no hazard
slot protects, is not modelled: a retired node stays allocated. -/
def retireNode (s : ConcurrentSkipListMap K V) (p : Nat) : ConcurrentSkipListMap K V :=
  { s with retired := s.retired ++ [p] }

end HazardOps

/-! ## Node construction -/

section Construction

variable {K V : Type}

/-- The loop `for (int i = 1; i < height; ++i) ret->next_[i] = mark(nullptr)` of `mkNode`,
with `n` iterations left. -/
def mkNodeLoop : Nat → Nat → List Nat → List Nat
  | 0, _, next => next
  | n + 1, i, next => mkNodeLoop n (i + 1) (next.set i (mark 0))

/-- The function `mkNode`: a node of `height` levels with `link_count` 0, `next_[0]` null and
the other `next_` entries marked null. -/
def mkNode (height : Nat) (key : K) (value : V) : Node K V :=
  { key := key
    value := value
    height := height % 256
    link_count := 0
    next_ := mkNodeLoop (height - 1) 1 ((List.replicate height 0).set 0 0) }

/-- The expression `new Node` followed by the fields being filled in: the node is placed at
the next free address. -/
def allocNode (s : ConcurrentSkipListMap K V) (n : Node K V) :
    Nat × ConcurrentSkipListMap K V :=
  (freshPtr s.mem, { s with mem := s.mem ++ [n] })

/-- The constructor: `head_(mkNode(kMaxHeight, Key(), Value())), height_(0)`, in an empty
memory and with empty hazard slots. -/
def ConcurrentSkipListMap.new [Inhabited K] [Inhabited V] : ConcurrentSkipListMap K V :=
  { mem := [mkNode kMaxHeight default default]
    head_ := 8
    height_ := 0
    hp := ⟨0, 0, 0, 0⟩
    retired := [] }

end Construction

/-! ## The operations -/

section Operations

variable {K V : Type} [LinearOrder K]

/-- Where a loop of `find` hands control: `again` is `goto try_again`, `brk` leaves the loop
with the local variables `prev`, `cur`, `next`. -/
inductive FindCtl (K V : Type) where
  | again (s : ConcurrentSkipListMap K V)
  | brk (s : ConcurrentSkipListMap K V) (prev cur next : Nat)

/-- The inner `for (;;)` of `find` on level `i`. -/
def findInner (key : K) (i : Nat) :
    Nat → ConcurrentSkipListMap K V → Nat → Nat → Nat → Option (FindCtl K V)
  | 0, _, _, _, _ => none
  | fuel + 1, s, prev, cur, next =>
    if clear cur = 0 then some (.brk s prev cur next)
    else
      match loadAndSetHazardOrFail s cur i 0 with
      | none => none
      | some (false, _, s1) => some (.again s1)
      | some (true, next1, s1) =>
        match loadNext s1 prev i with
        | none => none
        | some pn =>
          if pn ≠ cur then some (.again s1)
          else
            match (if marked next1 i then some true else dead s1 cur) with
            | none => none
            | some false =>
              match deref s1.mem cur with
              | none => none
              | some c =>
                if c.key ≥ key then some (.brk s1 prev cur next1)
                else if next1 &&& 1 ≠ 0 then none
                else findInner key i fuel (setHazard (setHazard s1 2 cur) 1 (clear next1))
                  cur next1 next1
            | some true =>
              match loadNext s1 cur i with
              | none => none
              | some nexti =>
                match casNext s1 prev i cur (clear nexti) with
                | none => none
                | some (false, s2) => some (.again s2)
                | some (true, s2) =>
                  match deref s2.mem cur with
                  | none => none
                  | some c =>
                    let lc := (c.link_count + 255) % 256
                    match modifyNode s2 cur (fun n => { n with link_count := lc }) with
                    | none => none
                    | some s3 =>
                      some (.brk (if lc = 0 then retireNode (clearHazard s3 1) cur else s3)
                        prev 0 next1)

/-- The loop `for (int i = height_; i >= 0; --i)` of `find`, with `n = i + 1` levels left. -/
def findLevels (key : K) (fuel : Nat) :
    Nat → ConcurrentSkipListMap K V → Nat → Nat → Nat → Option (FindCtl K V)
  | 0, s, prev, cur, next => some (.brk s prev cur next)
  | i + 1, s, prev, _, next =>
    match loadAndSetHazard s prev i 1 with
    | none => none
    | some (cur, s1) =>
      if marked cur i then some (.again s1)
      else
        match findInner key i fuel s1 prev cur next with
        | none => none
        | some (.again s2) => some (.again s2)
        | some (.brk s2 prev2 cur2 next2) => findLevels key fuel i s2 prev2 cur2 next2

/-- One pass of `find` from the label `try_again` to the next `goto try_again` or to the end
of the level loop. -/
def findAttempt (key : K) (fuel : Nat) (s : ConcurrentSkipListMap K V) : Option (FindCtl K V) :=
  findLevels key fuel (s.height_ + 1) (setHazard s 2 s.head_) s.head_ 0 0

/-- The passes of `find`, at most `n` of them, and its `return`. -/
def findRetry (key : K) (fuel : Nat) :
    Nat → ConcurrentSkipListMap K V → Option (FindResult × ConcurrentSkipListMap K V)
  | 0, _ => none
  | n + 1, s =>
    match findAttempt key fuel s with
    | none => none
    | some (.again s1) => findRetry key fuel n s1
    | some (.brk s1 prev cur next) =>
      if cur = 0 then some (⟨prev, cur, next, false⟩, s1)
      else
        match deref s1.mem cur with
        | none => none
        | some c => some (⟨prev, cur, next, decide (c.key = key)⟩, s1)

/-- The method `find(Key const&)`, the search primitive. -/
def find (key : K) (fuel : Nat) (s : ConcurrentSkipListMap K V) :
    Option (FindResult × ConcurrentSkipListMap K V) :=
  findRetry key fuel fuel s

/-- The three calls `hp.clearHazard(0); hp.clearHazard(1); hp.clearHazard(2)`. -/
def clearHazards (s : ConcurrentSkipListMap K V) : ConcurrentSkipListMap K V :=
  clearHazard (clearHazard (clearHazard s 0) 1) 2

/-- The loop `while (!cur->next_[i].compare_exchange_strong(nexti, mark(nexti)))` of `erase`;
returns the `nexti` that the successful exchange replaced. -/
def eraseMarkCas (cur : Nat) (i : Nat) :
    Nat → ConcurrentSkipListMap K V → Nat → Option (Nat × ConcurrentSkipListMap K V)
  | 0, _, _ => none
  | fuel + 1, s, nexti =>
    match casNext s cur i nexti (mark nexti) with
    | none => none
    | some (true, s1) => some (nexti, s1)
    | some (false, s1) =>
      match loadNext s1 cur i with
      | none => none
      | some nx => eraseMarkCas cur i fuel s1 nx

/-- The loop `for (int i = result.cur->height - 1; i >= 0; --i)` of `erase`, with `n = i + 1`
levels left; carries `marked_0`. -/
def eraseMarkLevels (cur : Nat) (fuel : Nat) :
    Nat → ConcurrentSkipListMap K V → Bool → Option (Bool × ConcurrentSkipListMap K V)
  | 0, s, marked_0 => some (marked_0, s)
  | i + 1, s, marked_0 =>
    match loadNext s cur i with
    | none => none
    | some nexti0 =>
      match eraseMarkCas cur i fuel s nexti0 with
      | none => none
      | some (nexti, s1) =>
        eraseMarkLevels cur fuel i s1
          (if i = 0 ∧ nexti = clear nexti then true else marked_0)

/-- The first half of `erase`: the first `find` and, on a match, the marking loop. Returns
`none` in the first component when `erase` has returned false at `if (!result.match)`, else
the matching node and `marked_0`. -/
def eraseMark (key : K) (fuel : Nat) (s : ConcurrentSkipListMap K V) :
    Option (Option (Nat × Bool) × ConcurrentSkipListMap K V) :=
  match find key fuel s with
  | none => none
  | some (result, s1) =>
    if !result.match_ then some (none, s1)
    else
      match deref s1.mem result.cur with
      | none => none
      | some c =>
        match eraseMarkLevels result.cur fuel c.height s1 false with
        | none => none
        | some (marked_0, s2) => some (some (result.cur, marked_0), s2)

/-- The second half of `erase`, after the marking loop: the second `find`, the `assert`, the
release of the hazard slots and `return marked_0`. -/
def eraseFinish (key : K) (fuel : Nat) (cur : Nat) (marked_0 : Bool)
    (s : ConcurrentSkipListMap K V) : Option (Bool × ConcurrentSkipListMap K V) :=
  match find key fuel s with
  | none => none
  | some (result2, s1) =>
    if !(!result2.match_ || result2.cur != cur) then none
    else some (marked_0, clearHazards s1)

/-- The method `erase`. -/
def erase (key : K) (fuel : Nat) (s : ConcurrentSkipListMap K V) :
    Option (Bool × ConcurrentSkipListMap K V) :=
  match eraseMark key fuel s with
  | none => none
  | some (none, s1) => some (false, s1)
  | some (some (cur, marked_0), s1) => eraseFinish key fuel cur marked_0 s1

/-- The loop of `randomLevel`, with `n = kMaxHeight - 1 - level` increments left:
`while (level < kMaxHeight - 1 && ((r >>= 1) & 1) != 0) ++level`. -/
def randomLevelLoop : Nat → Int → Nat → Nat
  | 0, _, level => level
  | n + 1, r, level =>
    if (r >>> 1) % 2 ≠ 0 then randomLevelLoop n (r >>> 1) (level + 1) else level

/-- The function `randomLevel`, as a function of the value `r` that
`ThreadLocalRandom::current().next()` returned, read as an `int64_t`. -/
def randomLevel (r : Int) : Nat := randomLevelLoop (kMaxHeight - 1) r 0

/-- The method `find(Key const&, Value*)`; `value` is what `*value` holds at the call, and
the second component of the result is what it holds at the return. -/
def findValue (key : K) (value : V) (fuel : Nat) (s : ConcurrentSkipListMap K V) :
    Option (Bool × V × ConcurrentSkipListMap K V) :=
  match find key fuel s with
  | none => none
  | some (result, s1) =>
    if result.match_ then
      match deref s1.mem result.cur with
      | none => none
      | some c => some (true, c.value, clearHazards s1)
    else some (false, value, clearHazards s1)

/-- The method `exists`. -/
def existsKey (key : K) (fuel : Nat) (s : ConcurrentSkipListMap K V) :
    Option (Bool × ConcurrentSkipListMap K V) :=
  match find key fuel s with
  | none => none
  | some (res, s1) => some (res.match_, clearHazards s1)

/-- The loop `do cur = hp.loadAndSetHazard(head_->next_[0], 1); while (marked0(cur))` of
`firstKey`. -/
def firstKeyLoop : Nat → ConcurrentSkipListMap K V → Option (Nat × ConcurrentSkipListMap K V)
  | 0, _ => none
  | fuel + 1, s =>
    match loadAndSetHazard s s.head_ 0 1 with
    | none => none
    | some (cur, s1) => if marked0 cur then firstKeyLoop fuel s1 else some (cur, s1)

/-- The method `firstKey`. -/
def firstKey [Inhabited K] (fuel : Nat) (s : ConcurrentSkipListMap K V) :
    Option (K × ConcurrentSkipListMap K V) :=
  match firstKeyLoop fuel s with
  | none => none
  | some (cur, s1) =>
    if cur = 0 then some (default, clearHazard s1 1)
    else
      match deref s1.mem cur with
      | none => none
      | some c => some (c.key, clearHazard s1 1)

/-- Where the main loop of `extractor` hands control: `again` is `goto try_again`, `done` is
the `break` on a null `cur`; both carry `ret`, which is declared before the label and so
keeps what was pushed. -/
inductive ExtractCtl (K V R : Type) where
  | again (s : ConcurrentSkipListMap K V) (ret : List R)
  | done (s : ConcurrentSkipListMap K V) (ret : List R)

/-- The loop `while (marked0(next))` of `extractor`. The first component of the result is
`none` for `goto try_again`, else the values of `cur` and `next` at the end of the loop. -/
def extractReload (prev : Nat) :
    Nat → ConcurrentSkipListMap K V → Nat → Nat →
      Option (Option (Nat × Nat) × ConcurrentSkipListMap K V)
  | 0, _, _, _ => none
  | fuel + 1, s, cur, next =>
    if marked0 next then
      match loadAndSetHazard s prev 0 1 with
      | none => none
      | some (cur1, s1) =>
        if marked0 cur1 then some (none, s1)
        else if cur1 ≠ 0 then
          match loadAndSetHazard s1 cur1 0 0 with
          | none => none
          | some (next1, s2) => extractReload prev fuel s2 cur1 next1
        else extractReload prev fuel s1 cur1 0
    else some (some (cur, next), s)

/-- The main `for (;;)` of `extractor`. -/
def extractLoop {R : Type} (f : Node K V → R) (fuel : Nat) :
    Nat → ConcurrentSkipListMap K V → Nat → Nat → List R → Option (ExtractCtl K V R)
  | 0, _, _, _, _ => none
  | n + 1, s, prev, cur, ret =>
    if cur = 0 then some (.done s ret)
    else
      match deref s.mem cur with
      | none => none
      | some c =>
        match loadAndSetHazard s cur 0 0 with
        | none => none
        | some (next, s1) =>
          match extractReload prev fuel s1 cur next with
          | none => none
          | some (none, s2) => some (.again s2 (ret ++ [f c]))
          | some (some (cur2, next2), s2) =>
            extractLoop f fuel n (setHazard (setHazard s2 2 cur2) 1 next2) cur2 next2
              (ret ++ [f c])

/-- The passes of `extractor` from the label `try_again`, at most `n` of them, and its
`return`. -/
def extractRetry {R : Type} (f : Node K V → R) (fuel : Nat) :
    Nat → ConcurrentSkipListMap K V → List R → Option (List R × ConcurrentSkipListMap K V)
  | 0, _, _ => none
  | n + 1, s, ret =>
    match loadAndSetHazard s s.head_ 0 1 with
    | none => none
    | some (cur, s1) =>
      match extractLoop f fuel fuel s1 s.head_ cur ret with
      | none => none
      | some (.again s2 ret2) => extractRetry f fuel n s2 ret2
      | some (.done s2 ret2) => some (ret2, clearHazards s2)

/-- The method template `extractor`. -/
def extractor {R : Type} (f : Node K V → R) (fuel : Nat) (s : ConcurrentSkipListMap K V) :
    Option (List R × ConcurrentSkipListMap K V) :=
  extractRetry f fuel fuel s []

/-- The method `values`. -/
def values (fuel : Nat) (s : ConcurrentSkipListMap K V) :
    Option (List V × ConcurrentSkipListMap K V) :=
  extractor (fun n => n.value) fuel s

/-- The method `entries`. -/
def entries (fuel : Nat) (s : ConcurrentSkipListMap K V) :
    Option (List (K × V) × ConcurrentSkipListMap K V) :=
  extractor (fun n => (n.key, n.value)) fuel s

/-- The loop `for (;;)` of `insert` that links the new node `n` on level 0. The result is
true when the exchange succeeded and false when `insert` has returned false because a later
`find` matched; the node `n`, freed by `freeNode` in that case, is left in memory. -/
def insertLink (key : K) (n : Nat) (fuel : Nat) :
    Nat → ConcurrentSkipListMap K V → FindResult → Option (Bool × ConcurrentSkipListMap K V)
  | 0, _, _ => none
  | k + 1, s, result =>
    match storeNext s n 0 result.cur with
    | none => none
    | some s1 =>
      match casNext s1 result.prev 0 result.cur n with
      | none => none
      | some (true, s2) => some (true, s2)
      | some (false, s2) =>
        match find key fuel s2 with
        | none => none
        | some (result2, s3) =>
          if result2.match_ then some (false, clearHazard (clearHazards s3) 3)
          else insertLink key n fuel k s3 result2

/-- The loop `while (cur && cur->key < key)` of the index linkage of `insert` on level `i`.
The first component of the result is `none` for `goto exit`, else `prev` and `cur`. -/
def insertIndexWalk (key : K) (i : Nat) :
    Nat → ConcurrentSkipListMap K V → Nat → Nat →
      Option (Option (Nat × Nat) × ConcurrentSkipListMap K V)
  | 0, _, _, _ => none
  | fuel + 1, s, prev, cur =>
    if cur = 0 then some (some (prev, cur), s)
    else
      match deref s.mem cur with
      | none => none
      | some c =>
        if c.key < key then
          match loadAndSetHazard s cur i 0 with
          | none => none
          | some (next, s1) =>
            if markedi next then some (none, s1)
            else
              match loadNext s1 prev i with
              | none => none
              | some pn =>
                if pn ≠ cur then some (none, s1)
                else insertIndexWalk key i fuel (setHazard (setHazard s1 2 cur) 1 next) cur next
        else some (some (prev, cur), s)

/-- The loop `for (int i = std::max(level, height_); i > 0; --i)` of `insert`, with `m`
levels left (the level in hand is `m`); returns `overage` at the label `exit`. -/
def insertIndexLevels (key : K) (n : Nat) (level : Nat) (fuel : Nat) :
    Nat → ConcurrentSkipListMap K V → Nat → Int → Option (Int × ConcurrentSkipListMap K V)
  | 0, s, _, overage => some (overage, s)
  | i + 1, s, prev, overage =>
    match loadAndSetHazard s prev (i + 1) 1 with
    | none => none
    | some (cur, s1) =>
      if marked0 cur then some (overage, s1)
      else
        match insertIndexWalk key (i + 1) fuel s1 prev cur with
        | none => none
        | some (none, s2) => some (overage, s2)
        | some (some (prev2, cur2), s2) =>
          if i + 1 ≤ level then
            match storeNext s2 n (i + 1) cur2 with
            | none => none
            | some s3 =>
              match casNext s3 prev2 (i + 1) cur2 n with
              | none => none
              | some (false, s4) => some (overage, s4)
              | some (true, s4) =>
                match dead s4 n with
                | none => none
                | some true => some (overage - 1, s4)
                | some false => insertIndexLevels key n level fuel i s4 prev2 (overage - 1)
          else
            match dead s2 n with
            | none => none
            | some true => some (overage, s2)
            | some false => insertIndexLevels key n level fuel i s2 prev2 overage

/-- The part of `insert` from the label `exit` on: the `assert`, the correction of
`link_count` by `overage`, the release of the four hazard slots, `return true`. -/
def insertExit (n : Nat) (overage : Int) (s : ConcurrentSkipListMap K V) :
    Option (Bool × ConcurrentSkipListMap K V) :=
  if overage < 0 then none
  else if overage > 0 then
    match deref s.mem n with
    | none => none
    | some nd =>
      let lc := (((nd.link_count : Int) - overage) % 256).toNat
      match modifyNode s n (fun x => { x with link_count := lc }) with
      | none => none
      | some s1 =>
        some (true, clearHazard (clearHazards (if lc = 0 then retireNode s1 n else s1)) 3)
  else some (true, clearHazard (clearHazards s) 3)

/-- The method `insert`, as a function of the value `r` drawn by `randomLevel`. -/
def insert (key : K) (value : V) (r : Int) (fuel : Nat) (s : ConcurrentSkipListMap K V) :
    Option (Bool × ConcurrentSkipListMap K V) :=
  let level0 := randomLevel r
  let level := if level0 > s.height_ then s.height_ + 1 else level0
  let s0 := if level0 > s.height_ then { s with height_ := s.height_ + 1 } else s
  match find key fuel s0 with
  | none => none
  | some (result, s1) =>
    if result.match_ then some (false, s1)
    else
      let (n, s2) := allocNode s1 (mkNode (level + 1) key value)
      match modifyNode (setHazard s2 3 n) n (fun x => { x with link_count := x.height }) with
      | none => none
      | some s3 =>
        match insertLink key n fuel fuel s3 result with
        | none => none
        | some (false, s4) => some (false, s4)
        | some (true, s4) =>
          match deref s4.mem n with
          | none => none
          | some nd =>
            match insertIndexLevels key n level fuel (max level s4.height_) s4 s4.head_
                ((nd.height : Int) - 1) with
            | none => none
            | some (overage, s5) => insertExit n overage s5

end Operations

/-! ## Describing states

The level-0 list of a state is described by the list of its nodes, each with its address,
in the order in which `next_[0]` links them. -/

section States

variable {K V : Type}

/-- The address of the first node of `l`, or `c` when `l` is empty. -/
def headPtr : List (Nat × Node K V) → Nat → Nat
  | [], c => c
  | (a, _) :: _, _ => a

/-- The address of the last node of `l`, or `p` when `l` is empty. -/
def lastPtr : List (Nat × Node K V) → Nat → Nat
  | [], p => p
  | (a, _) :: l, _ => lastPtr l a

/-- A segment of the level-0 list: the nodes of `l` sit in memory at their addresses, the
`next_[0]` of each is the unmarked address of the one after it, and the `next_[0]` of the
last one is `c`. -/
def Seg (mem : List (Node K V)) : List (Nat × Node K V) → Nat → Prop
  | [], _ => True
  | (a, n) :: l, c => deref mem a = some n ∧ n.next_[0]? = some (headPtr l c) ∧ Seg mem l c

/-- A node as `insert` leaves it when no thread interferes: `height` entries in `next_`, all
above level 0 still marked null, and `link_count` 1. -/
def NodeOk (n : Node K V) : Prop :=
  n.next_.tail = List.replicate (n.height - 1) (mark 0) ∧ 1 ≤ n.height ∧
    n.height ≤ kMaxHeight ∧ n.link_count = 1

/-- The head sentinel has `kMaxHeight` entries in `next_`: `first` on level 0 and marked null
above. -/
def HeadOk (s : ConcurrentSkipListMap K V) (first : Nat) : Prop :=
  (deref s.mem s.head_).map (fun h => h.next_) =
    some (first :: List.replicate (kMaxHeight - 1) (mark 0))

/-- The entries stored in the nodes `l`. -/
def entriesOf (l : List (Nat × Node K V)) : List (K × V) :=
  l.map (fun x => (x.2.key, x.2.value))

/-- A quiescent state whose level-0 list is `l`: `head_` points to the sentinel, whose
`next_[0]` starts the list `l`, which ends in null, carries no mark, has strictly ascending
keys and does not contain the sentinel; `height_` is below `kMaxHeight`. -/
def Quiescent [LT K] (s : ConcurrentSkipListMap K V) (l : List (Nat × Node K V)) : Prop :=
  HeadOk s (headPtr l 0) ∧ Seg s.mem l 0 ∧ (l.map (fun x => x.2.key)).Pairwise (· < ·) ∧
    (∀ x ∈ l, NodeOk x.2) ∧ (∀ x ∈ l, x.1 ≠ s.head_) ∧ s.height_ < kMaxHeight

/-- A quiescent state that holds exactly the entries `m`, in this order along level 0. -/
def Holds [LT K] (s : ConcurrentSkipListMap K V) (m : List (K × V)) : Prop :=
  ∃ l, Quiescent s l ∧ entriesOf l = m

/-- The value that the entries `m` bind to `k`: that of the first entry with key `k`. -/
def lookup [DecidableEq K] (m : List (K × V)) (k : K) : Option V :=
  (m.find? (fun e => decide (e.1 = k))).map (fun e => e.2)

/-- The state after the inner loop of `find` on level 0 has advanced over the nodes `l`, whose
last `next_[0]` is `c`: each advance publishes the successor in slots 0 and 1 and the node
in slot 2. -/
def walkState (s : ConcurrentSkipListMap K V) :
    List (Nat × Node K V) → Nat → ConcurrentSkipListMap K V
  | [], _ => s
  | (a, _) :: l, c =>
    walkState (setHazard (setHazard (setHazard s 0 (headPtr l c)) 2 a) 1 (headPtr l c)) l c

/-- The address of the node after the first node of `l`, null if there is none. -/
def nextOf : List (Nat × Node K V) → Nat
  | [] => 0
  | _ :: r => headPtr r 0

/-- Whether the first node of `l` exists and has key `key`. -/
def matchOf [DecidableEq K] (key : K) : List (Nat × Node K V) → Bool
  | [] => false
  | (_, n) :: _ => decide (n.key = key)

/-- The state in which `find` returns on a quiescent state `s` whose level-0 list is
`l1 ++ l2`, when it stops between `l1` and `l2`: only the hazard slots differ from `s`. -/
def findState (s : ConcurrentSkipListMap K V) (l1 l2 : List (Nat × Node K V)) :
    ConcurrentSkipListMap K V :=
  match l2 with
  | [] => walkState (setHazard (setHazard s 2 s.head_) 1 (headPtr l1 0)) l1 0
  | (a, _) :: r =>
    setHazard (walkState (setHazard (setHazard s 2 s.head_) 1 (headPtr l1 a)) l1 a) 0
      (headPtr r 0)

/-- The node `n` with `next_[0]` set to `c`. -/
def Node.withNext (n : Node K V) (c : Nat) : Node K V :=
  { n with next_ := n.next_.set 0 c }

/-- The nodes `l` with the `next_[0]` of the last one set to `c`. -/
def setLast (c : Nat) : List (Nat × Node K V) → List (Nat × Node K V)
  | [] => []
  | [(a, n)] => [(a, n.withNext c)]
  | x :: y :: l => x :: setLast c (y :: l)

/-- The nodes of `l` before the first one whose key is not below `key`. -/
def nodesBelow [LinearOrder K] (key : K) (l : List (Nat × Node K V)) :
    List (Nat × Node K V) :=
  l.takeWhile (fun x => decide (x.2.key < key))

/-- The nodes of `l` from the first one whose key is not below `key` on. -/
def nodesFrom [LinearOrder K] (key : K) (l : List (Nat × Node K V)) :
    List (Nat × Node K V) :=
  l.dropWhile (fun x => decide (x.2.key < key))

/-- Walking from the sentinel along `next_[0]` visits exactly the nodes `l`, in this order,
and then reaches null. -/
def Level0 (s : ConcurrentSkipListMap K V) (l : List (Nat × Node K V)) : Prop :=
  loadNext s s.head_ 0 = some (headPtr l 0) ∧ Seg s.mem l 0

end States

/-! ## The abstract map

A finite map as a list of bindings, read by `lookup`; `insert` is put-if-absent and `erase`
is remove. -/

section Abstract

variable {K V : Type}

/-- One call of `insert` (with the random value it draws) or of `erase`. -/
inductive Op (K V : Type) where
  | insert (k : K) (v : V) (r : Int)
  | erase (k : K)

/-- Put-if-absent on the abstract map. -/
def putIfAbsent [DecidableEq K] (m : List (K × V)) (k : K) (v : V) : List (K × V) :=
  if (lookup m k).isSome then m else (k, v) :: m

/-- Remove on the abstract map. -/
def remove [DecidableEq K] (m : List (K × V)) (k : K) : List (K × V) :=
  m.filter (fun e => !decide (e.1 = k))

/-- The effect of one call on the abstract map. -/
def absStep [DecidableEq K] (m : List (K × V)) : Op K V → List (K × V)
  | .insert k v _ => putIfAbsent m k v
  | .erase k => remove m k

/-- The abstract map after the calls `ops` on the empty map. -/
def absRun [DecidableEq K] (ops : List (Op K V)) : List (K × V) :=
  ops.foldl absStep []

/-- One call on the skip list: its return value and the state after it. -/
def step [LinearOrder K] (fuel : Nat) (s : ConcurrentSkipListMap K V) :
    Op K V → Option (Bool × ConcurrentSkipListMap K V)
  | .insert k v r => insert k v r fuel s
  | .erase k => erase k fuel s

/-- The state after the calls `ops`, made one after the other by one thread. -/
def runOps [LinearOrder K] (fuel : Nat) :
    List (Op K V) → ConcurrentSkipListMap K V → Option (ConcurrentSkipListMap K V)
  | [], s => some s
  | op :: ops, s =>
    match step fuel s op with
    | none => none
    | some (_, s1) => runOps fuel ops s1

end Abstract

/-! ## Deciding the invariant, and a sample state -/

section Samples

/-- Whether `l` is a segment can be computed. -/
instance Seg.decidable {K V : Type} [DecidableEq K] [DecidableEq V] (mem : List (Node K V)) :
    ∀ (l : List (Nat × Node K V)) (c : Nat), Decidable (Seg mem l c)
  | [], _ => isTrue trivial
  | _ :: l, c =>
    @instDecidableAnd _ _ _ (@instDecidableAnd _ _ _ (Seg.decidable mem l c))

/-- Whether a node is as `insert` leaves it can be computed. -/
instance NodeOk.decidable {K V : Type} (n : Node K V) : Decidable (NodeOk n) := by
  unfold NodeOk; infer_instance

/-- Whether the sentinel is in order can be computed. -/
instance HeadOk.decidable {K V : Type} (s : ConcurrentSkipListMap K V) (first : Nat) :
    Decidable (HeadOk s first) := by
  unfold HeadOk; infer_instance

/-- Whether a state is quiescent with level-0 list `l` can be computed. -/
instance Quiescent.decidable {K V : Type} [LinearOrder K] [DecidableEq V]
    (s : ConcurrentSkipListMap K V) (l : List (Nat × Node K V)) : Decidable (Quiescent s l) := by
  unfold Quiescent; infer_instance

/-- The nodes of `demoMap`: key 1 at address 16 and key 3 at address 24. -/
def demoNodes : List (Nat × Node Nat Nat) :=
  [(16, ⟨1, 10, 1, 1, [24]⟩), (24, ⟨3, 30, 2, 1, [0, 1]⟩)]

/-- The entries of `demoMap`. -/
def demoEntries : List (Nat × Nat) := [(1, 10), (3, 30)]

/-- A map of natural numbers that holds the entries (1, 10) and (3, 30). -/
def demoMap : ConcurrentSkipListMap Nat Nat :=
  { mem := [⟨0, 0, 12, 0, [16, 1, 1, 1, 1, 1, 1, 1, 1, 1, 1, 1]⟩, ⟨1, 10, 1, 1, [24]⟩,
      ⟨3, 30, 2, 1, [0, 1]⟩]
    head_ := 8
    height_ := 1
    hp := ⟨0, 0, 0, 0⟩
    retired := [] }

/-- The calls of the ordered-iteration scenario: inserts of the keys 3, 1, 4, 1, 5, 9, 2, 6,
the value being ten times the key, but 11 for the second insert of key 1. -/
def piOps : List (Op Nat Nat) :=
  [.insert 3 30 0, .insert 1 10 6, .insert 4 40 2, .insert 1 11 14, .insert 5 50 0,
    .insert 9 90 (-1), .insert 2 20 30, .insert 6 60 2]

/-- The state that another thread sees while a thread is inside `erase(1)`, between its
marking loop and its second `find`, on a map built by `insert(1, 10)` and `insert(2, 20)`:
the node with key 1 is marked and still linked. The hazard slots are those of the other
thread, all null. -/
def midErase : Option (ConcurrentSkipListMap Nat Nat) :=
  match runOps 5 [.insert 1 10 0, .insert 2 20 0] ConcurrentSkipListMap.new with
  | none => none
  | some s =>
    match eraseMark 1 5 s with
    | none => none
    | some (_, s1) => some { s1 with hp := ⟨0, 0, 0, 0⟩ }

end Samples

/-! ## A scan preempted by an erase -/

section Preempted

variable {K V : Type} [LinearOrder K]

/-- A call `values()` of one thread, during which another thread runs a call `erase(k)` to
completion: the scanner executes `cur = hp.loadAndSetHazard(prev->next_[0], 1)` after the
label `try_again`, the other thread then runs `erase(k)`, and the scanner goes on with the
`for (;;)` loop of `extractor`. The hazard slots are per thread: the eraser starts with its
own four slots null, and the scanner finds its slots as it left them. The result is the
vector returned by `values()`, the result of `erase(k)` and the final state. -/
def valuesDuringErase (k : K) (fuel : Nat) (s : ConcurrentSkipListMap K V) :
    Option (List V × Bool × ConcurrentSkipListMap K V) :=
  match loadAndSetHazard s s.head_ 0 1 with
  | none => none
  | some (cur, s1) =>
    match erase k fuel { s1 with hp := ⟨0, 0, 0, 0⟩ } with
    | none => none
    | some (b, s2) =>
      match extractLoop (fun n => n.value) fuel fuel { s2 with hp := s1.hp } s.head_ cur [] with
      | none => none
      | some (.again s3 ret) =>
        (extractRetry (fun n => n.value) fuel fuel s3 ret).map fun r => (r.1, b, r.2)
      | some (.done s3 ret) => some (ret, b, clearHazards s3)

end Preempted

/-! ## The bits of the random value -/

/-- The number of consecutive 1-bits of `r` from bit `j` upwards, looking at `n` bits; the
bits of a negative `r` are those of its two's-complement pattern. -/
def onesFrom (r : Int) : Nat → Nat → Nat
  | _, 0 => 0
  | j, n + 1 => if r.testBit j then onesFrom r (j + 1) n + 1 else 0

/-! ## Runs of calls of all public methods -/

section Calls

variable {K V : Type}

/-- One call of a public method of the map; `insert` carries the value its `randomLevel`
draws and `find` what `*value` holds at the call. -/
inductive Call (K V : Type) where
  | insert (k : K) (v : V) (r : Int)
  | find (k : K) (out : V)
  | existsKey (k : K)
  | erase (k : K)
  | firstKey
  | values
  | entries

/-- Whether the call is a call of `insert`. -/
def Call.isInsert : Call K V → Bool
  | .insert _ _ _ => true
  | _ => false

/-- The state after one call, made by one thread. -/
def applyCall [LinearOrder K] [Inhabited K] (fuel : Nat) (s : ConcurrentSkipListMap K V) :
    Call K V → Option (ConcurrentSkipListMap K V)
  | .insert k v r => (insert k v r fuel s).map (fun x => x.2)
  | .find k out => (findValue k out fuel s).map (fun x => x.2.2)
  | .existsKey k => (existsKey k fuel s).map (fun x => x.2)
  | .erase k => (erase k fuel s).map (fun x => x.2)
  | .firstKey => (firstKey fuel s).map (fun x => x.2)
  | .values => (values fuel s).map (fun x => x.2)
  | .entries => (entries fuel s).map (fun x => x.2)

/-- The state after the calls `cs`, made one after the other by one thread. -/
def runCalls [LinearOrder K] [Inhabited K] (fuel : Nat) :
    List (Call K V) → ConcurrentSkipListMap K V → Option (ConcurrentSkipListMap K V)
  | [], s => some s
  | c :: cs, s =>
    match applyCall fuel s c with
    | none => none
    | some s1 => runCalls fuel cs s1

end Calls

/-! ## Links to a node -/

section Links

variable {K V : Type}

/-- Whether `next_[i]` of the node `n` holds the address `a`, marked or not. -/
def pointsTo (n : Node K V) (i a : Nat) : Bool :=
  match n.next_[i]? with
  | some p => decide (clear p = a)
  | none => false

/-- The nodes of the list `l`, sentinel included, as memory holds them. -/
def listNodes (s : ConcurrentSkipListMap K V) (l : List (Nat × Node K V)) : List (Node K V) :=
  (s.head_ :: l.map Prod.fst).filterMap (deref s.mem)

/-- The number of levels `i` on which `next_[i]` of some node of the list points to the node
at address `a`. -/
def linkedLevels (s : ConcurrentSkipListMap K V) (l : List (Nat × Node K V)) (a : Nat) : Nat :=
  ((List.range kMaxHeight).filter
    (fun i => (listNodes s l).any (fun n => pointsTo n i a))).length

end Links

/-! ## Runs that record the return values, and the retired nodes -/

section Retired

variable {K V : Type}

/-- The return values of the calls `ops`, made one after the other by one thread, and the
state after them. -/
def runTrace [LinearOrder K] (fuel : Nat) :
    List (Op K V) → ConcurrentSkipListMap K V →
      Option (List Bool × ConcurrentSkipListMap K V)
  | [], s => some ([], s)
  | op :: ops, s =>
    match step fuel s op with
    | none => none
    | some (b, s1) =>
      match runTrace fuel ops s1 with
      | none => none
      | some (bs, s2) => some (b :: bs, s2)

/-- The number of calls of `erase` among `ops` that returned true, `bs` being the return
values of `ops`. -/
def eraseHits : List (Op K V) → List Bool → Nat
  | .erase _ :: ops, true :: bs => eraseHits ops bs + 1
  | _ :: ops, _ :: bs => eraseHits ops bs
  | _, _ => 0

/-- The retired list of a state whose level-0 list is `l`: no node is retired twice, and a
retired node is neither the sentinel nor in the list, and is allocated with `link_count` 0. -/
def RetiredOk (s : ConcurrentSkipListMap K V) (l : List (Nat × Node K V)) : Prop :=
  s.retired.Nodup ∧
    ∀ a ∈ s.retired, a ∉ s.head_ :: l.map Prod.fst ∧
      ∃ n, deref s.mem a = some n ∧ n.link_count = 0

end Retired

/-! ## The metric registry

`metric_registry_impl.h` declares the registry; the bodies of its methods are not part of the
sources and follow the specification: a hash map per kind of metric with get-or-insert. -/

section Registry

/-- Modelled from the spec: `metric_registry_impl.cc` is missing. The registry holds one map
from names to objects per kind of metric (`MetricMap<T>::metrics`); objects are numbered in
the order of their allocation, and `allocated` counts them. The mutexes are not modelled. -/
structure MetricRegistryImpl where
  counters_ : List (String × Nat)
  timers_ : List (String × Nat)
  meters_ : List (String × Nat)
  allocated : Nat
  deriving DecidableEq

/-- Modelled from the spec: `metric_registry_impl.cc` is missing. The constructor: three
empty maps. -/
def MetricRegistryImpl.new : MetricRegistryImpl := ⟨[], [], [], 0⟩

/-- Modelled from the spec: `metric_registry_impl.cc` is missing. Get-or-insert on one map:
the object registered under `name` if there is one, else a newly allocated object, which is
registered under `name`. Returns the object, the map and the count of allocated objects. -/
def getOrInsert (m : List (String × Nat)) (name : String) (allocated : Nat) :
    Nat × List (String × Nat) × Nat :=
  match m.lookup name with
  | some p => (p, m, allocated)
  | none => (allocated, (name, allocated) :: m, allocated + 1)

/-- Modelled from the spec: `metric_registry_impl.cc` is missing. The method `counter`:
"a new or existing counter". -/
def MetricRegistryImpl.counter (reg : MetricRegistryImpl) (name : String) :
    Nat × MetricRegistryImpl :=
  let r := getOrInsert reg.counters_ name reg.allocated
  (r.1, { reg with counters_ := r.2.1, allocated := r.2.2 })

/-- Modelled from the spec: `metric_registry_impl.cc` is missing. The method `timer`:
"a new or existing timer". -/
def MetricRegistryImpl.timer (reg : MetricRegistryImpl) (name : String) :
    Nat × MetricRegistryImpl :=
  let r := getOrInsert reg.timers_ name reg.allocated
  (r.1, { reg with timers_ := r.2.1, allocated := r.2.2 })

/-- Modelled from the spec: `metric_registry_impl.cc` is missing. The method `meter`:
"a new or existing meter". -/
def MetricRegistryImpl.meter (reg : MetricRegistryImpl) (name : String) :
    Nat × MetricRegistryImpl :=
  let r := getOrInsert reg.meters_ name reg.allocated
  (r.1, { reg with meters_ := r.2.1, allocated := r.2.2 })

/-- Modelled from the spec: `metric_registry_impl.cc` is missing. The method `counters`:
"all registered counter metrics". -/
def MetricRegistryImpl.counters (reg : MetricRegistryImpl) : List (String × Nat) :=
  reg.counters_

/-- Modelled from the spec: `metric_registry_impl.cc` is missing. The method `timers`:
"all registered timer metrics". -/
def MetricRegistryImpl.timers (reg : MetricRegistryImpl) : List (String × Nat) :=
  reg.timers_

/-- One call that registers a metric. -/
inductive RegCall where
  | counter (name : String)
  | timer (name : String)
  | meter (name : String)

/-- The registry after the calls `cs`. -/
def runReg : List RegCall → MetricRegistryImpl → MetricRegistryImpl
  | [], reg => reg
  | .counter n :: cs, reg => runReg cs (reg.counter n).2
  | .timer n :: cs, reg => runReg cs (reg.timer n).2
  | .meter n :: cs, reg => runReg cs (reg.meter n).2

/-- A map of the registry with `allocated` objects: no name and no object occurs twice, and
every object has been allocated. -/
def MapOk (m : List (String × Nat)) (allocated : Nat) : Prop :=
  (m.map Prod.fst).Nodup ∧ (m.map Prod.snd).Nodup ∧ ∀ e ∈ m, e.2 < allocated

end Registry

/-! ## Lemmas on pointers and memory -/

section PointerLemmas

theorem clear_of_even {p : Nat} (h : p % 2 = 0) : clear p = p := by
  unfold clear; rw [Nat.and_one_is_mod]; omega

theorem marked0_of_even {p : Nat} (h : p % 2 = 0) : marked0 p = false := by
  simp [marked0, Nat.and_one_is_mod, h]

theorem markedi_of_even {p : Nat} (h : p % 2 = 0) : markedi p = false := by
  simp [markedi, Nat.and_one_is_mod, h]

theorem marked_of_even {p : Nat} (h : p % 2 = 0) (i : Nat) : marked p i = false := by
  unfold marked; split
  · exact marked0_of_even h
  · exact markedi_of_even h

theorem mark_of_even {p : Nat} (h : p % 2 = 0) : mark p = p + 1 := by
  obtain ⟨m, rfl⟩ : ∃ m, p = 2 * m := ⟨p / 2, by omega⟩
  have := Nat.mul_add_lt_is_or (i := 1) (b := 1) (by decide) m
  simpa [mark] using this.symm

theorem clear_succ_of_even {p : Nat} (h : p % 2 = 0) : clear (p + 1) = p := by
  unfold clear; rw [Nat.and_one_is_mod]; omega

theorem marked0_succ_of_even {p : Nat} (h : p % 2 = 0) : marked0 (p + 1) = true := by
  simp [marked0, Nat.and_one_is_mod]; omega

theorem mark_zero : mark 0 = 1 := by decide

theorem markedi_one : markedi 1 = false := by decide

theorem marked0_one : marked0 1 = true := by decide

theorem clear_one : clear 1 = 0 := by decide

end PointerLemmas

section MemoryLemmas

variable {K V : Type}

theorem deref_valid {mem : List (Node K V)} {p : Nat} {n : Node K V}
    (h : deref mem p = some n) : p % 8 = 0 ∧ p ≠ 0 ∧ slot p < mem.length := by
  unfold deref at h
  split at h
  · rename_i hp
    refine ⟨hp.1, hp.2, ?_⟩
    exact (List.getElem?_eq_some.mp h).1
  · cases h

theorem deref_even {mem : List (Node K V)} {p : Nat} {n : Node K V}
    (h : deref mem p = some n) : p % 2 = 0 := by
  have := (deref_valid h).1; omega

theorem deref_ne_zero {mem : List (Node K V)} {p : Nat} {n : Node K V}
    (h : deref mem p = some n) : p ≠ 0 := (deref_valid h).2.1

theorem deref_zero (mem : List (Node K V)) : deref mem 0 = none := by
  simp [deref]

theorem deref_set {mem : List (Node K V)} {p : Nat} {n : Node K V}
    (h : deref mem p = some n) (n1 : Node K V) (q : Nat) :
    deref (mem.set (slot p) n1) q = if q = p then some n1 else deref mem q := by
  obtain ⟨hp8, hp0, hlt⟩ := deref_valid h
  unfold deref
  by_cases hq : q % 8 = 0 ∧ q ≠ 0
  · rw [if_pos hq]
    by_cases hqp : q = p
    · subst hqp; simp [hlt]
    · have hs : slot p ≠ slot q := by
        unfold slot; omega
      rw [List.getElem?_set_ne hs, if_neg hqp, if_pos hq]
  · rw [if_neg hq]
    have hqp : q ≠ p := by
      rintro rfl; exact hq ⟨hp8, hp0⟩
    rw [if_neg hqp, if_neg hq]

theorem deref_fresh (mem : List (Node K V)) : deref mem (freshPtr mem) = none := by
  unfold deref freshPtr slot
  rw [if_pos (by omega)]
  apply List.getElem?_eq_none
  omega

theorem deref_append (mem : List (Node K V)) (n : Node K V) (q : Nat) :
    deref (mem ++ [n]) q = if q = freshPtr mem then some n else deref mem q := by
  unfold deref
  by_cases hq : q % 8 = 0 ∧ q ≠ 0
  · rw [if_pos hq]
    by_cases hqf : q = freshPtr mem
    · subst hqf
      have : slot (freshPtr mem) = mem.length := by unfold slot freshPtr; omega
      simp [this]
    · rw [if_neg hqf, if_pos hq]
      unfold freshPtr at hqf
      by_cases hlt : slot q < mem.length
      · rw [List.getElem?_append_left hlt]
      · have h1 : mem.length < slot q := by unfold slot at *; omega
        rw [List.getElem?_eq_none (by simp; omega), List.getElem?_eq_none (by omega)]
  · rw [if_neg hq]
    have : q ≠ freshPtr mem := by
      rintro rfl; apply hq; unfold freshPtr; omega
    rw [if_neg this, if_neg hq]

end MemoryLemmas

/-! ## Lemmas on the search primitive -/

section StateLemmas

variable {K V : Type}

@[simp] theorem setHazard_mem (s : ConcurrentSkipListMap K V) (i p : Nat) :
    (setHazard s i p).mem = s.mem := rfl
@[simp] theorem setHazard_head (s : ConcurrentSkipListMap K V) (i p : Nat) :
    (setHazard s i p).head_ = s.head_ := rfl
@[simp] theorem setHazard_height (s : ConcurrentSkipListMap K V) (i p : Nat) :
    (setHazard s i p).height_ = s.height_ := rfl
@[simp] theorem setHazard_retired (s : ConcurrentSkipListMap K V) (i p : Nat) :
    (setHazard s i p).retired = s.retired := rfl
@[simp] theorem clearHazard_mem (s : ConcurrentSkipListMap K V) (i : Nat) :
    (clearHazard s i).mem = s.mem := rfl
@[simp] theorem clearHazard_head (s : ConcurrentSkipListMap K V) (i : Nat) :
    (clearHazard s i).head_ = s.head_ := rfl
@[simp] theorem clearHazard_height (s : ConcurrentSkipListMap K V) (i : Nat) :
    (clearHazard s i).height_ = s.height_ := rfl
@[simp] theorem clearHazard_retired (s : ConcurrentSkipListMap K V) (i : Nat) :
    (clearHazard s i).retired = s.retired := rfl
@[simp] theorem retireNode_mem (s : ConcurrentSkipListMap K V) (p : Nat) :
    (retireNode s p).mem = s.mem := rfl
@[simp] theorem retireNode_head (s : ConcurrentSkipListMap K V) (p : Nat) :
    (retireNode s p).head_ = s.head_ := rfl
@[simp] theorem retireNode_height (s : ConcurrentSkipListMap K V) (p : Nat) :
    (retireNode s p).height_ = s.height_ := rfl

theorem loadNext_of_deref {s : ConcurrentSkipListMap K V} {p : Nat} {n : Node K V}
    (h : deref s.mem p = some n) (i : Nat) : loadNext s p i = n.next_[i]? := by
  simp [loadNext, h]

@[simp] theorem loadNext_setHazard (s : ConcurrentSkipListMap K V) (j v p i : Nat) :
    loadNext (setHazard s j v) p i = loadNext s p i := rfl

@[simp] theorem dead_setHazard (s : ConcurrentSkipListMap K V) (j v p : Nat) :
    dead (setHazard s j v) p = dead s p := rfl

theorem loadAndSetHazard_eq {s : ConcurrentSkipListMap K V} {p lvl v : Nat}
    (h : loadNext s p lvl = some v) (i : Nat) :
    loadAndSetHazard s p lvl i = some (v, setHazard s i v) := by
  simp [loadAndSetHazard, h]

theorem loadAndSetHazardOrFail_eq {s : ConcurrentSkipListMap K V} {p lvl v : Nat}
    (h : loadNext s p lvl = some v) (i : Nat) :
    loadAndSetHazardOrFail s p lvl i = some (true, v, setHazard s i v) := by
  simp [loadAndSetHazardOrFail, h]

theorem dead_eq {s : ConcurrentSkipListMap K V} {p v : Nat}
    (h : loadNext s p 0 = some v) : dead s p = some (marked0 v) := by
  simp [dead, h, marked0]

end StateLemmas

section FindLemmas

variable {K V : Type} [LinearOrder K]

theorem findInner_null (key : K) (i f : Nat) (s : ConcurrentSkipListMap K V) (prev next : Nat) :
    findInner key i (f + 1) s prev 0 next = some (.brk s prev 0 next) := by
  simp [findInner, clear]

theorem findInner_stub (key : K) (i f : Nat) (s : ConcurrentSkipListMap K V) (prev next : Nat) :
    findInner key i (f + 1) s prev 1 next = some (.brk s prev 1 next) := by
  simp [findInner, clear]

theorem findInner_live_lt {key : K} {s : ConcurrentSkipListMap K V} {prev cur q : Nat}
    {c : Node K V} (hc : deref s.mem cur = some c) (hq : c.next_[0]? = some q)
    (hqe : q % 2 = 0) (hp : loadNext s prev 0 = some cur) (hk : c.key < key) (f next : Nat) :
    findInner key 0 (f + 1) s prev cur next =
      findInner key 0 f (setHazard (setHazard (setHazard s 0 q) 2 cur) 1 q) cur q q := by
  have hcl : clear cur = cur := clear_of_even (deref_even hc)
  have hne : cur ≠ 0 := deref_ne_zero hc
  have hl : loadNext s cur 0 = some q := by rw [loadNext_of_deref hc]; exact hq
  have hq1 : q &&& 1 = 0 := by rw [Nat.and_one_is_mod]; exact hqe
  rw [findInner]
  simp only [hcl, hne, if_false, loadAndSetHazardOrFail_eq hl, loadNext_setHazard, hp, ne_eq,
    not_true_eq_false, marked_of_even hqe, Bool.false_eq_true, dead_setHazard, dead_eq hl, marked0_of_even hqe,
    setHazard_mem, hc, ge_iff_le, not_le.mpr hk, hq1, clear_of_even hqe]

theorem findInner_live_ge {key : K} {s : ConcurrentSkipListMap K V} {prev cur q : Nat}
    {c : Node K V} (hc : deref s.mem cur = some c) (hq : c.next_[0]? = some q)
    (hqe : q % 2 = 0) (hp : loadNext s prev 0 = some cur) (hk : key ≤ c.key) (f next : Nat) :
    findInner key 0 (f + 1) s prev cur next = some (.brk (setHazard s 0 q) prev cur q) := by
  have hcl : clear cur = cur := clear_of_even (deref_even hc)
  have hne : cur ≠ 0 := deref_ne_zero hc
  have hl : loadNext s cur 0 = some q := by rw [loadNext_of_deref hc]; exact hq
  rw [findInner]
  simp only [hcl, hne, if_false, loadAndSetHazardOrFail_eq hl, loadNext_setHazard, hp, ne_eq,
    not_true_eq_false, marked_of_even hqe, Bool.false_eq_true, dead_setHazard, dead_eq hl, marked0_of_even hqe,
    setHazard_mem, hc, ge_iff_le, hk, if_true]

end FindLemmas


section SegLemmas

variable {K V : Type}

@[simp] theorem walkState_mem (l : List (Nat × Node K V)) (c : Nat) :
    ∀ s : ConcurrentSkipListMap K V, (walkState s l c).mem = s.mem := by
  induction l with
  | nil => intro s; rfl
  | cons x l ih => intro s; obtain ⟨a, n⟩ := x; simp [walkState, ih]

@[simp] theorem walkState_head (l : List (Nat × Node K V)) (c : Nat) :
    ∀ s : ConcurrentSkipListMap K V, (walkState s l c).head_ = s.head_ := by
  induction l with
  | nil => intro s; rfl
  | cons x l ih => intro s; obtain ⟨a, n⟩ := x; simp [walkState, ih]

@[simp] theorem walkState_height (l : List (Nat × Node K V)) (c : Nat) :
    ∀ s : ConcurrentSkipListMap K V, (walkState s l c).height_ = s.height_ := by
  induction l with
  | nil => intro s; rfl
  | cons x l ih => intro s; obtain ⟨a, n⟩ := x; simp [walkState, ih]

@[simp] theorem walkState_retired (l : List (Nat × Node K V)) (c : Nat) :
    ∀ s : ConcurrentSkipListMap K V, (walkState s l c).retired = s.retired := by
  induction l with
  | nil => intro s; rfl
  | cons x l ih => intro s; obtain ⟨a, n⟩ := x; simp [walkState, ih]

theorem headPtr_even {mem : List (Node K V)} {l : List (Nat × Node K V)} {c : Nat}
    (h : Seg mem l c) (hc : c % 2 = 0) : headPtr l c % 2 = 0 := by
  cases l with
  | nil => exact hc
  | cons x l => obtain ⟨a, n⟩ := x; exact deref_even h.1

theorem headPtr_append (l1 l2 : List (Nat × Node K V)) (c : Nat) :
    headPtr (l1 ++ l2) c = headPtr l1 (headPtr l2 c) := by
  cases l1 with
  | nil => rfl
  | cons x l => rfl

theorem seg_append {mem : List (Node K V)} (l1 l2 : List (Nat × Node K V)) (c : Nat) :
    Seg mem (l1 ++ l2) c ↔ Seg mem l1 (headPtr l2 c) ∧ Seg mem l2 c := by
  induction l1 with
  | nil => simp [Seg]
  | cons x l ih =>
    obtain ⟨a, n⟩ := x
    show (deref mem a = some n ∧ n.next_[0]? = some (headPtr (l ++ l2) c) ∧
        Seg mem (l ++ l2) c) ↔
      (deref mem a = some n ∧ n.next_[0]? = some (headPtr l (headPtr l2 c)) ∧
        Seg mem l (headPtr l2 c)) ∧ Seg mem l2 c
    rw [ih, headPtr_append]; tauto

theorem seg_congr {mem mem1 : List (Node K V)} {l : List (Nat × Node K V)} {c : Nat}
    (h : Seg mem l c) (hm : ∀ x ∈ l, deref mem1 x.1 = deref mem x.1) : Seg mem1 l c := by
  induction l with
  | nil => trivial
  | cons x l ih =>
    obtain ⟨a, n⟩ := x
    refine ⟨?_, h.2.1, ih h.2.2 (fun y hy => hm y (List.mem_cons_of_mem _ hy))⟩
    rw [hm (a, n) (List.mem_cons_self _ _)]; exact h.1

theorem seg_deref {mem : List (Node K V)} {l : List (Nat × Node K V)} {c : Nat}
    (h : Seg mem l c) {x : Nat × Node K V} (hx : x ∈ l) : deref mem x.1 = some x.2 := by
  induction l with
  | nil => cases hx
  | cons y l ih =>
    obtain ⟨a, n⟩ := y
    rcases List.mem_cons.mp hx with rfl | hx
    · exact h.1
    · exact ih h.2.2 hx

theorem seg_last_load {s : ConcurrentSkipListMap K V} {l : List (Nat × Node K V)} {c prev : Nat}
    (h : Seg s.mem l c) (hp : loadNext s prev 0 = some (headPtr l c)) :
    loadNext s (lastPtr l prev) 0 = some c := by
  induction l generalizing prev with
  | nil => exact hp
  | cons x l ih =>
    obtain ⟨a, n⟩ := x
    apply ih h.2.2
    rw [loadNext_of_deref h.1]; exact h.2.1

end SegLemmas

section WalkLemmas

variable {K V : Type} [LinearOrder K]

theorem findInner_skip (key : K) (l : List (Nat × Node K V)) (c f : Nat) :
    ∀ (s : ConcurrentSkipListMap K V) (prev next : Nat), Seg s.mem l c →
      (∀ x ∈ l, x.2.key < key) → c % 2 = 0 → loadNext s prev 0 = some (headPtr l c) →
      findInner key 0 (f + l.length) s prev (headPtr l c) next =
        findInner key 0 f (walkState s l c) (lastPtr l prev) c (cond l.isEmpty next c) := by
  induction l with
  | nil => intro s prev next _ _ _ _; rfl
  | cons x l ih =>
    obtain ⟨a, n⟩ := x
    intro s prev next hseg hk hc hp
    have hq := headPtr_even hseg.2.2 hc
    have hlen : f + ((a, n) :: l).length = (f + l.length) + 1 := by simp; omega
    rw [hlen]
    simp only [headPtr] at hp ⊢
    rw [findInner_live_lt hseg.1 hseg.2.1 hq hp (hk (a, n) (List.mem_cons_self _ _))]
    rw [ih _ a _ (by simpa using hseg.2.2) (fun y hy => hk y (List.mem_cons_of_mem _ hy)) hc
      (by rw [loadNext_setHazard, loadNext_setHazard, loadNext_setHazard,
            loadNext_of_deref hseg.1]; exact hseg.2.1)]
    simp only [walkState, lastPtr, List.isEmpty_cons, cond_false]
    cases l with
    | nil => simp [headPtr]
    | cons y l => simp

end WalkLemmas


section HeadLemmas

variable {K V : Type}

theorem headOk_deref {s : ConcurrentSkipListMap K V} {first : Nat} (h : HeadOk s first) :
    ∃ hd, deref s.mem s.head_ = some hd ∧
      hd.next_ = first :: List.replicate (kMaxHeight - 1) (mark 0) := by
  unfold HeadOk at h
  cases hd : deref s.mem s.head_ with
  | none => rw [hd] at h; cases h
  | some n => rw [hd] at h; exact ⟨n, rfl, by simpa using h⟩

theorem headOk_load_zero {s : ConcurrentSkipListMap K V} {first : Nat} (h : HeadOk s first) :
    loadNext s s.head_ 0 = some first := by
  obtain ⟨hd, h1, h2⟩ := headOk_deref h
  rw [loadNext_of_deref h1, h2]; rfl

theorem headOk_load_succ {s : ConcurrentSkipListMap K V} {first : Nat} (h : HeadOk s first)
    {i : Nat} (hi : i + 1 < kMaxHeight) : loadNext s s.head_ (i + 1) = some 1 := by
  obtain ⟨hd, h1, h2⟩ := headOk_deref h
  rw [loadNext_of_deref h1, h2]
  simp only [List.getElem?_cons_succ]
  rw [List.getElem?_replicate]
  unfold kMaxHeight at hi ⊢
  rw [if_pos (by omega)]; rfl

theorem headOk_congr {s s1 : ConcurrentSkipListMap K V} {first : Nat} (h : HeadOk s first)
    (hm : s1.mem = s.mem) (hh : s1.head_ = s.head_) : HeadOk s1 first := by
  unfold HeadOk at h ⊢; rw [hm, hh]; exact h

end HeadLemmas

section LevelLemmas

variable {K V : Type} [LinearOrder K]

theorem findLevels_upper (key : K) {fuel : Nat} (hf : 1 ≤ fuel) {first : Nat} (i : Nat) :
    ∀ (s : ConcurrentSkipListMap K V) (cur next : Nat), HeadOk s first → i + 1 < kMaxHeight →
      findLevels key fuel (i + 2) s s.head_ cur next =
        findLevels key fuel 1 (setHazard s 1 1) s.head_ 1 next := by
  obtain ⟨f, rfl⟩ : ∃ f, fuel = f + 1 := ⟨fuel - 1, by omega⟩
  induction i with
  | zero =>
    intro s cur next h hi
    rw [findLevels, loadAndSetHazard_eq (headOk_load_succ h hi)]
    simp only [marked, markedi_one, findInner_stub]
    simp
  | succ i ih =>
    intro s cur next h hi
    rw [findLevels, loadAndSetHazard_eq (headOk_load_succ h hi)]
    simp only [marked, markedi_one, findInner_stub]
    simp only [Nat.add_one_ne_zero, if_false, Bool.false_eq_true]
    have := ih (setHazard s 1 1) 1 next (headOk_congr h rfl rfl) (by omega)
    simpa using this

theorem findLevels_one {key : K} {fuel : Nat} {s : ConcurrentSkipListMap K V} {first : Nat}
    (h : loadNext s s.head_ 0 = some first) (he : first % 2 = 0) (cur next : Nat)
    {s2 : ConcurrentSkipListMap K V} {p c n : Nat}
    (hi : findInner key 0 fuel (setHazard s 1 first) s.head_ first next = some (.brk s2 p c n)) :
    findLevels key fuel 1 s s.head_ cur next = some (.brk s2 p c n) := by
  rw [findLevels, loadAndSetHazard_eq h]
  simp only [marked_of_even he, Bool.false_eq_true, if_false, hi, findLevels]

theorem findAttempt_of_inner {key : K} {fuel : Nat} (hf : 1 ≤ fuel)
    {s : ConcurrentSkipListMap K V} {first : Nat} (h : HeadOk s first)
    (hh : s.height_ < kMaxHeight) (he : first % 2 = 0)
    {s2 : ConcurrentSkipListMap K V} {p c n : Nat}
    (hi : findInner key 0 fuel (setHazard (setHazard s 2 s.head_) 1 first) s.head_ first 0 =
      some (.brk s2 p c n)) :
    findAttempt key fuel s = some (.brk s2 p c n) := by
  unfold findAttempt
  have h2 : HeadOk (setHazard s 2 s.head_) first := headOk_congr h rfl rfl
  cases hgt : s.height_ with
  | zero =>
    exact findLevels_one (s := setHazard s 2 s.head_) (headOk_load_zero h2) he _ _ hi
  | succ i =>
    have := findLevels_upper key hf i (setHazard s 2 s.head_) 0 0 h2 (by omega)
    simp only [setHazard_head] at this
    rw [this]
    exact findLevels_one (s := setHazard (setHazard s 2 s.head_) 1 1)
      (headOk_load_zero (headOk_congr h2 rfl rfl)) he _ _ hi

theorem find_of_attempt {key : K} {fuel : Nat} (hf : 1 ≤ fuel)
    {s s2 : ConcurrentSkipListMap K V} {p c n : Nat}
    (h : findAttempt key fuel s = some (.brk s2 p c n)) :
    find key fuel s =
      if c = 0 then some (⟨p, c, n, false⟩, s2)
      else
        match deref s2.mem c with
        | none => none
        | some cn => some (⟨p, c, n, decide (cn.key = key)⟩, s2) := by
  obtain ⟨f, rfl⟩ : ∃ f, fuel = f + 1 := ⟨fuel - 1, by omega⟩
  rw [find, findRetry, h]

end LevelLemmas


section HeadPtrLemmas

variable {K V : Type}

@[simp] theorem headPtr_nil (c : Nat) : headPtr ([] : List (Nat × Node K V)) c = c := rfl

@[simp] theorem headPtr_cons (a : Nat) (n : Node K V) (r : List (Nat × Node K V)) (c : Nat) :
    headPtr ((a, n) :: r) c = a := rfl

@[simp] theorem lastPtr_nil (p : Nat) : lastPtr ([] : List (Nat × Node K V)) p = p := rfl

@[simp] theorem lastPtr_cons (a : Nat) (n : Node K V) (r : List (Nat × Node K V)) (p : Nat) :
    lastPtr ((a, n) :: r) p = lastPtr r a := rfl

@[simp] theorem findState_mem (s : ConcurrentSkipListMap K V) (l1 l2 : List (Nat × Node K V)) :
    (findState s l1 l2).mem = s.mem := by
  cases l2 with
  | nil => simp [findState]
  | cons x r => obtain ⟨a, n⟩ := x; simp [findState]

@[simp] theorem findState_head (s : ConcurrentSkipListMap K V) (l1 l2 : List (Nat × Node K V)) :
    (findState s l1 l2).head_ = s.head_ := by
  cases l2 with
  | nil => simp [findState]
  | cons x r => obtain ⟨a, n⟩ := x; simp [findState]

@[simp] theorem findState_height (s : ConcurrentSkipListMap K V)
    (l1 l2 : List (Nat × Node K V)) : (findState s l1 l2).height_ = s.height_ := by
  cases l2 with
  | nil => simp [findState]
  | cons x r => obtain ⟨a, n⟩ := x; simp [findState]

@[simp] theorem findState_retired (s : ConcurrentSkipListMap K V)
    (l1 l2 : List (Nat × Node K V)) : (findState s l1 l2).retired = s.retired := by
  cases l2 with
  | nil => simp [findState]
  | cons x r => obtain ⟨a, n⟩ := x; simp [findState]

end HeadPtrLemmas

section FindQuiescent

variable {K V : Type} [LinearOrder K]

/-- On a quiescent state, split anywhere between the keys below `key` and the keys from `key`
on, one pass of `find` ends at the split without restarting. -/
theorem findAttempt_split {key : K} {fuel : Nat} {s : ConcurrentSkipListMap K V}
    {l1 l2 : List (Nat × Node K V)} (hq : Quiescent s (l1 ++ l2)) (hf : (l1 ++ l2).length < fuel)
    (h1 : ∀ x ∈ l1, x.2.key < key) (h2 : ∀ x ∈ l2.head?, key ≤ x.2.key) :
    findAttempt key fuel s =
      some (.brk (findState s l1 l2) (lastPtr l1 s.head_) (headPtr l2 0) (nextOf l2)) := by
  obtain ⟨hhead, hseg, _, _, _, hht⟩ := hq
  obtain ⟨hs1, hs2⟩ := (seg_append l1 l2 0).mp hseg
  have hce : headPtr l2 0 % 2 = 0 := headPtr_even hs2 rfl
  have hfe : headPtr (l1 ++ l2) 0 % 2 = 0 := headPtr_even hseg rfl
  apply findAttempt_of_inner (by omega) hhead hht hfe
  obtain ⟨f, rfl⟩ : ∃ f, fuel = (f + 1) + l1.length :=
    ⟨fuel - l1.length - 1, by simp at hf; omega⟩
  rw [headPtr_append] at hhead ⊢
  have hp0 : loadNext (setHazard (setHazard s 2 s.head_) 1 (headPtr l1 (headPtr l2 0)))
      s.head_ 0 = some (headPtr l1 (headPtr l2 0)) := headOk_load_zero hhead
  rw [findInner_skip key l1 (headPtr l2 0) (f + 1) _ s.head_ 0 (by simpa using hs1) h1 hce hp0]
  have hlast := seg_last_load (s := setHazard (setHazard s 2 s.head_) 1
    (headPtr l1 (headPtr l2 0))) (by simpa using hs1) hp0
  cases l2 with
  | nil =>
    rw [headPtr_nil, findInner_null]
    cases l1 <;> rfl
  | cons x r =>
    obtain ⟨a, n⟩ := x
    simp only [headPtr_cons] at hlast ⊢
    have hk : key ≤ n.key := h2 (a, n) (by simp)
    have hload : loadNext (walkState (setHazard (setHazard s 2 s.head_) 1 (headPtr l1 a)) l1 a)
        (lastPtr l1 s.head_) 0 = some a := by
      simpa [loadNext] using hlast
    rw [findInner_live_ge (c := n) (q := headPtr r 0) (by simpa using hs2.1) hs2.2.1
      (headPtr_even hs2.2.2 rfl) hload hk]
    rfl

theorem find_split {key : K} {fuel : Nat} {s : ConcurrentSkipListMap K V}
    {l1 l2 : List (Nat × Node K V)} (hq : Quiescent s (l1 ++ l2)) (hf : (l1 ++ l2).length < fuel)
    (h1 : ∀ x ∈ l1, x.2.key < key) (h2 : ∀ x ∈ l2.head?, key ≤ x.2.key) :
    find key fuel s =
      some (⟨lastPtr l1 s.head_, headPtr l2 0, nextOf l2, matchOf key l2⟩,
        findState s l1 l2) := by
  rw [find_of_attempt (by omega) (findAttempt_split hq hf h1 h2)]
  obtain ⟨_, hseg, _⟩ := hq
  obtain ⟨_, hs2⟩ := (seg_append l1 l2 0).mp hseg
  cases l2 with
  | nil => simp [matchOf]
  | cons x r =>
    obtain ⟨a, n⟩ := x
    simp only [headPtr_cons, findState_mem, hs2.1, deref_ne_zero hs2.1, if_false, matchOf]

end FindQuiescent

/-! ## Lemmas on relinking the level-0 list -/

section SetLastLemmas

variable {K V : Type}

@[simp] theorem withNext_key (n : Node K V) (c : Nat) : (n.withNext c).key = n.key := rfl
@[simp] theorem withNext_value (n : Node K V) (c : Nat) : (n.withNext c).value = n.value := rfl
@[simp] theorem withNext_height (n : Node K V) (c : Nat) : (n.withNext c).height = n.height := rfl
@[simp] theorem withNext_link_count (n : Node K V) (c : Nat) :
    (n.withNext c).link_count = n.link_count := rfl

theorem withNext_tail (n : Node K V) (c : Nat) : (n.withNext c).next_.tail = n.next_.tail := by
  unfold Node.withNext
  cases n.next_ <;> rfl

theorem withNext_zero {n : Node K V} {q : Nat} (h : n.next_[0]? = some q) (c : Nat) :
    (n.withNext c).next_[0]? = some c := by
  unfold Node.withNext
  cases hn : n.next_ with
  | nil => rw [hn] at h; cases h
  | cons a r => simp

theorem nodeOk_withNext {n : Node K V} (h : NodeOk n) (c : Nat) : NodeOk (n.withNext c) := by
  unfold NodeOk at h ⊢
  rw [withNext_tail]; exact h

theorem setLast_cons_cons (c : Nat) (x y : Nat × Node K V) (l : List (Nat × Node K V)) :
    setLast c (x :: y :: l) = x :: setLast c (y :: l) := by
  obtain ⟨a, n⟩ := x; rfl

@[simp] theorem setLast_map_key (c : Nat) (l : List (Nat × Node K V)) :
    (setLast c l).map (fun x => x.2.key) = l.map (fun x => x.2.key) := by
  induction l with
  | nil => rfl
  | cons x l ih =>
    cases l with
    | nil => obtain ⟨a, n⟩ := x; rfl
    | cons y l => rw [setLast_cons_cons, List.map_cons, ih]; rfl

@[simp] theorem setLast_entriesOf (c : Nat) (l : List (Nat × Node K V)) :
    entriesOf (setLast c l) = entriesOf l := by
  unfold entriesOf
  induction l with
  | nil => rfl
  | cons x l ih =>
    cases l with
    | nil => obtain ⟨a, n⟩ := x; rfl
    | cons y l => rw [setLast_cons_cons, List.map_cons, ih]; rfl

@[simp] theorem setLast_map_fst (c : Nat) (l : List (Nat × Node K V)) :
    (setLast c l).map Prod.fst = l.map Prod.fst := by
  induction l with
  | nil => rfl
  | cons x l ih =>
    cases l with
    | nil => obtain ⟨a, n⟩ := x; rfl
    | cons y l => rw [setLast_cons_cons, List.map_cons, ih]; rfl

@[simp] theorem headPtr_setLast (c d : Nat) (l : List (Nat × Node K V)) :
    headPtr (setLast c l) d = headPtr l d := by
  cases l with
  | nil => rfl
  | cons x l =>
    cases l with
    | nil => obtain ⟨a, n⟩ := x; rfl
    | cons y l => obtain ⟨a, n⟩ := x; rfl

theorem nodeOk_setLast {l : List (Nat × Node K V)} (h : ∀ x ∈ l, NodeOk x.2) (c : Nat) :
    ∀ x ∈ setLast c l, NodeOk x.2 := by
  induction l with
  | nil => intro x hx; cases hx
  | cons y l ih =>
    cases l with
    | nil =>
      obtain ⟨a, n⟩ := y
      intro x hx
      rcases List.mem_singleton.mp hx with rfl
      exact nodeOk_withNext (h (a, n) (List.mem_singleton_self _)) c
    | cons z l =>
      intro x hx
      rw [setLast_cons_cons] at hx
      rcases List.mem_cons.mp hx with rfl | hx
      · exact h _ (List.mem_cons_self _ _)
      · exact ih (fun w hw => h w (List.mem_cons_of_mem _ hw)) x hx

theorem lastPtr_mem {l : List (Nat × Node K V)} (hl : l ≠ []) (p : Nat) :
    lastPtr l p ∈ l.map Prod.fst := by
  induction l generalizing p with
  | nil => exact absurd rfl hl
  | cons x l ih =>
    obtain ⟨a, n⟩ := x
    cases l with
    | nil => simp
    | cons y l =>
      rw [lastPtr_cons, List.map_cons]
      exact List.mem_cons_of_mem _ (ih (by simp) a)

/-- Redirecting the last node of a segment: if memory changes only at the last node of `l`,
whose `next_[0]` becomes `c1`, the nodes `setLast c1 l` form a segment that ends in `c1`. -/
theorem seg_setLast {mem mem1 : List (Node K V)} {c : Nat} (c1 : Nat)
    (l : List (Nat × Node K V)) (p : Nat) (h : Seg mem l c) (hnd : (l.map Prod.fst).Nodup)
    (hframe : ∀ x ∈ l, x.1 ≠ lastPtr l p → deref mem1 x.1 = deref mem x.1)
    (hlast : deref mem1 (lastPtr l p) = (deref mem (lastPtr l p)).map (fun n => n.withNext c1)) :
    Seg mem1 (setLast c1 l) c1 := by
  induction l generalizing p with
  | nil => trivial
  | cons x l ih =>
    obtain ⟨a, n⟩ := x
    cases l with
    | nil =>
      rw [lastPtr_cons, lastPtr_nil, h.1] at hlast
      exact ⟨hlast, withNext_zero h.2.1 c1, trivial⟩
    | cons y l =>
      rw [setLast_cons_cons]
      have hne : a ≠ lastPtr (y :: l) a := by
        intro he
        have := lastPtr_mem (l := y :: l) (by simp) a
        rw [← he] at this
        exact (List.nodup_cons.mp hnd).1 this
      refine ⟨?_, ?_, ?_⟩
      · rw [hframe (a, n) (List.mem_cons_self _ _) (by simpa using hne)]; exact h.1
      · rw [headPtr_setLast]; obtain ⟨b, m⟩ := y; exact h.2.1
      · apply ih a h.2.2 (List.nodup_cons.mp hnd).2
        · intro x hx hxl
          exact hframe x (List.mem_cons_of_mem _ hx) (by simpa using hxl)
        · simpa using hlast

end SetLastLemmas


section RelinkLemmas

variable {K V : Type}

theorem seg_ptrs_nodup [Preorder K] {mem : List (Node K V)} {l : List (Nat × Node K V)} {c : Nat}
    (h : Seg mem l c) (hs : (l.map (fun x => x.2.key)).Pairwise (· < ·)) :
    (l.map Prod.fst).Nodup := by
  rw [List.pairwise_map] at hs
  rw [List.Nodup, List.pairwise_map]
  refine List.Pairwise.imp_of_mem ?_ hs
  intro x y hx hy hlt he
  have h1 := seg_deref h hx
  have h2 := seg_deref h hy
  rw [he, h2] at h1
  have : y.2 = x.2 := Option.some.inj h1
  rw [this] at hlt
  exact lt_irrefl _ hlt

theorem lastPtr_mem_cons (l : List (Nat × Node K V)) (p : Nat) :
    lastPtr l p ∈ p :: l.map Prod.fst := by
  cases l with
  | nil => simp
  | cons x l => exact List.mem_cons_of_mem _ (lastPtr_mem (by simp) p)

/-- The sentinel and the first segment after a change of memory that redirects `next_[0]` of
the last node before the change point to `c1` and touches no other node before it. -/
theorem prefix_relink {s s1 : ConcurrentSkipListMap K V} {l1 : List (Nat × Node K V)}
    {c : Nat} (c1 : Nat) (hhead : HeadOk s (headPtr l1 c)) (hseg : Seg s.mem l1 c)
    (hnd : (s.head_ :: l1.map Prod.fst).Nodup) (hh : s1.head_ = s.head_)
    (hframe : ∀ x ∈ s.head_ :: l1.map Prod.fst, x ≠ lastPtr l1 s.head_ →
      deref s1.mem x = deref s.mem x)
    (hlast : deref s1.mem (lastPtr l1 s.head_) =
      (deref s.mem (lastPtr l1 s.head_)).map (fun n => n.withNext c1)) :
    HeadOk s1 (headPtr (setLast c1 l1) c1) ∧ Seg s1.mem (setLast c1 l1) c1 := by
  constructor
  · cases l1 with
    | nil =>
      obtain ⟨hd, h1, h2⟩ := headOk_deref hhead
      simp only [lastPtr_nil, h1, Option.map_some'] at hlast
      unfold HeadOk
      rw [hh, hlast]
      simp [Node.withNext, h2, setLast]
    | cons x l =>
      have hne : s.head_ ≠ lastPtr (x :: l) s.head_ := by
        intro he
        have := lastPtr_mem (l := x :: l) (by simp) s.head_
        rw [← he] at this
        exact (List.nodup_cons.mp hnd).1 this
      have := hframe s.head_ (List.mem_cons_self _ _) hne
      rw [headPtr_setLast]
      obtain ⟨a, n⟩ := x
      unfold HeadOk at hhead ⊢
      rw [hh, this]; exact hhead
  · apply seg_setLast c1 l1 s.head_ hseg (List.nodup_cons.mp hnd).2
    · intro x hx hxl
      exact hframe x.1 (List.mem_cons_of_mem _ (List.mem_map_of_mem _ hx)) hxl
    · exact hlast

theorem quiescent_nodup [Preorder K] {s : ConcurrentSkipListMap K V}
    {l : List (Nat × Node K V)} (hq : Quiescent s l) : (s.head_ :: l.map Prod.fst).Nodup := by
  obtain ⟨_, hseg, hs, _, hne, _⟩ := hq
  refine List.nodup_cons.mpr ⟨?_, seg_ptrs_nodup hseg hs⟩
  intro hm
  obtain ⟨x, hx, he⟩ := List.mem_map.mp hm
  exact hne x hx he

end RelinkLemmas


section LinkLemmas

variable {K V : Type} [LinearOrder K]

theorem quiescent_ptr_deref {s : ConcurrentSkipListMap K V} {l : List (Nat × Node K V)}
    (hq : Quiescent s l) {x : Nat} (hx : x ∈ s.head_ :: l.map Prod.fst) :
    ∃ m, deref s.mem x = some m := by
  rcases List.mem_cons.mp hx with rfl | hx
  · obtain ⟨hd, h1, _⟩ := headOk_deref hq.1
    exact ⟨hd, h1⟩
  · obtain ⟨y, hy, rfl⟩ := List.mem_map.mp hx
    exact ⟨y.2, seg_deref hq.2.1 hy⟩

omit [LinearOrder K] in
theorem mem_setLast_fst {c : Nat} {l : List (Nat × Node K V)} {x : Nat × Node K V}
    (hx : x ∈ setLast c l) : x.1 ∈ l.map Prod.fst := by
  rw [← setLast_map_fst c l]
  exact List.mem_map_of_mem _ hx

/-- Linking a new node `n` between `l1` and `l2` keeps the state quiescent. -/
theorem quiescent_link {s s1 : ConcurrentSkipListMap K V} {l1 l2 : List (Nat × Node K V)}
    {n : Nat} {nf : Node K V} (hq : Quiescent s (l1 ++ l2))
    (hh : s1.head_ = s.head_) (hht : s1.height_ < kMaxHeight)
    (hfresh : deref s.mem n = none) (hn : deref s1.mem n = some nf)
    (hframe : ∀ x, x ≠ n → x ≠ lastPtr l1 s.head_ → deref s1.mem x = deref s.mem x)
    (hlast : deref s1.mem (lastPtr l1 s.head_) =
      (deref s.mem (lastPtr l1 s.head_)).map (fun m => m.withNext n))
    (hok : NodeOk nf) (hnext : nf.next_[0]? = some (headPtr l2 0))
    (hk1 : ∀ x ∈ l1, x.2.key < nf.key) (hk2 : ∀ x ∈ l2, nf.key < x.2.key) :
    Quiescent s1 (setLast n l1 ++ (n, nf) :: l2) := by
  have hnd := quiescent_nodup hq
  have hder := fun x hx => quiescent_ptr_deref hq (x := x) hx
  obtain ⟨hhead, hseg, hs, hnok, hne, _⟩ := hq
  obtain ⟨hs1, hs2⟩ := (seg_append l1 l2 0).mp hseg
  rw [headPtr_append] at hhead
  rw [List.map_append] at hnd hder
  have hnd1 : (s.head_ :: l1.map Prod.fst).Nodup := by
    rw [← List.cons_append] at hnd
    exact (List.nodup_append.mp hnd).1
  have hdisj : ∀ x ∈ l2.map Prod.fst, x ≠ lastPtr l1 s.head_ := by
    intro x hx he
    rw [← List.cons_append] at hnd
    exact (List.nodup_append.mp hnd).2.2 (he ▸ lastPtr_mem_cons l1 s.head_) hx
  have hnn : ∀ x ∈ s.head_ :: (l1.map Prod.fst ++ l2.map Prod.fst), x ≠ n := by
    intro x hx he
    obtain ⟨m, hm⟩ := hder x hx
    rw [he, hfresh] at hm; cases hm
  obtain ⟨hhead1, hseg1⟩ := @prefix_relink _ _ _ s1 _ _ n hhead hs1 hnd1 hh
    (fun x hx hxl => hframe x (hnn x (by
      rcases List.mem_cons.mp hx with rfl | hx
      · exact List.mem_cons_self _ _
      · exact List.mem_cons_of_mem _ (List.mem_append_left _ hx))) hxl) hlast
  have hseg2 : Seg s1.mem l2 0 := by
    apply seg_congr hs2
    intro x hx
    have hxm : x.1 ∈ l2.map Prod.fst := List.mem_map_of_mem _ hx
    exact hframe x.1 (hnn _ (List.mem_cons_of_mem _ (List.mem_append_right _ hxm)))
      (hdisj _ hxm)
  refine ⟨?_, ?_, ?_, ?_, ?_, hht⟩
  · rw [headPtr_append]; exact hhead1
  · rw [seg_append]; exact ⟨hseg1, hn, hnext, hseg2⟩
  · rw [List.map_append, setLast_map_key, List.map_cons]
    rw [List.map_append, List.pairwise_append] at hs
    rw [List.pairwise_append]
    refine ⟨hs.1, List.pairwise_cons.mpr ⟨?_, hs.2.1⟩, ?_⟩
    · intro k hk
      obtain ⟨x, hx, rfl⟩ := List.mem_map.mp hk
      exact hk2 x hx
    · intro a ha b hb
      obtain ⟨x, hx, rfl⟩ := List.mem_map.mp ha
      rcases List.mem_cons.mp hb with rfl | hb
      · exact hk1 x hx
      · exact hs.2.2 _ ha _ hb
  · intro x hx
    rcases List.mem_append.mp hx with hx | hx
    · exact nodeOk_setLast (fun y hy => hnok y (List.mem_append_left _ hy)) n x hx
    · rcases List.mem_cons.mp hx with rfl | hx
      · exact hok
      · exact hnok x (List.mem_append_right _ hx)
  · intro x hx
    rw [hh]
    rcases List.mem_append.mp hx with hx | hx
    · obtain ⟨y, hy, he⟩ := List.mem_map.mp (mem_setLast_fst hx)
      rw [← he]; exact hne y (List.mem_append_left _ hy)
    · rcases List.mem_cons.mp hx with rfl | hx
      · exact fun he => hnn s.head_ (List.mem_cons_self _ _) he.symm
      · exact hne x (List.mem_append_right _ hx)

/-- Unlinking the node between `l1` and `l2` keeps the state quiescent. -/
theorem quiescent_unlink {s s1 : ConcurrentSkipListMap K V} {l1 l2 : List (Nat × Node K V)}
    {a : Nat} {an : Node K V} (hq : Quiescent s (l1 ++ (a, an) :: l2))
    (hh : s1.head_ = s.head_) (hht : s1.height_ < kMaxHeight)
    (hframe : ∀ x, x ≠ a → x ≠ lastPtr l1 s.head_ → deref s1.mem x = deref s.mem x)
    (hlast : deref s1.mem (lastPtr l1 s.head_) =
      (deref s.mem (lastPtr l1 s.head_)).map (fun m => m.withNext (headPtr l2 0))) :
    Quiescent s1 (setLast (headPtr l2 0) l1 ++ l2) := by
  have hnd := quiescent_nodup hq
  obtain ⟨hhead, hseg, hs, hnok, hne, _⟩ := hq
  obtain ⟨hs1, -, -, hs2⟩ := (seg_append l1 ((a, an) :: l2) 0).mp hseg
  rw [headPtr_append] at hhead
  rw [List.map_append, List.map_cons] at hnd
  have hnd1 : (s.head_ :: l1.map Prod.fst).Nodup := by
    rw [← List.cons_append] at hnd
    exact (List.nodup_append.mp hnd).1
  have hdisj : ∀ x ∈ a :: l2.map Prod.fst, x ≠ lastPtr l1 s.head_ := by
    intro x hx he
    rw [← List.cons_append] at hnd
    exact (List.nodup_append.mp hnd).2.2 (he ▸ lastPtr_mem_cons l1 s.head_) hx
  have hna : ∀ x ∈ s.head_ :: l1.map Prod.fst ++ l2.map Prod.fst, x ≠ a := by
    intro x hx he
    subst he
    rw [← List.cons_append] at hnd
    have h3 := List.nodup_append.mp hnd
    rcases List.mem_append.mp hx with hx | hx
    · exact h3.2.2 hx (List.mem_cons_self _ _)
    · exact (List.nodup_cons.mp h3.2.1).1 hx
  obtain ⟨hhead1, hseg1⟩ := @prefix_relink _ _ _ s1 _ _ (headPtr l2 0) hhead hs1 hnd1 hh
    (fun x hx hxl => hframe x (hna x (List.mem_append_left _ hx)) hxl) hlast
  have hseg2 : Seg s1.mem l2 0 := by
    apply seg_congr hs2
    intro x hx
    have hxm : x.1 ∈ l2.map Prod.fst := List.mem_map_of_mem _ hx
    exact hframe x.1 (hna _ (List.mem_append_right _ hxm))
      (hdisj _ (List.mem_cons_of_mem _ hxm))
  refine ⟨?_, ?_, ?_, ?_, ?_, hht⟩
  · rw [headPtr_append]; exact hhead1
  · rw [seg_append]; exact ⟨hseg1, hseg2⟩
  · rw [List.map_append, setLast_map_key]
    rw [List.map_append, List.map_cons, List.pairwise_append] at hs
    rw [List.pairwise_append]
    exact ⟨hs.1, (List.pairwise_cons.mp hs.2.1).2,
      fun x hx y hy => hs.2.2 x hx y (List.mem_cons_of_mem _ hy)⟩
  · intro x hx
    rcases List.mem_append.mp hx with hx | hx
    · exact nodeOk_setLast (fun y hy => hnok y (List.mem_append_left _ hy)) _ x hx
    · exact hnok x (List.mem_append_right _ (List.mem_cons_of_mem _ hx))
  · intro x hx
    rw [hh]
    rcases List.mem_append.mp hx with hx | hx
    · obtain ⟨y, hy, he⟩ := List.mem_map.mp (mem_setLast_fst hx)
      rw [← he]; exact hne y (List.mem_append_left _ hy)
    · exact hne x (List.mem_append_right _ (List.mem_cons_of_mem _ hx))

end LinkLemmas

/-! ## Lemmas on insert -/

section OpLemmas

variable {K V : Type}

theorem modifyNode_spec {s : ConcurrentSkipListMap K V} {p : Nat} {n : Node K V}
    (h : deref s.mem p = some n) (f : Node K V → Node K V) :
    ∃ s1, modifyNode s p f = some s1 ∧ s1.head_ = s.head_ ∧ s1.height_ = s.height_ ∧
      s1.retired = s.retired ∧ s1.hp = s.hp ∧
      ∀ x, deref s1.mem x = if x = p then some (f n) else deref s.mem x := by
  refine ⟨{ s with mem := s.mem.set (slot p) (f n) }, ?_, rfl, rfl, rfl, rfl, ?_⟩
  · simp [modifyNode, h]
  · intro x; exact deref_set h (f n) x

theorem storeNext_spec {s : ConcurrentSkipListMap K V} {p i : Nat} {n : Node K V}
    (h : deref s.mem p = some n) (hi : i < n.next_.length) (v : Nat) :
    ∃ s1, storeNext s p i v = some s1 ∧ s1.head_ = s.head_ ∧ s1.height_ = s.height_ ∧
      s1.retired = s.retired ∧ s1.hp = s.hp ∧
      ∀ x, deref s1.mem x =
        if x = p then some { n with next_ := n.next_.set i v } else deref s.mem x := by
  refine ⟨{ s with mem := s.mem.set (slot p) { n with next_ := n.next_.set i v } }, ?_,
    rfl, rfl, rfl, rfl, ?_⟩
  · simp [storeNext, h, hi]
  · intro x; exact deref_set h _ x

theorem casNext_spec {s : ConcurrentSkipListMap K V} {p i e : Nat} {n : Node K V}
    (h : deref s.mem p = some n) (he : n.next_[i]? = some e) (d : Nat) :
    ∃ s1, casNext s p i e d = some (true, s1) ∧ s1.head_ = s.head_ ∧ s1.height_ = s.height_ ∧
      s1.retired = s.retired ∧ s1.hp = s.hp ∧
      ∀ x, deref s1.mem x =
        if x = p then some { n with next_ := n.next_.set i d } else deref s.mem x := by
  have hi : i < n.next_.length := (List.getElem?_eq_some.mp he).1
  obtain ⟨s1, h1, h2⟩ := storeNext_spec h hi d
  refine ⟨s1, ?_, h2⟩
  simp [casNext, loadNext_of_deref h, he, h1]

theorem mkNodeLoop_replicate (n : Nat) :
    ∀ (i : Nat) (pre : List Nat), pre.length = i →
      mkNodeLoop n i (pre ++ List.replicate n 0) = pre ++ List.replicate n (mark 0) := by
  induction n with
  | zero => intro i pre _; rfl
  | succ n ih =>
    intro i pre hi
    rw [mkNodeLoop]
    have : (pre ++ List.replicate (n + 1) 0).set i (mark 0) =
        (pre ++ [mark 0]) ++ List.replicate n 0 := by
      rw [List.replicate_succ, ← hi]
      simp
    rw [this, ih (i + 1) (pre ++ [mark 0]) (by simp [hi])]
    simp [List.replicate_succ]

theorem mkNode_next (h : Nat) (key : K) (value : V) :
    (mkNode (h + 1) key value).next_ = 0 :: List.replicate h (mark 0) := by
  unfold mkNode
  simp only [Nat.add_sub_cancel]
  have := mkNodeLoop_replicate h 1 [0] rfl
  simpa [List.replicate_succ] using this

theorem randomLevelLoop_le (n : Nat) : ∀ (r : Int) (level : Nat),
    randomLevelLoop n r level ≤ level + n := by
  induction n with
  | zero => intro r level; simp [randomLevelLoop]
  | succ n ih =>
    intro r level
    rw [randomLevelLoop]
    split
    · have := ih (r >>> 1) (level + 1); omega
    · omega

theorem randomLevel_lt (r : Int) : randomLevel r < kMaxHeight := by
  have := randomLevelLoop_le (kMaxHeight - 1) r 0
  unfold randomLevel kMaxHeight at *
  omega

end OpLemmas


section InsertLemmas

variable {K V : Type} [LinearOrder K]

theorem insertLink_ok (key : K) (fuel : Nat) {k : Nat} {s : ConcurrentSkipListMap K V}
    {n prev cur : Nat} {nd pn : Node K V} (hn : deref s.mem n = some nd)
    (hlen : 0 < nd.next_.length) (hp : deref s.mem prev = some pn)
    (hpc : pn.next_[0]? = some cur) (hne : prev ≠ n) (nx : Nat) (m : Bool) :
    ∃ s1, insertLink key n fuel (k + 1) s ⟨prev, cur, nx, m⟩ = some (true, s1) ∧
      s1.head_ = s.head_ ∧ s1.height_ = s.height_ ∧ s1.retired = s.retired ∧ s1.hp = s.hp ∧
      ∀ x, deref s1.mem x =
        if x = prev then some (pn.withNext n)
        else if x = n then some (nd.withNext cur) else deref s.mem x := by
  obtain ⟨s2, h2, h2a, h2b, h2c, h2d, h2m⟩ := storeNext_spec hn hlen cur
  have hp2 : deref s2.mem prev = some pn := by rw [h2m, if_neg hne]; exact hp
  obtain ⟨s3, h3, h3a, h3b, h3c, h3d, h3m⟩ := casNext_spec hp2 hpc n
  refine ⟨s3, ?_, h3a.trans h2a, h3b.trans h2b, h3c.trans h2c, h3d.trans h2d, ?_⟩
  · rw [insertLink]
    simp only [h2, h3]
  · intro x
    rw [h3m, h2m]
    rfl

theorem insertIndexLevels_exit (key : K) (fuel : Nat) {s : ConcurrentSkipListMap K V}
    {first : Nat} (h : HeadOk s first) (n level : Nat) {m : Nat} (hm : m < kMaxHeight)
    (ov : Int) :
    ∃ s1, insertIndexLevels key n level fuel m s s.head_ ov = some (ov, s1) ∧
      s1.mem = s.mem ∧ s1.head_ = s.head_ ∧ s1.height_ = s.height_ ∧
      s1.retired = s.retired := by
  cases m with
  | zero => exact ⟨s, rfl, rfl, rfl, rfl, rfl⟩
  | succ i =>
    refine ⟨setHazard s 1 1, ?_, rfl, rfl, rfl, rfl⟩
    rw [insertIndexLevels, loadAndSetHazard_eq (headOk_load_succ h hm)]
    simp [marked0_one]

omit [LinearOrder K] in
theorem insertExit_ok {s : ConcurrentSkipListMap K V} {n : Nat} {nd : Node K V}
    (hn : deref s.mem n = some nd) (hlc : 1 ≤ nd.link_count) :
    ∃ s1, insertExit n ((nd.link_count : Int) - 1) s = some (true, s1) ∧
      s1.head_ = s.head_ ∧ s1.height_ = s.height_ ∧ s1.retired = s.retired ∧
      s1.hp = ⟨0, 0, 0, 0⟩ ∧
      ∀ x, deref s1.mem x =
        if x = n then some { nd with link_count := 1 } else deref s.mem x := by
  unfold insertExit
  have h0 : ¬ ((nd.link_count : Int) - 1 < 0) := by omega
  rw [if_neg h0]
  by_cases h1 : (nd.link_count : Int) - 1 > 0
  · rw [if_pos h1]
    have hlc1 : (((nd.link_count : Int) - ((nd.link_count : Int) - 1)) % 256).toNat = 1 := by
      have : (nd.link_count : Int) - ((nd.link_count : Int) - 1) = 1 := by omega
      rw [this]; rfl
    obtain ⟨s2, h2, h2a, h2b, h2c, _, h2m⟩ :=
      modifyNode_spec hn (fun x => { x with link_count := 1 })
    simp only [hn, hlc1, h2, Nat.one_ne_zero, if_false]
    exact ⟨_, rfl, h2a, h2b, h2c, rfl, h2m⟩
  · rw [if_neg h1]
    refine ⟨_, rfl, rfl, rfl, rfl, rfl, ?_⟩
    intro x
    have : nd.link_count = 1 := by omega
    by_cases hx : x = n
    · subst hx
      rw [if_pos rfl]
      simp only [clearHazard_mem, clearHazards, hn]
      cases nd; simp_all
    · rw [if_neg hx]; rfl

end InsertLemmas


section InsertSpec

variable {K V : Type} [LinearOrder K]

theorem quiescent_congr {s s1 : ConcurrentSkipListMap K V} {l : List (Nat × Node K V)}
    (hq : Quiescent s l) (hm : s1.mem = s.mem) (hh : s1.head_ = s.head_)
    (hht : s1.height_ < kMaxHeight) : Quiescent s1 l := by
  obtain ⟨hhead, hseg, hs, hnok, hne, _⟩ := hq
  exact ⟨headOk_congr hhead hm hh, by rw [hm]; exact hseg, hs, hnok, by rw [hh]; exact hne, hht⟩

theorem quiescent_prev {s : ConcurrentSkipListMap K V} {l1 l2 : List (Nat × Node K V)}
    (hq : Quiescent s (l1 ++ l2)) :
    ∃ pn, deref s.mem (lastPtr l1 s.head_) = some pn ∧
      pn.next_[0]? = some (headPtr l2 0) := by
  obtain ⟨hhead, hseg, _⟩ := hq
  rw [headPtr_append] at hhead
  have := seg_last_load ((seg_append l1 l2 0).mp hseg).1 (headOk_load_zero hhead)
  unfold loadNext at this
  cases hd : deref s.mem (lastPtr l1 s.head_) with
  | none => rw [hd] at this; cases this
  | some pn => rw [hd] at this; exact ⟨pn, rfl, this⟩

theorem keys_gt_of_no_match {key : K} {l2 : List (Nat × Node K V)}
    (hs : (l2.map (fun x => x.2.key)).Pairwise (· < ·))
    (h2 : ∀ x ∈ l2.head?, key ≤ x.2.key) (hm : matchOf key l2 = false) :
    ∀ x ∈ l2, key < x.2.key := by
  cases l2 with
  | nil => intro x hx; cases hx
  | cons y r =>
    obtain ⟨a, n⟩ := y
    have hle : key ≤ n.key := h2 (a, n) (by simp)
    have hne : n.key ≠ key := by simpa [matchOf] using hm
    have hlt : key < n.key := lt_of_le_of_ne hle (Ne.symm hne)
    intro x hx
    rcases List.mem_cons.mp hx with rfl | hx
    · exact hlt
    · rw [List.map_cons, List.pairwise_cons] at hs
      exact lt_trans hlt (hs.1 _ (List.mem_map_of_mem _ hx))

/-- The method `insert` on a quiescent state whose level-0 list splits at `key` into `l1` and
`l2`: it returns false and leaves memory alone when `l2` starts with `key`; else it returns
true after linking a new node, allocated at the next free address, between `l1` and `l2`. -/
theorem insert_spec (key : K) (value : V) (r : Int) {fuel : Nat}
    {s : ConcurrentSkipListMap K V} {l1 l2 : List (Nat × Node K V)}
    (hq : Quiescent s (l1 ++ l2)) (hf : (l1 ++ l2).length < fuel)
    (h1 : ∀ x ∈ l1, x.2.key < key) (h2 : ∀ x ∈ l2.head?, key ≤ x.2.key) :
    ∃ s1, s1.retired = s.retired ∧
      s1.height_ = (if randomLevel r > s.height_ then s.height_ + 1 else s.height_) ∧
      if matchOf key l2 = true then
        insert key value r fuel s = some (false, s1) ∧ s1.mem = s.mem ∧
          Quiescent s1 (l1 ++ l2) ∧ s1.head_ = s.head_
      else
        ∃ nf, insert key value r fuel s = some (true, s1) ∧
          Quiescent s1 (setLast (freshPtr s.mem) l1 ++ (freshPtr s.mem, nf) :: l2) ∧
          nf.key = key ∧ nf.value = value ∧
          nf.height = min (randomLevel r) (s.height_ + 1) + 1 ∧ s1.hp = ⟨0, 0, 0, 0⟩ ∧
          (∀ x, x ≠ freshPtr s.mem → x ≠ lastPtr l1 s.head_ →
            deref s1.mem x = deref s.mem x) ∧ s1.head_ = s.head_ := by
  have hlt := randomLevel_lt r
  have hht : s.height_ < kMaxHeight := hq.2.2.2.2.2
  unfold insert
  simp only [allocNode]
  generalize hs0 : (if randomLevel r > s.height_ then
    ({ s with height_ := s.height_ + 1 } : ConcurrentSkipListMap K V) else s) = s0
  generalize hlv : (if randomLevel r > s.height_ then s.height_ + 1 else randomLevel r) = lv
  have hlv1 : lv = min (randomLevel r) (s.height_ + 1) := by
    rw [← hlv]; split <;> omega
  have hlvlt : lv < kMaxHeight := by omega
  have hm0 : s0.mem = s.mem := by rw [← hs0]; split <;> rfl
  have hh0 : s0.head_ = s.head_ := by rw [← hs0]; split <;> rfl
  have hr0 : s0.retired = s.retired := by rw [← hs0]; split <;> rfl
  have hht0 : s0.height_ = (if randomLevel r > s.height_ then s.height_ + 1 else s.height_) := by
    rw [← hs0]; split <;> rfl
  have hht0lt : s0.height_ < kMaxHeight := by rw [hht0]; split <;> omega
  have hq0 : Quiescent s0 (l1 ++ l2) := quiescent_congr hq hm0 hh0 hht0lt
  rw [find_split hq0 hf h1 h2]
  simp only []
  by_cases hm : matchOf key l2 = true
  · rw [if_pos hm]
    refine ⟨findState s0 l1 l2, by simp [hr0], by simp [hht0], ?_⟩
    simp only [hm, if_true, true_and]
    exact ⟨by simp [hm0], quiescent_congr hq0 (by simp) (by simp) (by simpa using hht0lt),
      by simp [hh0]⟩
  · have hmf : matchOf key l2 = false := by simpa using hm
    rw [if_neg hm]
    simp only [hmf, Bool.false_eq_true, if_false]
    -- allocation
    have hS1 : (findState s0 l1 l2).mem = s.mem := by simp [hm0]
    rw [hS1, hh0]
    generalize hn : freshPtr s.mem = n
    have hfresh : deref s.mem n = none := by rw [← hn]; exact deref_fresh _
    generalize hnd0 : mkNode (lv + 1) key value = nd0
    have hnext0 : nd0.next_ = 0 :: List.replicate lv (mark 0) := by
      rw [← hnd0]; exact mkNode_next lv key value
    have hheight0 : nd0.height = lv + 1 := by
      rw [← hnd0]; unfold kMaxHeight at hlvlt; simp only [mkNode]; omega
    have hd2 : deref (setHazard ({ findState s0 l1 l2 with mem := s.mem ++ [nd0] } :
        ConcurrentSkipListMap K V) 3 n).mem n = some nd0 := by
      simp only [setHazard_mem]
      rw [deref_append, if_pos hn.symm]
    obtain ⟨s3, h3, h3a, h3b, h3c, -, h3m⟩ :=
      modifyNode_spec hd2 (fun x => { x with link_count := x.height })
    rw [h3]
    simp only []
    -- level-0 link
    obtain ⟨pn, hpn, hpc⟩ := quiescent_prev hq
    have hpne : lastPtr l1 s.head_ ≠ n := by
      intro he; rw [he, hfresh] at hpn; cases hpn
    have hd3n : deref s3.mem n = some { nd0 with link_count := nd0.height } := by
      rw [h3m, if_pos rfl]
    have hd3p : deref s3.mem (lastPtr l1 s.head_) = some pn := by
      rw [h3m, if_neg hpne]
      simp only [setHazard_mem]
      rw [deref_append, if_neg (by rw [hn]; exact hpne)]; exact hpn
    obtain ⟨k, rfl⟩ : ∃ k, fuel = k + 1 := ⟨fuel - 1, by omega⟩
    obtain ⟨s4, h4, h4a, h4b, h4c, -, h4m⟩ := insertLink_ok key (k + 1)
      (k := k) hd3n (by simp [hnext0]) hd3p hpc hpne (nextOf l2) false
    rw [h4]
    simp only []
    have hd4n : deref s4.mem n =
        some (Node.withNext { nd0 with link_count := nd0.height } (headPtr l2 0)) := by
      rw [h4m, if_neg hpne.symm, if_pos rfl]
    have hd4p : deref s4.mem (lastPtr l1 s.head_) = some (pn.withNext n) := by
      rw [h4m, if_pos rfl]
    have hd4x : ∀ x, x ≠ n → x ≠ lastPtr l1 s.head_ → deref s4.mem x = deref s.mem x := by
      intro x hxn hxp
      rw [h4m, if_neg hxp, if_neg hxn, h3m, if_neg hxn]
      simp only [setHazard_mem]
      rw [deref_append, if_neg (by rw [hn]; exact hxn)]
    rw [hd4n]
    simp only []
    -- index levels
    have hnd := quiescent_nodup hq
    have hder := fun x hx => quiescent_ptr_deref hq (x := x) hx
    have hh4 : s4.head_ = s.head_ := by
      rw [h4a, h3a]; simp [hh0]
    have hht4 : s4.height_ = s0.height_ := by
      rw [h4b, h3b]; simp
    have hhead4 : HeadOk s4 (headPtr (setLast n l1) n) := by
      obtain ⟨hhead, hseg, -⟩ := hq
      rw [headPtr_append] at hhead
      rw [List.map_append, ← List.cons_append] at hnd
      refine (@prefix_relink _ _ _ s4 _ _ n hhead ((seg_append l1 l2 0).mp hseg).1
        (List.nodup_append.mp hnd).1 hh4 ?_ ?_).1
      · intro x hx hxl
        apply hd4x x _ hxl
        intro he
        obtain ⟨m, hm⟩ := hder x (by
          rcases List.mem_cons.mp hx with rfl | hx
          · exact List.mem_cons_self _ _
          · exact List.mem_cons_of_mem _ (by
              rw [List.map_append]; exact List.mem_append_left _ hx))
        rw [he, hfresh] at hm; cases hm
      · rw [hd4p, hpn]; rfl
    have hmax : max lv s4.height_ < kMaxHeight := by
      rw [hht4]; exact max_lt hlvlt hht0lt
    obtain ⟨s5, h5, h5m, h5a, h5b, h5c⟩ := insertIndexLevels_exit key (k + 1)
      hhead4 n lv hmax
      (((Node.withNext { nd0 with link_count := nd0.height } (headPtr l2 0)).height : Int) - 1)
    rw [h5]
    simp only []
    -- exit
    have hd5n : deref s5.mem n =
        some (Node.withNext { nd0 with link_count := nd0.height } (headPtr l2 0)) := by
      rw [h5m]; exact hd4n
    obtain ⟨s6, h6, h6a, h6b, h6c, h6d, h6m⟩ := insertExit_ok hd5n
      (by show 1 ≤ nd0.height; omega)
    refine ⟨s6, ?_, ?_, ?_⟩
    · rw [h6c, h5c, h4c, h3c]; simp [hr0]
    · rw [h6b, h5b, hht4, hht0]
    · refine ⟨{ Node.withNext { nd0 with link_count := nd0.height } (headPtr l2 0) with
          link_count := 1 }, h6, ?_, ?_, ?_, ?_, h6d, ?_, by rw [h6a, h5a, hh4]⟩
      · apply quiescent_link hq (by rw [h6a, h5a, hh4]) (by rw [h6b, h5b, hht4]; exact hht0lt)
          hfresh (by rw [h6m, if_pos rfl])
        · intro x hxn hxp
          rw [h6m, if_neg hxn, h5m]; exact hd4x x hxn hxp
        · rw [h6m, if_neg hpne, h5m, hd4p, hpn]; rfl
        · refine ⟨?_, ?_, ?_, rfl⟩
          · show ((nd0.next_.set 0 (headPtr l2 0))).tail = List.replicate (nd0.height - 1) (mark 0)
            rw [hnext0, hheight0]; rfl
          · show 1 ≤ nd0.height; omega
          · show nd0.height ≤ kMaxHeight; omega
        · show (nd0.next_.set 0 (headPtr l2 0))[0]? = some (headPtr l2 0)
          rw [hnext0]; simp
        · show ∀ x ∈ l1, x.2.key < nd0.key
          rw [← hnd0]; exact h1
        · show ∀ x ∈ l2, nd0.key < x.2.key
          rw [← hnd0]
          have hs := hq.2.2.1
          rw [List.map_append, List.pairwise_append] at hs
          exact keys_gt_of_no_match hs.2.1 h2 hmf
      · show nd0.key = key
        rw [← hnd0]; rfl
      · show nd0.value = value
        rw [← hnd0]; rfl
      · show nd0.height = _
        rw [hheight0, hlv1]
      · intro x hxn hxp
        rw [h6m, if_neg hxn, h5m]
        exact hd4x x hxn hxp

end InsertSpec

/-! ## Lemmas on erase -/

section EraseLemmas

variable {K V : Type} [LinearOrder K]

omit [LinearOrder K] in
theorem node_set_self {n : Node K V} {i v : Nat} (h : n.next_[i]? = some v) :
    ({ n with next_ := n.next_.set i v } : Node K V) = n := by
  have : n.next_.set i v = n.next_ := by
    apply List.ext_getElem?
    intro j
    rw [List.getElem?_set]
    split
    · rename_i hij; subst hij
      have := (List.getElem?_eq_some.mp h).1
      rw [if_pos this, h]
    · rfl
  rw [this]

theorem findInner_dead (key : K) {s : ConcurrentSkipListMap K V} {prev cur q : Nat}
    {c pn : Node K V} (hc : deref s.mem cur = some c) (hq : c.next_[0]? = some (q + 1))
    (hqe : q % 2 = 0) (hp : deref s.mem prev = some pn) (hpc : pn.next_[0]? = some cur)
    (hne : prev ≠ cur) (f next : Nat) :
    ∃ s1, findInner key 0 (f + 1) s prev cur next = some (.brk s1 prev 0 (q + 1)) ∧
      s1.head_ = s.head_ ∧ s1.height_ = s.height_ ∧
      s1.retired = (if (c.link_count + 255) % 256 = 0 then s.retired ++ [cur] else s.retired) ∧
      ∀ x, deref s1.mem x =
        if x = cur then some { c with link_count := (c.link_count + 255) % 256 }
        else if x = prev then some (pn.withNext q) else deref s.mem x := by
  have hcl : clear cur = cur := clear_of_even (deref_even hc)
  have hne0 : cur ≠ 0 := deref_ne_zero hc
  have hl : loadNext s cur 0 = some (q + 1) := by rw [loadNext_of_deref hc]; exact hq
  have hlp : loadNext s prev 0 = some cur := by rw [loadNext_of_deref hp]; exact hpc
  have hmk : marked (q + 1) 0 = true := by
    simp only [marked, if_true]; exact marked0_succ_of_even hqe
  obtain ⟨s2, h2, h2a, h2b, h2c, -, h2m⟩ :=
    casNext_spec (s := setHazard s 0 (q + 1)) (by simpa using hp) hpc q
  have hc2 : deref s2.mem cur = some c := by
    rw [h2m, if_neg (Ne.symm hne)]; simpa using hc
  obtain ⟨s3, h3, h3a, h3b, h3c, -, h3m⟩ :=
    modifyNode_spec hc2 (fun n => { n with link_count := (c.link_count + 255) % 256 })
  refine ⟨if (c.link_count + 255) % 256 = 0 then retireNode (clearHazard s3 1) cur else s3,
    ?_, ?_, ?_, ?_, ?_⟩
  · rw [findInner]
    simp only [hcl, hne0, if_false, loadAndSetHazardOrFail_eq hl, loadNext_setHazard, hlp, ne_eq,
      not_true_eq_false, hmk, if_true, hl, clear_succ_of_even hqe, h2, hc2, h3]
  · split
    · simp [h3a, h2a]
    · simp [h3a, h2a]
  · split
    · simp [h3b, h2b]
    · simp [h3b, h2b]
  · split
    · simp [retireNode, clearHazard, h3c, h2c]
    · simp [h3c, h2c]
  · intro x
    have : deref (if (c.link_count + 255) % 256 = 0 then retireNode (clearHazard s3 1) cur
        else s3).mem x = deref s3.mem x := by split <;> rfl
    rw [this, h3m, h2m]
    rfl

omit [LinearOrder K] in
theorem eraseMarkLevels_ok {a q h f : Nat} {an : Node K V} (hqe : q % 2 = 0)
    (hnext : an.next_ = q :: List.replicate h (mark 0)) (i : Nat) :
    ∀ (s : ConcurrentSkipListMap K V) (m0 : Bool), deref s.mem a = some an → i ≤ h →
      ∃ s1, eraseMarkLevels a (f + 1) (i + 1) s m0 = some (true, s1) ∧
        s1.head_ = s.head_ ∧ s1.height_ = s.height_ ∧ s1.retired = s.retired ∧
        s1.hp = s.hp ∧
        ∀ x, deref s1.mem x = if x = a then some (an.withNext (q + 1)) else deref s.mem x := by
  induction i with
  | zero =>
    intro s m0 ha _
    have h0 : an.next_[0]? = some q := by rw [hnext]; simp
    obtain ⟨s1, h1, h1a, h1b, h1c, h1d, h1m⟩ := casNext_spec ha h0 (mark q)
    refine ⟨s1, ?_, h1a, h1b, h1c, h1d, ?_⟩
    · rw [eraseMarkLevels, loadNext_of_deref ha, h0]
      simp only [eraseMarkCas, h1, eraseMarkLevels, clear_of_even hqe, and_self, if_true]
    · intro x; rw [h1m, mark_of_even hqe]; rfl
  | succ i ih =>
    intro s m0 ha hi
    have h0 : an.next_[i + 1]? = some 1 := by
      rw [hnext, List.getElem?_cons_succ, List.getElem?_replicate, if_pos (by omega)]; rfl
    obtain ⟨s1, h1, h1a, h1b, h1c, h1d, h1m⟩ := casNext_spec ha h0 (mark 1)
    have hm1 : ∀ x, deref s1.mem x = deref s.mem x := by
      intro x
      rw [h1m, show mark 1 = 1 from rfl, node_set_self h0]
      split
      · rename_i hx; rw [hx, ha]
      · rfl
    obtain ⟨s2, h2, h2a, h2b, h2c, h2d, h2m⟩ := ih s1 m0 (by rw [hm1]; exact ha) (by omega)
    refine ⟨s2, ?_, h2a.trans h1a, h2b.trans h1b, h2c.trans h1c, h2d.trans h1d, ?_⟩
    · rw [eraseMarkLevels, loadNext_of_deref ha, h0]
      simp only [eraseMarkCas, h1, Nat.add_one_ne_zero, false_and, if_false]
      exact h2
    · intro x; rw [h2m, hm1]

end EraseLemmas


section EraseSpec

variable {K V : Type} [LinearOrder K]

omit [LinearOrder K] in
theorem nodeOk_next {n : Node K V} {q : Nat} (hok : NodeOk n) (h0 : n.next_[0]? = some q) :
    n.next_ = q :: List.replicate (n.height - 1) (mark 0) := by
  obtain ⟨ht, -⟩ := hok
  cases hn : n.next_ with
  | nil => rw [hn] at h0; cases h0
  | cons x r =>
    rw [hn] at h0 ht
    simp only [List.getElem?_cons_zero, Option.some.injEq] at h0
    simp only [List.tail_cons] at ht
    rw [h0, ht]

omit [LinearOrder K] in
theorem deref_of_loadNext {s : ConcurrentSkipListMap K V} {p i v : Nat}
    (h : loadNext s p i = some v) : ∃ n, deref s.mem p = some n ∧ n.next_[i]? = some v := by
  unfold loadNext at h
  cases hd : deref s.mem p with
  | none => rw [hd] at h; cases h
  | some n => rw [hd] at h; exact ⟨n, rfl, h⟩

/-- The search primitive on a state whose level-0 list is quiescent up to a dead node `a`
that is still linked: it unlinks `a`, takes its `link_count` down and returns a null `cur`. -/
theorem find_dead (key : K) (fuel : Nat) {s : ConcurrentSkipListMap K V}
    {l1 : List (Nat × Node K V)} {a q : Nat} {ad : Node K V}
    (hhead : HeadOk s (headPtr l1 a)) (hht : s.height_ < kMaxHeight) (hseg : Seg s.mem l1 a)
    (h1 : ∀ x ∈ l1, x.2.key < key) (ha : deref s.mem a = some ad)
    (haq : ad.next_[0]? = some (q + 1)) (hqe : q % 2 = 0) (hne : lastPtr l1 s.head_ ≠ a)
    (hf : l1.length < fuel) :
    ∃ s1 pn, find key fuel s = some (⟨lastPtr l1 s.head_, 0, q + 1, false⟩, s1) ∧
      deref s.mem (lastPtr l1 s.head_) = some pn ∧
      s1.head_ = s.head_ ∧ s1.height_ = s.height_ ∧
      s1.retired = (if (ad.link_count + 255) % 256 = 0 then s.retired ++ [a] else s.retired) ∧
      ∀ x, deref s1.mem x =
        if x = a then some { ad with link_count := (ad.link_count + 255) % 256 }
        else if x = lastPtr l1 s.head_ then some (pn.withNext q) else deref s.mem x := by
  have hae : a % 2 = 0 := deref_even ha
  have hfe : headPtr l1 a % 2 = 0 := headPtr_even hseg hae
  obtain ⟨f, rfl⟩ : ∃ f, fuel = (f + 1) + l1.length := ⟨fuel - l1.length - 1, by omega⟩
  have hp0 : loadNext (setHazard (setHazard s 2 s.head_) 1 (headPtr l1 a)) s.head_ 0 =
      some (headPtr l1 a) := headOk_load_zero hhead
  have hskip := findInner_skip key l1 a (f + 1)
    (setHazard (setHazard s 2 s.head_) 1 (headPtr l1 a)) s.head_ 0 (by simpa using hseg) h1
    hae hp0
  have hlast := seg_last_load (s := setHazard (setHazard s 2 s.head_) 1 (headPtr l1 a))
    (by simpa using hseg) hp0
  obtain ⟨pn, hpn, hpc⟩ := deref_of_loadNext hlast
  simp only [setHazard_mem] at hpn
  obtain ⟨s1, hs1, h1a, h1b, h1c, h1m⟩ := findInner_dead key
    (s := walkState (setHazard (setHazard s 2 s.head_) 1 (headPtr l1 a)) l1 a)
    (by simpa using ha) haq hqe (by simpa using hpn) hpc hne f (cond l1.isEmpty 0 a)
  rw [← hskip] at hs1
  have hatt := findAttempt_of_inner (by omega) hhead hht hfe hs1
  refine ⟨s1, pn, ?_, hpn, by simpa using h1a, by simpa using h1b, by simpa using h1c, ?_⟩
  · rw [find_of_attempt (by omega) hatt]; rfl
  · intro x; rw [h1m]; simp

/-- The method `erase` on a quiescent state whose level-0 list splits at `key` into `l1` and
`l2`: it returns false and leaves memory alone unless `l2` starts with `key`; else it
returns true after unlinking and retiring the first node of `l2`. -/
theorem erase_spec (key : K) {fuel : Nat} {s : ConcurrentSkipListMap K V}
    {l1 l2 : List (Nat × Node K V)} (hq : Quiescent s (l1 ++ l2))
    (hf : (l1 ++ l2).length < fuel) (h1 : ∀ x ∈ l1, x.2.key < key)
    (h2 : ∀ x ∈ l2.head?, key ≤ x.2.key) :
    ∃ s1, s1.height_ = s.height_ ∧
      if matchOf key l2 = true then
        erase key fuel s = some (true, s1) ∧
          Quiescent s1 (setLast (nextOf l2) l1 ++ l2.tail) ∧
          s1.retired = s.retired ++ [headPtr l2 0] ∧
          s1.hp.hp0 = 0 ∧ s1.hp.hp1 = 0 ∧ s1.hp.hp2 = 0 ∧
          (∀ x, x ≠ headPtr l2 0 → x ≠ lastPtr l1 s.head_ →
            deref s1.mem x = deref s.mem x) ∧ s1.head_ = s.head_ ∧
          ∃ n, deref s1.mem (headPtr l2 0) = some n ∧ n.link_count = 0 ∧ n.key = key
      else
        erase key fuel s = some (false, s1) ∧ s1.mem = s.mem ∧ Quiescent s1 (l1 ++ l2) ∧
          s1.retired = s.retired ∧ s1.head_ = s.head_ := by
  have hht : s.height_ < kMaxHeight := hq.2.2.2.2.2
  unfold erase eraseMark
  rw [find_split hq hf h1 h2]
  simp only []
  by_cases hm : matchOf key l2 = true
  · simp only [hm, Bool.not_true, Bool.false_eq_true, if_false, if_true]
    cases l2 with
    | nil => simp [matchOf] at hm
    | cons y r =>
      obtain ⟨a, an⟩ := y
      have hnd := quiescent_nodup hq
      obtain ⟨hhead, hseg, hs, hnok, hne, -⟩ := id hq
      obtain ⟨hs1, hsa, hsq, hs2⟩ := (seg_append l1 ((a, an) :: r) 0).mp hseg
      have hok : NodeOk an := hnok (a, an) (by simp)
      have hqe : headPtr r 0 % 2 = 0 := headPtr_even hs2 rfl
      simp only [headPtr_cons, findState_mem, hsa, nextOf, List.tail_cons] at hs1 ⊢
      -- the marking loop
      obtain ⟨f, hfe⟩ : ∃ f, fuel = f + 1 := ⟨fuel - 1, by omega⟩
      obtain ⟨hh, hhe⟩ : ∃ hh, an.height = hh + 1 := ⟨an.height - 1, by have := hok.2.1; omega⟩
      have hmark := eraseMarkLevels_ok (f := f) (a := a) hqe (nodeOk_next hok hsq) hh
        (findState s l1 ((a, an) :: r)) false (by simpa using hsa) (by omega)
      obtain ⟨s2, h2e, h2a, h2b, h2c, h2d, h2m⟩ := hmark
      rw [hhe, hfe, h2e]
      simp only []
      -- the second find
      rw [headPtr_append, headPtr_cons] at hhead
      rw [List.map_append, List.map_cons, ← List.cons_append] at hnd
      have hnd3 := List.nodup_append.mp hnd
      have hpa : lastPtr l1 s.head_ ≠ a := fun he =>
        hnd3.2.2 (lastPtr_mem_cons l1 s.head_) (he ▸ List.mem_cons_self _ _)
      have hxa : ∀ x ∈ s.head_ :: l1.map Prod.fst, x ≠ a := fun x hx he =>
        hnd3.2.2 hx (he ▸ List.mem_cons_self _ _)
      have hm2 : ∀ x, x ≠ a → deref s2.mem x = deref s.mem x := by
        intro x hx; rw [h2m, if_neg hx]; simp
      have hhead2 : HeadOk s2 (headPtr l1 a) := by
        unfold HeadOk at hhead ⊢
        rw [show s2.head_ = s.head_ by simp [h2a],
          hm2 _ (hxa _ (List.mem_cons_self _ _))]
        exact hhead
      have hseg2 : Seg s2.mem l1 a := seg_congr hs1 (fun x hx =>
        hm2 _ (hxa _ (List.mem_cons_of_mem _ (List.mem_map_of_mem _ hx))))
      have hh2 : s2.head_ = s.head_ := by simp [h2a]
      obtain ⟨s3, pn, h3, h3p, h3a, h3b, h3c, h3m⟩ := find_dead key (f + 1)
        (q := headPtr r 0) hhead2 (by simpa [h2b] using hht) hseg2 h1
        (by rw [h2m, if_pos rfl]) (withNext_zero hsq _) hqe (by rw [hh2]; exact hpa)
        (by simp at hf; omega)
      unfold eraseFinish
      rw [h3]
      simp only [Bool.not_false, Bool.true_or, Bool.not_true, Bool.false_eq_true, if_false]
      rw [hh2] at h3p h3m
      refine ⟨clearHazards s3, by simp [clearHazards, h3b, h2b], rfl, ?_, ?_, ?_⟩
      · apply quiescent_unlink hq (by simp [clearHazards, h3a, h2a])
          (by simpa [clearHazards, h3b, h2b] using hht)
        · intro x hxa hxp
          simp only [clearHazards, clearHazard_mem]
          rw [h3m, if_neg hxa, if_neg hxp, hm2 x hxa]
        · simp only [clearHazards, clearHazard_mem]
          rw [h3m, if_neg hpa, if_pos rfl, ← hm2 _ hpa, h3p]; rfl
      · simp only [clearHazards, clearHazard_retired, h3c, withNext_link_count, hok.2.2.2, h2c,
          findState_retired]
        rfl
      · refine ⟨rfl, rfl, rfl, ?_, by simp [clearHazards, h3a, h2a],
          { an.withNext (headPtr r 0 + 1) with
            link_count := ((an.withNext (headPtr r 0 + 1)).link_count + 255) % 256 }, ?_, ?_, ?_⟩
        · intro x hxa hxp
          simp only [clearHazards, clearHazard_mem]
          rw [h3m, if_neg hxa, if_neg hxp, hm2 x hxa]
        · simp only [clearHazards, clearHazard_mem]
          rw [h3m, if_pos rfl]
        · simp only [withNext_link_count, hok.2.2.2]
        · simpa [matchOf] using hm
  · have hmf : matchOf key l2 = false := by simpa using hm
    simp only [hmf, Bool.not_false, if_true, Bool.false_eq_true, if_false]
    exact ⟨findState s l1 l2, by simp, rfl, by simp,
      quiescent_congr hq (by simp) (by simp) (by simpa using hht), by simp, by simp⟩

end EraseSpec

/-! ## Lemmas on the point operations -/

section SplitLemmas

variable {K V : Type} [LinearOrder K]

theorem nodesBelow_append_nodesFrom (key : K) (l : List (Nat × Node K V)) :
    nodesBelow key l ++ nodesFrom key l = l :=
  List.takeWhile_append_dropWhile _ l

theorem nodesBelow_lt (key : K) (l : List (Nat × Node K V)) :
    ∀ x ∈ nodesBelow key l, x.2.key < key := by
  intro x hx
  have := List.mem_takeWhile_imp hx
  simpa using this

theorem nodesFrom_head_ge (key : K) (l : List (Nat × Node K V)) :
    ∀ x ∈ (nodesFrom key l).head?, key ≤ x.2.key := by
  intro x hx
  induction l with
  | nil => simp [nodesFrom] at hx
  | cons y l ih =>
    unfold nodesFrom at hx ih
    rw [List.dropWhile_cons] at hx
    split at hx
    · exact ih hx
    · rename_i hy
      simp only [List.head?_cons, Option.mem_def, Option.some.injEq] at hx
      subst hx
      simpa using hy

theorem quiescent_split {s : ConcurrentSkipListMap K V} {l : List (Nat × Node K V)}
    (hq : Quiescent s l) (key : K) : Quiescent s (nodesBelow key l ++ nodesFrom key l) := by
  rw [nodesBelow_append_nodesFrom]; exact hq

/-- In a list with ascending keys, the key `key` occurs iff it is the key of the first node
that is not below it. -/
theorem matchOf_iff {l : List (Nat × Node K V)}
    (hs : (l.map (fun x => x.2.key)).Pairwise (· < ·)) (key : K) :
    matchOf key (nodesFrom key l) = true ↔ ∃ x ∈ l, x.2.key = key := by
  constructor
  · intro h
    cases hl : nodesFrom key l with
    | nil => rw [hl] at h; simp [matchOf] at h
    | cons y r =>
      obtain ⟨a, n⟩ := y
      rw [hl] at h
      refine ⟨(a, n), ?_, by simpa [matchOf] using h⟩
      rw [← nodesBelow_append_nodesFrom key l, hl]
      simp
  · rintro ⟨x, hx, rfl⟩
    rw [← nodesBelow_append_nodesFrom x.2.key l] at hx hs
    rcases List.mem_append.mp hx with hx | hx
    · exact absurd (nodesBelow_lt _ _ x hx) (lt_irrefl _)
    · cases hl : nodesFrom x.2.key l with
      | nil => rw [hl] at hx; cases hx
      | cons y r =>
        obtain ⟨a, n⟩ := y
        have hge := nodesFrom_head_ge x.2.key l (a, n) (by rw [hl]; simp)
        rw [hl] at hx hs
        rcases List.mem_cons.mp hx with rfl | hx
        · simp [matchOf]
        · rw [List.map_append, List.pairwise_append, List.map_cons, List.pairwise_cons] at hs
          have := hs.2.1.1 _ (List.mem_map_of_mem (fun x => x.2.key) hx)
          exact absurd (lt_of_lt_of_le this hge) (lt_irrefl _)

theorem lookup_entriesOf {l : List (Nat × Node K V)}
    (hs : (l.map (fun x => x.2.key)).Pairwise (· < ·)) (key : K) :
    lookup (entriesOf l) key =
      match nodesFrom key l with
      | [] => none
      | (_, n) :: _ => if n.key = key then some n.value else none := by
  have hb := nodesBelow_lt key l
  have hg := nodesFrom_head_ge key l
  rw [← nodesBelow_append_nodesFrom key l] at hs
  conv_lhs => rw [← nodesBelow_append_nodesFrom key l]
  generalize nodesBelow key l = l1 at hb hs ⊢
  generalize nodesFrom key l = l2 at hg hs ⊢
  unfold lookup entriesOf
  rw [List.map_append, List.find?_append]
  have h1 : List.find? (fun e => decide (e.1 = key))
      (l1.map (fun x => (x.2.key, x.2.value))) = none := by
    rw [List.find?_eq_none]
    intro e he
    obtain ⟨x, hx, rfl⟩ := List.mem_map.mp he
    simpa using ne_of_lt (hb x hx)
  rw [h1, Option.none_or]
  cases l2 with
  | nil => rfl
  | cons y r =>
    obtain ⟨a, n⟩ := y
    simp only [List.map_cons, List.find?_cons]
    by_cases hk : n.key = key
    · simp [hk]
    · simp only [hk, decide_False, if_false]
      have hlt : key < n.key := lt_of_le_of_ne (hg (a, n) (by simp)) (Ne.symm hk)
      rw [List.map_append, List.pairwise_append, List.map_cons, List.pairwise_cons] at hs
      have : List.find? (fun e => decide (e.1 = key))
          (r.map (fun x => (x.2.key, x.2.value))) = none := by
        rw [List.find?_eq_none]
        intro e he
        obtain ⟨x, hx, rfl⟩ := List.mem_map.mp he
        have := hs.2.1.1 _ (List.mem_map_of_mem (fun x => x.2.key) hx)
        simpa using ne_of_gt (lt_trans hlt this)
      rw [this]; rfl

theorem lookup_isSome_iff {l : List (Nat × Node K V)}
    (hs : (l.map (fun x => x.2.key)).Pairwise (· < ·)) (key : K) :
    (lookup (entriesOf l) key).isSome = matchOf key (nodesFrom key l) := by
  rw [lookup_entriesOf hs]
  cases nodesFrom key l with
  | nil => rfl
  | cons y r =>
    obtain ⟨a, n⟩ := y
    by_cases hk : n.key = key <;> simp [matchOf, hk]

end SplitLemmas


section PointLemmas

variable {K V : Type} [LinearOrder K]

theorem findValue_quiescent {s : ConcurrentSkipListMap K V} {l : List (Nat × Node K V)}
    (hq : Quiescent s l) (key : K) (out : V) {fuel : Nat} (hf : l.length < fuel) :
    findValue key out fuel s =
      some ((lookup (entriesOf l) key).isSome, (lookup (entriesOf l) key).getD out,
        clearHazards (findState s (nodesBelow key l) (nodesFrom key l))) := by
  have hfind := find_split (quiescent_split hq key)
    (by rw [nodesBelow_append_nodesFrom]; exact hf) (nodesBelow_lt key l)
    (nodesFrom_head_ge key l)
  have hseg : Seg s.mem (nodesFrom key l) 0 := by
    have := hq.2.1
    rw [← nodesBelow_append_nodesFrom key l, seg_append] at this
    exact this.2
  unfold findValue
  rw [hfind, lookup_entriesOf hq.2.2.1]
  cases hl : nodesFrom key l with
  | nil => simp [matchOf]
  | cons y r =>
    obtain ⟨a, n⟩ := y
    rw [hl] at hseg
    by_cases hk : n.key = key
    · simp [matchOf, hk, hseg.1]
    · simp [matchOf, hk]

theorem existsKey_quiescent {s : ConcurrentSkipListMap K V} {l : List (Nat × Node K V)}
    (hq : Quiescent s l) (key : K) {fuel : Nat} (hf : l.length < fuel) :
    existsKey key fuel s =
      some ((lookup (entriesOf l) key).isSome,
        clearHazards (findState s (nodesBelow key l) (nodesFrom key l))) := by
  have hfind := find_split (quiescent_split hq key)
    (by rw [nodesBelow_append_nodesFrom]; exact hf) (nodesBelow_lt key l)
    (nodesFrom_head_ge key l)
  unfold existsKey
  rw [hfind, lookup_isSome_iff hq.2.2.1]

theorem lookup_eq_some_iff {l : List (Nat × Node K V)}
    (hs : (l.map (fun x => x.2.key)).Pairwise (· < ·)) (key : K) (w : V) :
    lookup (entriesOf l) key = some w ↔ (key, w) ∈ entriesOf l := by
  constructor
  · intro h
    unfold lookup at h
    obtain ⟨e, he, hw⟩ := Option.map_eq_some'.mp h
    have hk := List.find?_some he
    have hm := List.mem_of_find?_eq_some he
    simp only [decide_eq_true_eq] at hk
    rw [← hk, ← hw]; exact hm
  · intro h
    obtain ⟨x, hx, he⟩ := List.mem_map.mp h
    simp only [Prod.mk.injEq] at he
    rw [lookup_entriesOf hs]
    rw [← nodesBelow_append_nodesFrom key l] at hx hs
    rcases List.mem_append.mp hx with hx | hx
    · exact absurd (he.1 ▸ nodesBelow_lt _ _ x hx) (lt_irrefl _)
    · have hge := nodesFrom_head_ge key l
      cases hl : nodesFrom key l with
      | nil => rw [hl] at hx; cases hx
      | cons y r =>
        obtain ⟨a, n⟩ := y
        rw [hl] at hx hs hge
        rcases List.mem_cons.mp hx with rfl | hx
        · simpa using he
        · rw [List.map_append, List.pairwise_append, List.map_cons, List.pairwise_cons] at hs
          have := hs.2.1.1 _ (List.mem_map_of_mem (fun x => x.2.key) hx)
          rw [he.1] at this
          exact absurd (lt_of_lt_of_le this (hge (a, n) (by simp))) (lt_irrefl _)

end PointLemmas


section Contracts

variable {K V : Type} [LinearOrder K]

omit [LinearOrder K] in
theorem entriesOf_append (l1 l2 : List (Nat × Node K V)) :
    entriesOf (l1 ++ l2) = entriesOf l1 ++ entriesOf l2 := by
  unfold entriesOf; exact List.map_append _ _ _

omit [LinearOrder K] in
theorem entriesOf_length (l : List (Nat × Node K V)) : (entriesOf l).length = l.length := by
  unfold entriesOf; exact List.length_map _ _

omit [LinearOrder K] in
theorem mem_entriesOf_key {l : List (Nat × Node K V)} (k : K) :
    (∃ e ∈ entriesOf l, e.1 = k) ↔ ∃ x ∈ l, x.2.key = k := by
  unfold entriesOf
  constructor
  · rintro ⟨e, he, rfl⟩
    obtain ⟨x, hx, rfl⟩ := List.mem_map.mp he
    exact ⟨x, hx, rfl⟩
  · rintro ⟨x, hx, rfl⟩
    exact ⟨_, List.mem_map_of_mem _ hx, rfl⟩

theorem quiescent_new [Inhabited K] [Inhabited V] :
    Quiescent (ConcurrentSkipListMap.new : ConcurrentSkipListMap K V) [] := by
  refine ⟨?_, trivial, List.Pairwise.nil, ?_, ?_, Nat.succ_pos 11⟩
  · unfold HeadOk ConcurrentSkipListMap.new
    have : deref [mkNode kMaxHeight (default : K) (default : V)] 8 =
        some (mkNode kMaxHeight default default) := rfl
    rw [this]
    simp only [Option.map_some', headPtr_nil]
    rw [show kMaxHeight = 11 + 1 from rfl, mkNode_next]
  · intro x hx; cases hx
  · intro x hx; cases hx

end Contracts


section ContractLemmas

variable {K V : Type} [LinearOrder K]

theorem matchOf_false_of_absent {l : List (Nat × Node K V)} {key : K}
    (h : ∀ x ∈ l, x.2.key ≠ key) : matchOf key (nodesFrom key l) = false := by
  cases hl : nodesFrom key l with
  | nil => rfl
  | cons y r =>
    obtain ⟨a, n⟩ := y
    have hm : (a, n) ∈ l := by
      rw [← nodesBelow_append_nodesFrom key l, hl]; simp
    simpa [matchOf] using h (a, n) hm

/-- The method `erase` on a quiescent state without the key. -/
theorem erase_absent {s : ConcurrentSkipListMap K V} {l : List (Nat × Node K V)}
    (hq : Quiescent s l) {key : K} (h : ∀ x ∈ l, x.2.key ≠ key) {fuel : Nat}
    (hf : l.length < fuel) :
    ∃ s1, erase key fuel s = some (false, s1) ∧ s1.mem = s.mem ∧ Quiescent s1 l := by
  obtain ⟨s1, -, h1⟩ := erase_spec key (quiescent_split hq key)
    (by rw [nodesBelow_append_nodesFrom]; exact hf) (nodesBelow_lt key l)
    (nodesFrom_head_ge key l)
  rw [matchOf_false_of_absent h] at h1
  simp only [Bool.false_eq_true, if_false, nodesBelow_append_nodesFrom] at h1
  exact ⟨s1, h1.1, h1.2.1, h1.2.2.1⟩

omit [LinearOrder K] in
theorem remove_eq_self [DecidableEq K] {m : List (K × V)} {k : K} (h : ∀ e ∈ m, e.1 ≠ k) :
    remove m k = m := by
  unfold remove
  rw [List.filter_eq_self]
  intro e he
  simpa using h e he

omit [LinearOrder K] in
theorem remove_append [DecidableEq K] (m1 m2 : List (K × V)) (k : K) :
    remove (m1 ++ m2) k = remove m1 k ++ remove m2 k := by
  unfold remove; exact List.filter_append _ _

omit [LinearOrder K] in
theorem remove_cons_self [DecidableEq K] (m : List (K × V)) (k : K) (v : V) :
    remove ((k, v) :: m) k = remove m k := by
  unfold remove; simp

end ContractLemmas


section StepLemmas

variable {K V : Type} [LinearOrder K]

omit [LinearOrder K] in
theorem setLast_length (c : Nat) (l : List (Nat × Node K V)) :
    (setLast c l).length = l.length := by
  have := congrArg List.length (setLast_map_fst c l)
  rw [List.length_map, List.length_map] at this
  exact this

/-- The entries after `insert` on a quiescent state. -/
theorem insert_entries {s : ConcurrentSkipListMap K V} {l : List (Nat × Node K V)}
    (hq : Quiescent s l) (k : K) (v : V) (r : Int) {fuel : Nat} (hf : l.length < fuel) :
    ∃ b s1 l1, insert k v r fuel s = some (b, s1) ∧ Quiescent s1 l1 ∧
      l1.length ≤ l.length + 1 ∧ (b = true ↔ ∀ x ∈ l, x.2.key ≠ k) ∧
      (b = false → l1 = l ∧ s1.mem = s.mem) ∧
      (b = true → entriesOf l1 =
        entriesOf (nodesBelow k l) ++ (k, v) :: entriesOf (nodesFrom k l)) ∧
      s1.height_ = (if randomLevel r > s.height_ then s.height_ + 1 else s.height_) ∧
      s1.retired = s.retired := by
  have hsorted := hq.2.2.1
  obtain ⟨s1, hret, hht, h1⟩ := insert_spec k v r (quiescent_split hq k)
    (by rw [nodesBelow_append_nodesFrom]; exact hf) (nodesBelow_lt k l)
    (nodesFrom_head_ge k l)
  have hlen := congrArg List.length (nodesBelow_append_nodesFrom k l)
  rw [List.length_append] at hlen
  by_cases hm : matchOf k (nodesFrom k l) = true
  · rw [if_pos hm, nodesBelow_append_nodesFrom] at h1
    obtain ⟨hins, hmem, hq1, -⟩ := h1
    refine ⟨false, s1, l, hins, hq1, by omega, ⟨(fun h => nomatch h), fun h => ?_⟩,
      fun _ => ⟨rfl, hmem⟩, (fun h => nomatch h), hht, hret⟩
    obtain ⟨x, hx, hk⟩ := (matchOf_iff hsorted k).mp hm
    exact absurd hk (h x hx)
  · rw [if_neg hm] at h1
    obtain ⟨nf, hins, hq1, hk, hv, -⟩ := h1
    refine ⟨true, s1, _, hins, hq1, ?_, ⟨fun _ x hx hxk => ?_, fun _ => rfl⟩,
      (fun h => nomatch h), fun _ => ?_, hht, hret⟩
    · rw [List.length_append, setLast_length, List.length_cons]; omega
    · exact hm ((matchOf_iff hsorted k).mpr ⟨x, hx, hxk⟩)
    · rw [entriesOf_append, setLast_entriesOf]
      simp [entriesOf, hk, hv]

/-- The entries after `erase` on a quiescent state. -/
theorem erase_entries {s : ConcurrentSkipListMap K V} {l : List (Nat × Node K V)}
    (hq : Quiescent s l) (k : K) {fuel : Nat} (hf : l.length < fuel) :
    ∃ b s1 l1, erase k fuel s = some (b, s1) ∧ Quiescent s1 l1 ∧ l1.length ≤ l.length ∧
      (b = true ↔ ∃ x ∈ l, x.2.key = k) ∧ entriesOf l1 = remove (entriesOf l) k ∧
      s1.height_ = s.height_ := by
  have hsorted := hq.2.2.1
  obtain ⟨s1, hht, h1⟩ := erase_spec k (quiescent_split hq k)
    (by rw [nodesBelow_append_nodesFrom]; exact hf) (nodesBelow_lt k l)
    (nodesFrom_head_ge k l)
  have hb := nodesBelow_lt k l
  have hsplit := nodesBelow_append_nodesFrom k l
  by_cases hm : matchOf k (nodesFrom k l) = true
  · rw [if_pos hm] at h1
    obtain ⟨he, hq1, -⟩ := h1
    refine ⟨true, s1, _, he, hq1, ?_,
      ⟨fun _ => (matchOf_iff hsorted k).mp hm, fun _ => rfl⟩, ?_, hht⟩
    · rw [List.length_append, setLast_length, List.length_tail]
      have h3 := congrArg List.length hsplit
      rw [List.length_append] at h3
      omega
    · rw [entriesOf_append, setLast_entriesOf]
      conv_rhs => rw [← hsplit, entriesOf_append, remove_append]
      have h1e : remove (entriesOf (nodesBelow k l)) k = entriesOf (nodesBelow k l) := by
        apply remove_eq_self
        intro e he hk
        obtain ⟨x, hx, hxk⟩ := (mem_entriesOf_key k).mp ⟨e, he, hk⟩
        exact absurd (hxk ▸ hb x hx) (lt_irrefl _)
      rw [h1e]
      congr 1
      rw [← hsplit] at hsorted
      cases hl : nodesFrom k l with
      | nil => rw [hl] at hm; simp [matchOf] at hm
      | cons y r =>
        obtain ⟨a, n⟩ := y
        rw [hl] at hm hsorted
        have hk : n.key = k := by simpa [matchOf] using hm
        rw [List.tail_cons]
        have : entriesOf ((a, n) :: r) = (k, n.value) :: entriesOf r := by
          simp [entriesOf, hk]
        rw [this, remove_cons_self, remove_eq_self]
        intro e he hek
        obtain ⟨x, hx, hxk⟩ := (mem_entriesOf_key k).mp ⟨e, he, hek⟩
        rw [List.map_append, List.pairwise_append, List.map_cons, List.pairwise_cons] at hsorted
        have := hsorted.2.1.1 _ (List.mem_map_of_mem (fun x => x.2.key) hx)
        rw [hk, hxk] at this
        exact lt_irrefl _ this
  · rw [if_neg hm, hsplit] at h1
    obtain ⟨he, -, hq1, -⟩ := h1
    have hnone : ∀ e ∈ entriesOf l, e.1 ≠ k := by
      intro e he hk
      exact hm ((matchOf_iff hsorted k).mpr ((mem_entriesOf_key k).mp ⟨e, he, hk⟩))
    refine ⟨false, s1, l, he, hq1, le_rfl, ⟨(fun h => nomatch h), fun h => ?_⟩,
      (remove_eq_self hnone).symm, hht⟩
    exact absurd ((matchOf_iff hsorted k).mpr h) hm

omit [LinearOrder K] in
theorem absent_after_remove [DecidableEq K] {l : List (Nat × Node K V)} {m : List (K × V)}
    {k : K} (h : entriesOf l = remove m k) : ∀ x ∈ l, x.2.key ≠ k := by
  intro x hx hk
  have : (x.2.key, x.2.value) ∈ remove m k := by
    rw [← h]; exact List.mem_map_of_mem (fun x => (x.2.key, x.2.value)) hx
  unfold remove at this
  have := (List.mem_filter.mp this).2
  simp [hk] at this

end StepLemmas

/-! ## Lemmas on runs of calls -/

section RefineLemmas

variable {K V : Type}

theorem lookup_cons [DecidableEq K] (m : List (K × V)) (k k1 : K) (v : V) :
    lookup ((k, v) :: m) k1 = if k = k1 then some v else lookup m k1 := by
  unfold lookup
  rw [List.find?_cons]
  by_cases h : k = k1 <;> simp [h]

theorem lookup_middle [DecidableEq K] {m1 : List (K × V)} {k : K} (h : ∀ e ∈ m1, e.1 ≠ k)
    (m2 : List (K × V)) (v : V) (k1 : K) :
    lookup (m1 ++ (k, v) :: m2) k1 = if k = k1 then some v else lookup (m1 ++ m2) k1 := by
  induction m1 with
  | nil => exact lookup_cons m2 k k1 v
  | cons e m1 ih =>
    obtain ⟨a, b⟩ := e
    have hak : a ≠ k := h (a, b) (List.mem_cons_self _ _)
    rw [List.cons_append, List.cons_append, lookup_cons, lookup_cons,
      ih (fun e he => h e (List.mem_cons_of_mem _ he))]
    by_cases h1 : a = k1
    · subst h1; simp [Ne.symm hak]
    · simp [h1]

theorem lookup_remove [DecidableEq K] (m : List (K × V)) (k k1 : K) :
    lookup (remove m k) k1 = if k = k1 then none else lookup m k1 := by
  induction m with
  | nil => simp [remove, lookup]
  | cons e m ih =>
    obtain ⟨a, b⟩ := e
    by_cases hak : a = k
    · subst hak
      rw [remove_cons_self, ih, lookup_cons]
      by_cases h1 : a = k1 <;> simp [h1]
    · have : remove ((a, b) :: m) k = (a, b) :: remove m k := by
        unfold remove; simp [hak]
      rw [this, lookup_cons, lookup_cons, ih]
      by_cases h1 : a = k1
      · subst h1; simp [Ne.symm hak]
      · simp [h1]

theorem lookup_putIfAbsent [DecidableEq K] (m : List (K × V)) (k k1 : K) (v : V) :
    lookup (putIfAbsent m k v) k1 =
      if (lookup m k).isSome then lookup m k1
      else if k = k1 then some v else lookup m k1 := by
  unfold putIfAbsent
  split
  · rfl
  · exact lookup_cons m k k1 v

end RefineLemmas

section RunLemmas

variable {K V : Type} [LinearOrder K]

/-- One call keeps the state quiescent and moves the entries as the abstract map moves. -/
theorem step_refines {s : ConcurrentSkipListMap K V} {l : List (Nat × Node K V)}
    {m : List (K × V)} (hq : Quiescent s l)
    (hag : ∀ k, lookup (entriesOf l) k = lookup m k) (op : Op K V) {fuel : Nat}
    (hf : l.length < fuel) :
    ∃ b s1 l1, step fuel s op = some (b, s1) ∧ Quiescent s1 l1 ∧
      (∀ k, lookup (entriesOf l1) k = lookup (absStep m op) k) ∧
      l1.length ≤ l.length + 1 := by
  have hsorted := hq.2.2.1
  cases op with
  | insert k v r =>
    obtain ⟨b, s1, l1, hins, hq1, hlen, hiff, hfalse, htrue, -⟩ := insert_entries hq k v r hf
    refine ⟨b, s1, l1, hins, hq1, ?_, hlen⟩
    intro k1
    show _ = lookup (putIfAbsent m k v) k1
    rw [lookup_putIfAbsent, ← hag k, ← hag k1, lookup_isSome_iff hsorted]
    cases b with
    | true =>
      have habs := hiff.mp rfl
      rw [matchOf_false_of_absent habs, htrue rfl]
      simp only [Bool.false_eq_true, if_false]
      rw [lookup_middle, ← entriesOf_append, nodesBelow_append_nodesFrom]
      intro e he hek
      obtain ⟨x, hx, hxk⟩ := (mem_entriesOf_key k).mp ⟨e, he, hek⟩
      exact absurd (hxk ▸ nodesBelow_lt k l x hx) (lt_irrefl _)
    | false =>
      have hm : matchOf k (nodesFrom k l) = true := by
        by_contra hne
        have hmf : matchOf k (nodesFrom k l) = false := by simpa using hne
        have := hiff.mpr (fun x hx hxk => by
          have := (matchOf_iff hsorted k).mpr ⟨x, hx, hxk⟩
          rw [hmf] at this; cases this)
        cases this
      rw [hm, (hfalse rfl).1]
      rfl
  | erase k =>
    obtain ⟨b, s1, l1, he, hq1, hlen, -, hent, -⟩ := erase_entries hq k hf
    refine ⟨b, s1, l1, he, hq1, ?_, by omega⟩
    intro k1
    show _ = lookup (remove m k) k1
    rw [hent, lookup_remove, lookup_remove, hag k1]

/-- A run of calls keeps the state quiescent and ends with the entries of the abstract map. -/
theorem runOps_refines (fuel : Nat) (ops : List (Op K V)) :
    ∀ (s : ConcurrentSkipListMap K V) (l : List (Nat × Node K V)) (m : List (K × V)),
      Quiescent s l → (∀ k, lookup (entriesOf l) k = lookup m k) →
      l.length + ops.length < fuel →
      ∃ s1 l1, runOps fuel ops s = some s1 ∧ Quiescent s1 l1 ∧
        (∀ k, lookup (entriesOf l1) k = lookup (ops.foldl absStep m) k) ∧
        l1.length ≤ l.length + ops.length := by
  induction ops with
  | nil =>
    intro s l m hq hag _
    exact ⟨s, l, rfl, hq, hag, le_rfl⟩
  | cons op ops ih =>
    intro s l m hq hag hf
    rw [List.length_cons] at hf
    obtain ⟨b, s1, l1, hstep, hq1, hag1, hlen1⟩ := step_refines hq hag op
      (show l.length < fuel by omega)
    obtain ⟨s2, l2, hrun, hq2, hag2, hlen2⟩ := ih s1 l1 (absStep m op) hq1 hag1 (by omega)
    refine ⟨s2, l2, ?_, hq2, hag2, ?_⟩
    · rw [runOps, hstep]; exact hrun
    · rw [List.length_cons]; omega

end RunLemmas

/-! ## Lemmas on the snapshots -/

section ExtractLemmas

variable {K V : Type} [LinearOrder K]

omit [LinearOrder K] in
theorem extractReload_unmarked (prev f : Nat) (s : ConcurrentSkipListMap K V) (cur : Nat)
    {next : Nat} (h : next % 2 = 0) :
    extractReload prev (f + 1) s cur next = some (some (cur, next), s) := by
  rw [extractReload, marked0_of_even h]
  simp

omit [LinearOrder K] in
/-- The main loop of `extractor` on a segment without marks that ends in null: it collects
`f` of every node, in order, and changes hazard slots only. -/
theorem extractLoop_seg {R : Type} (f : Node K V → R) {fuel : Nat} (hfuel : 1 ≤ fuel)
    (l : List (Nat × Node K V)) :
    ∀ (j : Nat) (s : ConcurrentSkipListMap K V) (prev : Nat) (ret : List R), Seg s.mem l 0 →
      ∃ s1, extractLoop f fuel (l.length + 1 + j) s prev (headPtr l 0) ret =
          some (.done s1 (ret ++ l.map (fun x => f x.2))) ∧
        s1.mem = s.mem ∧ s1.head_ = s.head_ ∧ s1.height_ = s.height_ ∧
        s1.retired = s.retired := by
  obtain ⟨g, rfl⟩ : ∃ g, fuel = g + 1 := ⟨fuel - 1, by omega⟩
  induction l with
  | nil =>
    intro j s prev ret _
    refine ⟨s, ?_, rfl, rfl, rfl, rfl⟩
    rw [show ([] : List (Nat × Node K V)).length + 1 + j = j + 1 by simp; omega, extractLoop]
    simp
  | cons x l ih =>
    obtain ⟨a, n⟩ := x
    intro j s prev ret hseg
    have hq : headPtr l 0 % 2 = 0 := headPtr_even hseg.2.2 rfl
    have hload : loadNext s a 0 = some (headPtr l 0) := by
      rw [loadNext_of_deref hseg.1]; exact hseg.2.1
    obtain ⟨s1, h1, h1m, h1a, h1b, h1c⟩ := ih j
      (setHazard (setHazard (setHazard s 0 (headPtr l 0)) 2 a) 1 (headPtr l 0)) a
      (ret ++ [f n]) (by simpa using hseg.2.2)
    refine ⟨s1, ?_, by simpa using h1m, by simpa using h1a, by simpa using h1b,
      by simpa using h1c⟩
    rw [show ((a, n) :: l).length + 1 + j = (l.length + 1 + j) + 1 by simp; omega, extractLoop]
    simp only [headPtr_cons, deref_ne_zero hseg.1, if_false, hseg.1,
      loadAndSetHazard_eq hload, extractReload_unmarked _ _ _ _ hq]
    rw [h1]
    simp

/-- The method template `extractor` on a quiescent state. -/
theorem extractor_quiescent {R : Type} (f : Node K V → R) {s : ConcurrentSkipListMap K V}
    {l : List (Nat × Node K V)} (hq : Quiescent s l) {fuel : Nat} (hf : l.length < fuel) :
    ∃ s1, extractor f fuel s = some (l.map (fun x => f x.2), s1) ∧ s1.mem = s.mem ∧
      s1.head_ = s.head_ ∧ s1.height_ = s.height_ ∧ s1.retired = s.retired := by
  obtain ⟨j, hj⟩ : ∃ j, fuel = l.length + 1 + j := ⟨fuel - l.length - 1, by omega⟩
  obtain ⟨s1, h1, h1m, h1a, h1b, h1c⟩ := extractLoop_seg f (show 1 ≤ fuel by omega) l j
    (setHazard s 1 (headPtr l 0)) s.head_ [] (by simpa using hq.2.1)
  refine ⟨clearHazards s1, ?_, by simpa [clearHazards] using h1m,
    by simpa [clearHazards] using h1a, by simpa [clearHazards] using h1b,
    by simpa [clearHazards] using h1c⟩
  unfold extractor
  rw [← hj] at h1
  conv_lhs => rw [hj]
  rw [show l.length + 1 + j = (l.length + j) + 1 by omega, extractRetry,
    loadAndSetHazard_eq (headOk_load_zero hq.1)]
  rw [show (l.length + j) + 1 = fuel by omega]
  simp only [h1, List.nil_append]

omit [LinearOrder K] in
theorem firstKeyLoop_quiescent {s : ConcurrentSkipListMap K V} {first : Nat}
    (h : HeadOk s first) (he : first % 2 = 0) (f : Nat) :
    firstKeyLoop (f + 1) s = some (first, setHazard s 1 first) := by
  rw [firstKeyLoop, loadAndSetHazard_eq (headOk_load_zero h)]
  simp [marked0_of_even he]

end ExtractLemmas

section MarkLemmas

variable {K V : Type} [LinearOrder K]

theorem mark_of_odd {v : Nat} (h : v % 2 = 1) : mark v = v := by
  have h1 : (v - 1) % 2 = 0 := by omega
  have := mark_of_even h1
  have h2 : mark (v - 1) = mark v := by
    unfold mark
    apply Nat.eq_of_testBit_eq
    intro i
    rw [Nat.testBit_or, Nat.testBit_or]
    cases i with
    | zero => simp
    | succ i =>
      have : (v - 1) / 2 = v / 2 := by omega
      simp only [Nat.testBit_succ, this]
  omega

theorem clear_mark (v : Nat) : clear (mark v) = clear v := by
  rcases Nat.mod_two_eq_zero_or_one v with h | h
  · rw [mark_of_even h, clear_succ_of_even h, clear_of_even h]
  · rw [mark_of_odd h]

end MarkLemmas

/-! ## Lemmas on the random level -/

section LevelBits

theorem shr_one (r : Int) : r >>> (1 : Int) = r / 2 := by
  cases r <;> rfl

theorem testBit_half (x : Int) (i : Nat) : (x / 2).testBit i = x.testBit (i + 1) := by
  cases x with
  | ofNat m =>
    show Nat.testBit (m / 2) i = Nat.testBit m (i + 1)
    rw [Nat.testBit_succ]
  | negSucc m =>
    show (!Nat.testBit (m / 2) i) = !Nat.testBit m (i + 1)
    rw [Nat.testBit_succ]

theorem testBit_zero_iff (x : Int) : x % 2 ≠ 0 ↔ x.testBit 0 = true := by
  cases x with
  | ofNat m =>
    show ((m : Nat) : Int) % 2 ≠ 0 ↔ Nat.testBit m 0 = true
    rw [Nat.testBit_zero]
    simp only [decide_eq_true_eq]
    omega
  | negSucc m =>
    show Int.negSucc m % 2 ≠ 0 ↔ (!Nat.testBit m 0) = true
    rw [Nat.testBit_zero]
    simp only [Bool.not_eq_true', decide_eq_false_iff_not, Int.negSucc_eq]
    omega

theorem randomLevelLoop_ones (r : Int) :
    ∀ (n : Nat) (x : Int) (level j m : Nat), n ≤ m → (∀ i, x.testBit i = r.testBit (i + j)) →
      randomLevelLoop n x level = level + min n (onesFrom r (j + 1) m) := by
  intro n
  induction n with
  | zero => intro x level j m _ _; simp [randomLevelLoop]
  | succ n ih =>
    intro x level j m hm hx
    obtain ⟨m, rfl⟩ : ∃ k, m = k + 1 := ⟨m - 1, by omega⟩
    have hb : (x / 2) % 2 ≠ 0 ↔ r.testBit (j + 1) = true := by
      rw [testBit_zero_iff, testBit_half, hx, Nat.add_comm]
    have hx2 : ∀ i, (x / 2).testBit i = r.testBit (i + (j + 1)) := by
      intro i
      rw [testBit_half, hx]
      congr 1
      omega
    rw [randomLevelLoop, shr_one, onesFrom]
    by_cases hc : r.testBit (j + 1) = true
    · rw [if_pos (hb.2 hc), if_pos hc, ih (x / 2) (level + 1) (j + 1) m (by omega) hx2]
      omega
    · rw [if_neg (fun h => hc (hb.1 h)), if_neg hc]
      omega

theorem randomLevel_ones (r : Int) : randomLevel r = min (kMaxHeight - 1) (onesFrom r 1 63) := by
  have h := randomLevelLoop_ones r (kMaxHeight - 1) r 0 0 63 (by decide) (fun _ => rfl)
  rw [Nat.zero_add, Nat.zero_add] at h
  exact h

theorem randomLevelLoop_ge (n : Nat) (x : Int) (level : Nat) :
    level ≤ randomLevelLoop n x level := by
  induction n generalizing x level with
  | zero => simp [randomLevelLoop]
  | succ n ih =>
    rw [randomLevelLoop]
    split_ifs
    · have := ih (x >>> 1) (level + 1)
      omega
    · exact Nat.le_refl _

theorem mod_two_pow_succ (y : Int) (k : Nat) :
    y % 2 ^ (k + 1) = 2 ^ (k + 1) - 1 ↔ y % 2 ≠ 0 ∧ (y / 2) % 2 ^ k = 2 ^ k - 1 := by
  have hP : (0 : Int) < 2 ^ k := by positivity
  have h2 : (2 : Int) ^ (k + 1) = 2 * 2 ^ k := by ring
  rw [h2]
  generalize (2 : Int) ^ k = P at hP
  have hs0 := Int.emod_nonneg (y / 2) (ne_of_gt hP)
  have hs1 := Int.emod_lt_of_pos (y / 2) hP
  have hq := Int.emod_add_ediv (y / 2) P
  have hy : y % (2 * P) = 2 * ((y / 2) % P) + y % 2 := by
    have := (Int.ediv_emod_unique (a := y) (b := 2 * P) (r := 2 * ((y / 2) % P) + y % 2)
      (q := (y / 2) / P) (by omega)).2 ⟨by
        have e : 2 * P * (y / 2 / P) = 2 * (P * (y / 2 / P)) := by ring
        rw [e]
        omega, by omega, by omega⟩
    exact this.2
  rw [hy]
  omega

theorem randomLevelLoop_ge_iff :
    ∀ (n : Nat) (x : Int) (level k : Nat), k ≤ n →
      (level + k ≤ randomLevelLoop n x level ↔ (x / 2) % 2 ^ k = 2 ^ k - 1) := by
  intro n
  induction n with
  | zero =>
    intro x level k hk
    obtain rfl : k = 0 := by omega
    simp [randomLevelLoop]
  | succ n ih =>
    intro x level k hk
    cases k with
    | zero =>
      have := randomLevelLoop_ge (n + 1) x level
      simp only [Nat.add_zero, this, pow_zero, Int.emod_one, sub_self]
    | succ k =>
      rw [randomLevelLoop, shr_one, mod_two_pow_succ]
      by_cases hb : (x / 2) % 2 ≠ 0
      · rw [if_pos hb, ← ih (x / 2) (level + 1) k (by omega)]
        constructor
        · intro h
          exact ⟨hb, by omega⟩
        · intro h
          have := h.2
          omega
      · rw [if_neg hb]
        constructor
        · intro h
          omega
        · intro h
          exact absurd h.1 hb

theorem randomLevel_ge_iff (r : Int) (k : Nat) (hk : k ≤ 11) :
    k ≤ randomLevel r ↔ (r / 2) % 2 ^ k = 2 ^ k - 1 := by
  have h := randomLevelLoop_ge_iff (kMaxHeight - 1) r 0 k hk
  rw [Nat.zero_add] at h
  exact h

end LevelBits

section LevelCount

theorem randomLevel_count (k : Nat) (hk : k ≤ 11) :
    ((Finset.Ico (-2 ^ 63 : Int) (2 ^ 63)).filter (fun x => k ≤ randomLevel x)).card =
      2 ^ (64 - k) := by
  have hcongr : (Finset.Ico (-2 ^ 63 : Int) (2 ^ 63)).filter (fun x => k ≤ randomLevel x) =
      (Finset.Ico (-2 ^ 63 : Int) (2 ^ 63)).filter (fun x => (x / 2) % 2 ^ k = 2 ^ k - 1) :=
    Finset.filter_congr (fun x _ => randomLevel_ge_iff x k hk)
  have hcard : (Finset.Ico (0 : Int) (2 ^ (64 - k))).card = 2 ^ (64 - k) := by
    rw [Int.card_Ico, sub_zero]
    have e : (2 : Int) ^ (64 - k) = ((2 ^ (64 - k) : Nat) : Int) := by push_cast; rfl
    rw [e, Int.toNat_natCast]
  rw [hcongr, ← hcard]
  apply Finset.card_nbij' (fun x => x % 2 + 2 * ((x + 2 ^ 63) / 2 ^ (k + 1)))
    (fun t => t % 2 + 2 * (2 ^ k - 1) + 2 ^ (k + 1) * (t / 2) - 2 ^ 63)
  all_goals
    interval_cases k <;>
      simp only [Finset.mem_filter, Finset.mem_Ico, Finset.coe_filter, Set.mem_setOf_eq] <;>
      intro x hx <;> omega

end LevelCount

/-! ## Lemmas on runs of all public methods -/

section CallLemmas

variable {K V : Type} [LinearOrder K]

theorem firstKey_quiescent [Inhabited K] {s : ConcurrentSkipListMap K V}
    {l : List (Nat × Node K V)} (hq : Quiescent s l) {fuel : Nat} (hf : 0 < fuel) :
    ∃ k s1, firstKey fuel s = some (k, s1) ∧ s1.mem = s.mem ∧ s1.head_ = s.head_ ∧
      s1.height_ = s.height_ ∧ s1.retired = s.retired := by
  obtain ⟨f, rfl⟩ : ∃ f, fuel = f + 1 := ⟨fuel - 1, by omega⟩
  have hloop := firstKeyLoop_quiescent hq.1 (headPtr_even hq.2.1 rfl) f
  unfold firstKey
  rw [hloop]
  cases l with
  | nil => exact ⟨default, clearHazard (setHazard s 1 0) 1, by simp, rfl, rfl, rfl, rfl⟩
  | cons x r =>
    obtain ⟨a, n⟩ := x
    have hd := hq.2.1.1
    exact ⟨n.key, clearHazard (setHazard s 1 a) 1, by simp [hd, deref_ne_zero hd],
      rfl, rfl, rfl, rfl⟩

theorem applyCall_quiescent [Inhabited K] {s : ConcurrentSkipListMap K V}
    {l : List (Nat × Node K V)} (hq : Quiescent s l) (c : Call K V) {fuel : Nat}
    (hf : l.length < fuel) :
    ∃ s1 l1, applyCall fuel s c = some s1 ∧ Quiescent s1 l1 ∧ l1.length ≤ l.length + 1 ∧
      (c.isInsert = false → s1.height_ = s.height_) ∧
      (∀ k v r, c = .insert k v r →
        s1.height_ = if randomLevel r > s.height_ then s.height_ + 1 else s.height_) := by
  cases c with
  | insert k v r =>
    obtain ⟨b, s1, l1, h, hq1, hlen, -, -, -, hht, -⟩ := insert_entries hq k v r hf
    refine ⟨s1, l1, by simp [applyCall, h], hq1, hlen, (fun h => Bool.noConfusion h), ?_⟩
    intro k1 v1 r1 e
    cases e
    exact hht
  | find k out =>
    refine ⟨clearHazards (findState s (nodesBelow k l) (nodesFrom k l)), l,
      by simp [applyCall, findValue_quiescent hq k out hf], ?_, by omega,
      fun _ => by simp [clearHazards], fun _ _ _ e => nomatch e⟩
    exact quiescent_congr hq (by simp [clearHazards]) (by simp [clearHazards])
      (by simpa [clearHazards] using hq.2.2.2.2.2)
  | existsKey k =>
    refine ⟨clearHazards (findState s (nodesBelow k l) (nodesFrom k l)), l,
      by simp [applyCall, existsKey_quiescent hq k hf], ?_, by omega,
      fun _ => by simp [clearHazards], fun _ _ _ e => nomatch e⟩
    exact quiescent_congr hq (by simp [clearHazards]) (by simp [clearHazards])
      (by simpa [clearHazards] using hq.2.2.2.2.2)
  | erase k =>
    obtain ⟨b, s1, l1, h, hq1, hlen, -, -, hht⟩ := erase_entries hq k hf
    exact ⟨s1, l1, by simp [applyCall, h], hq1, by omega, fun _ => hht,
      fun _ _ _ e => nomatch e⟩
  | firstKey =>
    obtain ⟨k, s1, h, hm, hh, hht, -⟩ := firstKey_quiescent hq (show 0 < fuel by omega)
    exact ⟨s1, l, by simp [applyCall, h], quiescent_congr hq hm hh (by rw [hht]; exact hq.2.2.2.2.2),
      by omega, fun _ => hht, fun _ _ _ e => nomatch e⟩
  | values =>
    obtain ⟨s1, h, hm, hh, hht, -⟩ := extractor_quiescent (fun n => n.value) hq hf
    exact ⟨s1, l, by simp [applyCall, values, h],
      quiescent_congr hq hm hh (by rw [hht]; exact hq.2.2.2.2.2),
      by omega, fun _ => hht, fun _ _ _ e => nomatch e⟩
  | entries =>
    obtain ⟨s1, h, hm, hh, hht, -⟩ := extractor_quiescent (fun n => (n.key, n.value)) hq hf
    exact ⟨s1, l, by simp [applyCall, entries, h],
      quiescent_congr hq hm hh (by rw [hht]; exact hq.2.2.2.2.2),
      by omega, fun _ => hht, fun _ _ _ e => nomatch e⟩

theorem runCalls_quiescent [Inhabited K] (fuel : Nat) (cs : List (Call K V)) :
    ∀ (s : ConcurrentSkipListMap K V) (l : List (Nat × Node K V)),
      Quiescent s l → l.length + cs.length ≤ fuel →
      ∃ s1 l1, runCalls fuel cs s = some s1 ∧ Quiescent s1 l1 ∧
        l1.length ≤ l.length + cs.length ∧ s.height_ ≤ s1.height_ := by
  induction cs with
  | nil => intro s l hq _; exact ⟨s, l, rfl, hq, le_rfl, le_rfl⟩
  | cons c cs ih =>
    intro s l hq hf
    rw [List.length_cons] at hf
    obtain ⟨s1, l1, h1, hq1, hlen1, hni, hi⟩ := applyCall_quiescent hq c
      (show l.length < fuel by omega)
    obtain ⟨s2, l2, h2, hq2, hlen2, hht2⟩ := ih s1 l1 hq1 (by omega)
    refine ⟨s2, l2, by rw [runCalls, h1]; exact h2, hq2, by rw [List.length_cons]; omega, ?_⟩
    have : s.height_ ≤ s1.height_ := by
      cases c with
      | insert k v r => rw [hi k v r rfl]; split_ifs <;> omega
      | _ => rw [hni rfl]
    omega

end CallLemmas

/-! ## Lemmas on the links to a node -/

section LinkCount

variable {K V : Type}

theorem seg_filterMap {mem : List (Node K V)} {l : List (Nat × Node K V)} {c : Nat}
    (h : Seg mem l c) : (l.map Prod.fst).filterMap (deref mem) = l.map Prod.snd := by
  induction l with
  | nil => rfl
  | cons x l ih =>
    obtain ⟨a, n⟩ := x
    rw [List.map_cons, List.filterMap_cons_some h.1, ih h.2.2]
    rfl

theorem seg_nexts {mem : List (Node K V)} (l : List (Nat × Node K V)) (c : Nat) :
    ∀ p : Node K V, p.next_[0]? = some (headPtr l c) → Seg mem l c →
      (p :: l.map Prod.snd).map (fun n => n.next_[0]?) = (l.map Prod.fst ++ [c]).map some := by
  induction l with
  | nil => intro p hp _; simpa using hp
  | cons x l ih =>
    obtain ⟨a, n⟩ := x
    intro p hp h
    have := ih n h.2.1 h.2.2
    rw [List.map_cons] at this ⊢
    rw [List.map_cons, List.map_cons, this]
    simpa using hp

theorem pointsTo_shape {n : Node K V} {q h a : Nat}
    (hn : n.next_ = q :: List.replicate h (mark 0)) (ha : a ≠ 0) (i : Nat) :
    pointsTo n (i + 1) a = false := by
  unfold pointsTo
  rw [hn, List.getElem?_cons_succ]
  by_cases hi : i < h
  · rw [List.getElem?_replicate, if_pos hi]
    simpa [mark_zero, clear_one] using fun e => ha e.symm
  · rw [List.getElem?_eq_none (by simpa using hi)]

theorem listNodes_quiescent [LT K] {s : ConcurrentSkipListMap K V} {l : List (Nat × Node K V)}
    (hq : Quiescent s l) :
    ∃ hd, deref s.mem s.head_ = some hd ∧
      hd.next_ = headPtr l 0 :: List.replicate (kMaxHeight - 1) (mark 0) ∧
      listNodes s l = hd :: l.map Prod.snd := by
  obtain ⟨hd, h1, h2⟩ := headOk_deref hq.1
  refine ⟨hd, h1, h2, ?_⟩
  unfold listNodes
  rw [List.filterMap_cons_some h1, seg_filterMap hq.2.1]

theorem listNodes_shape [LT K] {s : ConcurrentSkipListMap K V} {l : List (Nat × Node K V)}
    (hq : Quiescent s l) :
    ∀ n ∈ listNodes s l, ∃ q h, n.next_ = q :: List.replicate h (mark 0) ∧ q % 2 = 0 := by
  obtain ⟨hd, h1, h2, h3⟩ := listNodes_quiescent hq
  have hnx := seg_nexts l 0 hd (by rw [h2]; rfl) hq.2.1
  intro n hn
  rw [h3] at hn
  have hmem : n.next_[0]? ∈ (l.map Prod.fst ++ [0]).map some := by
    rw [← hnx]; exact List.mem_map_of_mem _ hn
  obtain ⟨q, hq1, hq2⟩ := List.mem_map.mp hmem
  have hqe : q % 2 = 0 := by
    rcases List.mem_append.mp hq1 with hq1 | hq1
    · obtain ⟨x, hx, rfl⟩ := List.mem_map.mp hq1
      exact deref_even (seg_deref hq.2.1 hx)
    · simp only [List.mem_singleton] at hq1; rw [hq1]
  rcases List.mem_cons.mp hn with rfl | hn
  · refine ⟨q, kMaxHeight - 1, ?_, hqe⟩
    rw [h2] at hq2 ⊢
    simp only [List.getElem?_cons_zero, Option.some.injEq] at hq2
    rw [hq2]
  · obtain ⟨x, hx, rfl⟩ := List.mem_map.mp hn
    exact ⟨q, x.2.height - 1, nodeOk_next (hq.2.2.2.1 x hx) hq2.symm, hqe⟩

theorem linkedLevels_quiescent [LT K] {s : ConcurrentSkipListMap K V}
    {l : List (Nat × Node K V)} (hq : Quiescent s l) {a : Nat} (ha : a ≠ 0) :
    linkedLevels s l a = if a ∈ l.map Prod.fst then 1 else 0 := by
  have hshape := listNodes_shape hq
  obtain ⟨hd, h1, h2, h3⟩ := listNodes_quiescent hq
  have hnx := seg_nexts l 0 hd (by rw [h2]; rfl) hq.2.1
  have hup : ∀ i, (listNodes s l).any (fun n => pointsTo n (i + 1) a) = false := by
    intro i
    rw [List.any_eq_false]
    intro n hn
    obtain ⟨q, h, hs, -⟩ := hshape n hn
    rw [pointsTo_shape hs ha i]
    exact Bool.false_ne_true
  have h0 : (listNodes s l).any (fun n => pointsTo n 0 a) = decide (a ∈ l.map Prod.fst) := by
    rw [Bool.eq_iff_iff, List.any_eq_true, decide_eq_true_iff, h3]
    constructor
    · rintro ⟨n, hn, hp⟩
      have hmem : n.next_[0]? ∈ (l.map Prod.fst ++ [0]).map some := by
        rw [← hnx]; exact List.mem_map_of_mem _ hn
      obtain ⟨q, hq1, hq2⟩ := List.mem_map.mp hmem
      unfold pointsTo at hp
      rw [← hq2] at hp
      simp only [decide_eq_true_eq] at hp
      rcases List.mem_append.mp hq1 with hq1 | hq1
      · obtain ⟨x, hx, rfl⟩ := List.mem_map.mp hq1
        rw [clear_of_even (deref_even (seg_deref hq.2.1 hx))] at hp
        rw [← hp]; exact List.mem_map_of_mem _ hx
      · simp only [List.mem_singleton] at hq1
        rw [hq1] at hp
        exact absurd hp.symm ha
    · intro hm
      have hmem : some a ∈ (hd :: l.map Prod.snd).map (fun n => n.next_[0]?) := by
        rw [hnx]; exact List.mem_map_of_mem _ (List.mem_append_left _ hm)
      obtain ⟨n, hn, hn2⟩ := List.mem_map.mp hmem
      refine ⟨n, hn, ?_⟩
      unfold pointsTo
      simp only [hn2, decide_eq_true_eq]
      obtain ⟨x, hx, rfl⟩ := List.mem_map.mp hm
      exact clear_of_even (deref_even (seg_deref hq.2.1 hx))
  unfold linkedLevels
  rw [show kMaxHeight = 11 + 1 from rfl, List.range_succ_eq_map, List.filter_cons, h0,
    List.filter_map]
  have hnil : (List.range 11).filter
      ((fun i => (listNodes s l).any (fun n => pointsTo n i a)) ∘ Nat.succ) = [] := by
    rw [List.filter_eq_nil_iff]
    intro i _
    simp only [Function.comp, Nat.succ_eq_add_one, hup i]
    exact Bool.false_ne_true
  rw [hnil]
  by_cases hm : a ∈ l.map Prod.fst
  · simp [hm]
  · simp [hm]

theorem quiescent_no_mark [LT K] {s : ConcurrentSkipListMap K V} {l : List (Nat × Node K V)}
    (hq : Quiescent s l) :
    ∀ n ∈ listNodes s l, ∀ i p, n.next_[i]? = some p → marked p i = false := by
  intro n hn i p hp
  obtain ⟨q, h, hs, hqe⟩ := listNodes_shape hq n hn
  rw [hs] at hp
  cases i with
  | zero =>
    simp only [List.getElem?_cons_zero, Option.some.injEq] at hp
    rw [← hp]
    simpa [marked] using marked0_of_even hqe
  | succ i =>
    rw [List.getElem?_cons_succ] at hp
    have hp1 : p = mark 0 := by
      by_cases hi : i < h
      · rw [List.getElem?_replicate, if_pos hi] at hp
        exact (Option.some.inj hp).symm
      · rw [List.getElem?_eq_none (by simpa using hi)] at hp
        cases hp
    rw [hp1]
    simp [marked, mark_zero, markedi_one]

end LinkCount

section LinkCountRuns

variable {K V : Type} [LinearOrder K]

theorem quiescent_link_count {s : ConcurrentSkipListMap K V} {l : List (Nat × Node K V)}
    (hq : Quiescent s l) :
    ∀ x ∈ l, deref s.mem x.1 = some x.2 ∧ x.2.link_count = linkedLevels s l x.1 ∧
      linkedLevels s l x.1 = 1 := by
  intro x hx
  have hd := seg_deref hq.2.1 hx
  have hl : linkedLevels s l x.1 = 1 := by
    rw [linkedLevels_quiescent hq (deref_ne_zero hd), if_pos (List.mem_map_of_mem _ hx)]
  exact ⟨hd, by rw [hl]; exact (hq.2.2.2.1 x hx).2.2.2, hl⟩

end LinkCountRuns

/-! ## Lemmas on the retired nodes -/

section RetiredLemmas

variable {K V : Type} [LinearOrder K]

omit [LinearOrder K] in
theorem retiredOk_frame {s s1 : ConcurrentSkipListMap K V} {l l1 : List (Nat × Node K V)}
    (hr : RetiredOk s l) (hh : s1.head_ = s.head_) (hret : s1.retired = s.retired)
    (hm : ∀ a ∈ s.retired, deref s1.mem a = deref s.mem a)
    (hl : ∀ a ∈ s.retired, a ∉ l1.map Prod.fst) : RetiredOk s1 l1 := by
  refine ⟨by rw [hret]; exact hr.1, ?_⟩
  intro a ha
  rw [hret] at ha
  obtain ⟨h1, h2⟩ := hr.2 a ha
  refine ⟨?_, by rw [hm a ha]; exact h2⟩
  rw [hh]
  intro hc
  rcases List.mem_cons.mp hc with rfl | hc
  · exact h1 (List.mem_cons_self _ _)
  · exact hl a ha hc

end RetiredLemmas

section RetiredSteps

variable {K V : Type} [LinearOrder K]

omit [LinearOrder K] in
theorem seg_unique {mem : List (Node K V)} :
    ∀ l l1 : List (Nat × Node K V), Seg mem l 0 → Seg mem l1 0 →
      headPtr l 0 = headPtr l1 0 → l = l1 := by
  intro l
  induction l with
  | nil =>
    intro l1 _ h1 he
    cases l1 with
    | nil => rfl
    | cons y r =>
      obtain ⟨a, n⟩ := y
      exact absurd he.symm (deref_ne_zero h1.1)
  | cons x l ih =>
    obtain ⟨a, n⟩ := x
    intro l1 h h1 he
    cases l1 with
    | nil => exact absurd he (deref_ne_zero h.1)
    | cons y r =>
      obtain ⟨a1, n1⟩ := y
      simp only [headPtr_cons] at he
      subst he
      have hn : n = n1 := Option.some.inj (h.1.symm.trans h1.1)
      subst hn
      have ht : headPtr l 0 = headPtr r 0 := Option.some.inj (h.2.1.symm.trans h1.2.1)
      rw [ih r h.2.2 h1.2.2 ht]

theorem quiescent_unique {s : ConcurrentSkipListMap K V} {l l1 : List (Nat × Node K V)}
    (h : Quiescent s l) (h1 : Quiescent s l1) : l = l1 := by
  apply seg_unique l l1 h.2.1 h1.2.1
  have e := (headOk_load_zero h.1).symm.trans (headOk_load_zero h1.1)
  exact Option.some.inj e

theorem step_retired {s : ConcurrentSkipListMap K V} {l : List (Nat × Node K V)}
    (hq : Quiescent s l) (hr : RetiredOk s l) (op : Op K V) {fuel : Nat}
    (hf : l.length < fuel) :
    ∃ b s1 l1, step fuel s op = some (b, s1) ∧ Quiescent s1 l1 ∧ RetiredOk s1 l1 ∧
      l1.length ≤ l.length + 1 ∧
      s1.retired.length = s.retired.length + eraseHits [op] [b] ∧
      (eraseHits [op] [b] = 0 → s1.retired = s.retired) ∧
      ∀ k, op = .erase k → b = true →
        ∃ a n, a ∈ l.map Prod.fst ∧ a ∉ l1.map Prod.fst ∧ a ∉ s.retired ∧
          s1.retired = s.retired ++ [a] ∧ deref s1.mem a = some n ∧ n.link_count = 0 ∧
          n.key = k := by
  have hsplit : ∀ k, nodesBelow k l ++ nodesFrom k l = l := fun k =>
    nodesBelow_append_nodesFrom k l
  have hlf : ∀ k, (nodesBelow k l ++ nodesFrom k l).length < fuel := fun k => by
    rw [hsplit]; exact hf
  have hmap : ∀ k, l.map Prod.fst =
      (nodesBelow k l).map Prod.fst ++ (nodesFrom k l).map Prod.fst := fun k => by
    conv_lhs => rw [← hsplit k, List.map_append]
  have hlast : ∀ k, lastPtr (nodesBelow k l) s.head_ ∈ s.head_ :: l.map Prod.fst := by
    intro k
    have := lastPtr_mem_cons (nodesBelow k l) s.head_
    rcases List.mem_cons.mp this with h | h
    · rw [h]; exact List.mem_cons_self _ _
    · refine List.mem_cons_of_mem _ ?_
      rw [hmap k]
      exact List.mem_append_left _ h
  cases op with
  | insert k v r =>
    obtain ⟨s1, hret, -, h1⟩ := insert_spec k v r (quiescent_split hq k) (hlf k)
      (nodesBelow_lt k l) (nodesFrom_head_ge k l)
    by_cases hm : matchOf k (nodesFrom k l) = true
    · rw [if_pos hm, hsplit] at h1
      obtain ⟨hins, hmem, hq1, hh⟩ := h1
      exact ⟨false, s1, l, hins, hq1,
        retiredOk_frame hr hh hret (fun a _ => by rw [hmem]) (fun a ha => fun hc =>
          (hr.2 a ha).1 (List.mem_cons_of_mem _ hc)),
        by omega, by rw [hret]; rfl, fun _ => hret, fun _ e => nomatch e⟩
    · rw [if_neg hm] at h1
      obtain ⟨nf, hins, hq1, -, -, -, -, hframe, hh⟩ := h1
      refine ⟨true, s1, _, hins, hq1, ?_, ?_, by rw [hret]; rfl, fun _ => hret,
        fun _ e => nomatch e⟩
      · apply retiredOk_frame hr hh hret
        · intro a ha
          obtain ⟨h1, n, h2, -⟩ := hr.2 a ha
          apply hframe a
          · intro e; rw [e, deref_fresh] at h2; cases h2
          · intro e; exact h1 (e ▸ hlast k)
        · intro a ha hc
          obtain ⟨h1, n, h2, -⟩ := hr.2 a ha
          rw [List.map_append, setLast_map_fst, List.map_cons] at hc
          rcases List.mem_append.mp hc with hc | hc
          · exact h1 (List.mem_cons_of_mem _ (by
              rw [hmap k]; exact List.mem_append_left _ hc))
          · rcases List.mem_cons.mp hc with hc | hc
            · rw [hc, deref_fresh] at h2; cases h2
            · exact h1 (List.mem_cons_of_mem _ (by
                rw [hmap k]; exact List.mem_append_right _ hc))
      · rw [List.length_append, setLast_length, List.length_cons]
        have := congrArg List.length (hsplit k)
        rw [List.length_append] at this
        omega
  | erase k =>
    obtain ⟨s1, -, h1⟩ := erase_spec k (quiescent_split hq k) (hlf k)
      (nodesBelow_lt k l) (nodesFrom_head_ge k l)
    by_cases hm : matchOf k (nodesFrom k l) = true
    · rw [if_pos hm] at h1
      obtain ⟨he, hq1, hret, -, -, -, hframe, hh, n, hn, hlc, hkey⟩ := h1
      have hnd := quiescent_nodup hq
      cases hl2 : nodesFrom k l with
      | nil => rw [hl2] at hm; cases hm
      | cons y r =>
        obtain ⟨a, an⟩ := y
        rw [hl2] at hq1 hret hframe hn
        simp only [headPtr_cons, List.tail_cons] at hq1 hret hframe hn
        have hl : l = nodesBelow k l ++ (a, an) :: r := by rw [← hl2, hsplit]
        have hal : a ∈ l.map Prod.fst := by
          rw [hl, List.map_append]
          exact List.mem_append_right _ (List.mem_cons_self _ _)
        have hnd2 : (s.head_ :: ((nodesBelow k l).map Prod.fst ++ a :: r.map Prod.fst)).Nodup := by
          have := hnd
          rw [hl, List.map_append, List.map_cons] at this
          exact this
        have hah : a ≠ s.head_ := by
          intro e
          exact (List.nodup_cons.mp hnd2).1 (e ▸ List.mem_append_right _ (List.mem_cons_self _ _))
        have hnd3 := List.nodup_append.mp (List.nodup_cons.mp hnd2).2
        have hab : a ∉ (nodesBelow k l).map Prod.fst := fun hc =>
          hnd3.2.2 hc (List.mem_cons_self _ _)
        have har : a ∉ r.map Prod.fst := (List.nodup_cons.mp hnd3.2.1).1
        have hal1 : a ∉ (setLast (nextOf ((a, an) :: r)) (nodesBelow k l) ++ r).map Prod.fst := by
          rw [List.map_append, setLast_map_fst]
          intro hc
          rcases List.mem_append.mp hc with hc | hc
          · exact hab hc
          · exact har hc
        have hsub : ∀ x, x ∈ (setLast (nextOf ((a, an) :: r)) (nodesBelow k l) ++ r).map Prod.fst →
            x ∈ l.map Prod.fst := by
          intro x hx
          rw [List.map_append, setLast_map_fst] at hx
          rw [hl, List.map_append, List.map_cons]
          rcases List.mem_append.mp hx with hx | hx
          · exact List.mem_append_left _ hx
          · exact List.mem_append_right _ (List.mem_cons_of_mem _ hx)
        have hanr : a ∉ s.retired := fun hc => (hr.2 a hc).1 (List.mem_cons_of_mem _ hal)
        refine ⟨true, s1, _, he, hq1, ?_, ?_, ?_, ?_, ?_⟩
        · refine ⟨?_, ?_⟩
          · rw [hret]
            exact List.nodup_append.mpr ⟨hr.1, List.nodup_singleton a, by
              intro x hx hx1
              rw [List.mem_singleton] at hx1
              exact hanr (hx1 ▸ hx)⟩
          · intro x hx
            rw [hret] at hx
            rw [hh]
            rcases List.mem_append.mp hx with hx | hx
            · obtain ⟨h1, m, h2, h3⟩ := hr.2 x hx
              refine ⟨?_, m, ?_, h3⟩
              · intro hc
                rcases List.mem_cons.mp hc with hc | hc
                · exact h1 (hc ▸ List.mem_cons_self _ _)
                · exact h1 (List.mem_cons_of_mem _ (hsub x hc))
              · rw [hframe x (fun e => hanr (e ▸ hx)) (fun e => h1 (e ▸ hlast k))]
                exact h2
            · rw [List.mem_singleton] at hx
              subst hx
              refine ⟨?_, n, hn, hlc⟩
              intro hc
              rcases List.mem_cons.mp hc with hc | hc
              · exact hah hc
              · exact hal1 hc
        · rw [List.length_append, setLast_length]
          have := congrArg List.length hl
          rw [List.length_append, List.length_cons] at this
          omega
        · rw [hret, List.length_append]; rfl
        · intro h; cases h
        · intro k1 e _
          cases e
          exact ⟨a, n, hal, hal1, hanr, hret, hn, hlc, hkey⟩
    · rw [if_neg hm, hsplit] at h1
      obtain ⟨he, hmem, hq1, hret, hh⟩ := h1
      exact ⟨false, s1, l, he, hq1,
        retiredOk_frame hr hh hret (fun a _ => by rw [hmem]) (fun a ha => fun hc =>
          (hr.2 a ha).1 (List.mem_cons_of_mem _ hc)),
        by omega, by rw [hret]; rfl, fun _ => hret, fun _ _ h => nomatch h⟩

end RetiredSteps

section RetiredRuns

variable {K V : Type} [LinearOrder K]

omit [LinearOrder K] in
theorem eraseHits_cons (op : Op K V) (ops : List (Op K V)) (b : Bool) (bs : List Bool) :
    eraseHits (op :: ops) (b :: bs) = eraseHits [op] [b] + eraseHits ops bs := by
  cases op <;> cases b <;> simp [eraseHits, Nat.add_comm]

omit [LinearOrder K] in
theorem eraseHits_single (op : Op K V) (b : Bool)
    (h : (∃ k v r, op = .insert k v r) ∨ b = false) : eraseHits [op] [b] = 0 := by
  rcases h with ⟨k, v, r, rfl⟩ | rfl
  · rfl
  · cases op <;> rfl

theorem runTrace_spec (fuel : Nat) (ops : List (Op K V)) :
    ∀ (s : ConcurrentSkipListMap K V) (l : List (Nat × Node K V)),
      Quiescent s l → RetiredOk s l → l.length + ops.length < fuel →
      ∃ bs s1 l1, runTrace fuel ops s = some (bs, s1) ∧ runOps fuel ops s = some s1 ∧
        Quiescent s1 l1 ∧ RetiredOk s1 l1 ∧ l1.length ≤ l.length + ops.length ∧
        s1.retired.length = s.retired.length + eraseHits ops bs := by
  induction ops with
  | nil => intro s l hq hr _; exact ⟨[], s, l, rfl, rfl, hq, hr, le_rfl, rfl⟩
  | cons op ops ih =>
    intro s l hq hr hf
    rw [List.length_cons] at hf
    obtain ⟨b, s1, l1, hstep, hq1, hr1, hlen1, hcnt1, -⟩ := step_retired hq hr op
      (show l.length < fuel by omega)
    obtain ⟨bs, s2, l2, htr, hrun, hq2, hr2, hlen2, hcnt2⟩ := ih s1 l1 hq1 hr1 (by omega)
    refine ⟨b :: bs, s2, l2, ?_, ?_, hq2, hr2, by rw [List.length_cons]; omega, ?_⟩
    · rw [runTrace, hstep]; simp only [htr]
    · rw [runOps, hstep]; exact hrun
    · rw [eraseHits_cons]; omega

theorem lookup_all_none {l : List (Nat × Node K V)}
    (h : ∀ k, lookup (entriesOf l) k = none) : l = [] := by
  cases l with
  | nil => rfl
  | cons x r =>
    have := h x.2.key
    rw [entriesOf, List.map_cons, lookup_cons, if_pos rfl] at this
    cases this

end RetiredRuns

/-! ## Lemmas on the metric registry -/

section RegistryLemmas

theorem lookup_some_iff {m : List (String × Nat)} (h : (m.map Prod.fst).Nodup) (n : String)
    (p : Nat) : m.lookup n = some p ↔ (n, p) ∈ m := by
  induction m with
  | nil => simp
  | cons e m ih =>
    obtain ⟨k, q⟩ := e
    rw [List.map_cons, List.nodup_cons] at h
    by_cases hk : n = k
    · subst hk
      simp only [List.lookup_cons, beq_self_eq_true, Option.some.injEq, List.mem_cons,
        Prod.mk.injEq, true_and]
      constructor
      · intro hq; exact Or.inl hq.symm
      · rintro (hq | hq)
        · exact hq.symm
        · exact absurd (List.mem_map_of_mem Prod.fst hq) h.1
    · have hb : (n == k) = false := by simpa using hk
      simp only [List.lookup_cons, hb, List.mem_cons, Prod.mk.injEq, hk, false_and, false_or]
      exact ih h.2

theorem lookup_none_iff (m : List (String × Nat)) (n : String) :
    m.lookup n = none ↔ n ∉ m.map Prod.fst := by
  induction m with
  | nil => simp
  | cons e m ih =>
    obtain ⟨k, q⟩ := e
    by_cases hk : n = k
    · subst hk; simp [List.lookup_cons]
    · have hb : (n == k) = false := by simpa using hk
      simp only [List.lookup_cons, hb, List.map_cons, List.mem_cons, hk, false_or]
      exact ih

theorem getOrInsert_spec {m : List (String × Nat)} {al : Nat} (h : MapOk m al) (n : String) :
    MapOk (getOrInsert m n al).2.1 (getOrInsert m n al).2.2 ∧
      al ≤ (getOrInsert m n al).2.2 ∧
      (getOrInsert m n al).2.1.lookup n = some (getOrInsert m n al).1 ∧
      (∀ k, k ≠ n → (getOrInsert m n al).2.1.lookup k = m.lookup k) ∧
      (∀ k, k ∈ (getOrInsert m n al).2.1.map Prod.fst ↔ k ∈ m.map Prod.fst ∨ k = n) ∧
      ((getOrInsert m n al).2.1.length =
        if n ∈ m.map Prod.fst then m.length else m.length + 1) := by
  unfold getOrInsert
  cases hl : m.lookup n with
  | some p =>
    have hmem : n ∈ m.map Prod.fst := by
      by_contra hc
      rw [(lookup_none_iff m n).mpr hc] at hl
      cases hl
    refine ⟨h, le_rfl, hl, fun _ _ => rfl, fun k => ⟨Or.inl, ?_⟩, by simp [hmem]⟩
    rintro (hk | rfl)
    · exact hk
    · exact hmem
  | none =>
    have hnm := (lookup_none_iff m n).mp hl
    refine ⟨⟨?_, ?_, ?_⟩, Nat.le_succ _, by simp [List.lookup_cons], ?_, ?_, by simp [hnm]⟩
    · rw [List.map_cons, List.nodup_cons]; exact ⟨hnm, h.1⟩
    · rw [List.map_cons, List.nodup_cons]
      refine ⟨?_, h.2.1⟩
      intro hc
      obtain ⟨e, he, he2⟩ := List.mem_map.mp hc
      have := h.2.2 e he
      simp only at he2
      omega
    · intro e he
      rcases List.mem_cons.mp he with rfl | he
      · exact Nat.lt_succ_self _
      · exact Nat.lt_succ_of_lt (h.2.2 e he)
    · intro k hk
      have hb : (k == n) = false := by simpa using hk
      simp [List.lookup_cons, hb]
    · intro k
      simp only [List.map_cons, List.mem_cons]
      exact or_comm

theorem mapOk_mono {m : List (String × Nat)} {al al1 : Nat} (h : MapOk m al) (hle : al ≤ al1) :
    MapOk m al1 :=
  ⟨h.1, h.2.1, fun e he => Nat.lt_of_lt_of_le (h.2.2 e he) hle⟩

theorem runReg_ok (cs : List RegCall) :
    ∀ reg : MetricRegistryImpl, MapOk reg.counters_ reg.allocated →
      MapOk reg.timers_ reg.allocated → MapOk reg.meters_ reg.allocated →
      MapOk (runReg cs reg).counters_ (runReg cs reg).allocated ∧
        MapOk (runReg cs reg).timers_ (runReg cs reg).allocated ∧
        MapOk (runReg cs reg).meters_ (runReg cs reg).allocated := by
  induction cs with
  | nil => intro reg h1 h2 h3; exact ⟨h1, h2, h3⟩
  | cons c cs ih =>
    intro reg h1 h2 h3
    cases c with
    | counter n =>
      obtain ⟨g1, g2, -⟩ := getOrInsert_spec h1 n
      exact ih _ g1 (mapOk_mono h2 g2) (mapOk_mono h3 g2)
    | timer n =>
      obtain ⟨g1, g2, -⟩ := getOrInsert_spec h2 n
      exact ih _ (mapOk_mono h1 g2) g1 (mapOk_mono h3 g2)
    | meter n =>
      obtain ⟨g1, g2, -⟩ := getOrInsert_spec h3 n
      exact ih _ (mapOk_mono h1 g2) (mapOk_mono h2 g2) g1

/-- Three calls of get-or-insert on one map, for the names `a`, `b`, `a`. -/
theorem getOrInsert_thrice {m : List (String × Nat)} {al : Nat} (h : MapOk m al)
    {a b : String} (hab : a ≠ b) :
    (getOrInsert (getOrInsert m a al).2.1 a (getOrInsert m a al).2.2).1 =
        (getOrInsert m a al).1 ∧
      (getOrInsert (getOrInsert m a al).2.1 b (getOrInsert m a al).2.2).1 ≠
        (getOrInsert m a al).1 ∧
      (getOrInsert (getOrInsert (getOrInsert m a al).2.1 b (getOrInsert m a al).2.2).2.1 a
        (getOrInsert (getOrInsert m a al).2.1 b (getOrInsert m a al).2.2).2.2).1 =
        (getOrInsert m a al).1 ∧
      (getOrInsert (getOrInsert (getOrInsert m a al).2.1 b (getOrInsert m a al).2.2).2.1 a
        (getOrInsert (getOrInsert m a al).2.1 b (getOrInsert m a al).2.2).2.2).2.1 =
        (getOrInsert (getOrInsert m a al).2.1 b (getOrInsert m a al).2.2).2.1 ∧
      ((getOrInsert (getOrInsert m a al).2.1 b (getOrInsert m a al).2.2).2.1.map
        Prod.fst).Nodup ∧
      (∀ k, k ∈ (getOrInsert (getOrInsert m a al).2.1 b (getOrInsert m a al).2.2).2.1.map
        Prod.fst ↔ k ∈ m.map Prod.fst ∨ k = a ∨ k = b) := by
  obtain ⟨g1, -, g1l, -, g1n, -⟩ := getOrInsert_spec h a
  generalize getOrInsert m a al = r1 at g1 g1l g1n ⊢
  obtain ⟨g2, -, g2l, g2o, g2n, -⟩ := getOrInsert_spec g1 b
  generalize hr2 : getOrInsert r1.2.1 b r1.2.2 = r2 at g2 g2l g2o g2n ⊢
  have ha2 : r2.2.1.lookup a = some r1.1 := by rw [g2o a hab]; exact g1l
  have hsame : ∀ (m1 : List (String × Nat)) (al1 p : Nat), m1.lookup a = some p →
      getOrInsert m1 a al1 = (p, m1, al1) := by
    intro m1 al1 p hp
    unfold getOrInsert
    rw [hp]
  refine ⟨by rw [hsame _ _ _ g1l], ?_, by rw [hsame _ _ _ ha2], by rw [hsame _ _ _ ha2],
    g2.1, ?_⟩
  · intro he
    have h1 := (lookup_some_iff g2.1 a r1.1).mp ha2
    have h2 := (lookup_some_iff g2.1 b r2.1).mp g2l
    rw [he] at h2
    have hinj : ∀ x y : String × Nat, x ∈ r2.2.1 → y ∈ r2.2.1 → x.2 = y.2 → x = y := by
      intro x y hx hy hxy
      exact List.inj_on_of_nodup_map g2.2.1 hx hy hxy
    have := hinj _ _ h1 h2 rfl
    exact hab (congrArg Prod.fst this)
  · intro k
    rw [g2n, g1n, or_assoc]

end RegistryLemmas

section RegistryCalls

theorem mapOk_nil (al : Nat) : MapOk [] al :=
  ⟨List.nodup_nil, List.nodup_nil, fun _ he => nomatch he⟩

theorem getOrInsert_two {a b : String} (hab : a ≠ b) (al : Nat) :
    (getOrInsert (getOrInsert [] a al).2.1 b (getOrInsert [] a al).2.2).2.1.length = 2 := by
  have hb : (b == a) = false := by simpa using hab.symm
  simp [getOrInsert, List.lookup_cons, hb]

end RegistryCalls

/-! ## Properties of the map -/

section Claims

variable {K V : Type} [LinearOrder K]

/-- C1: in single-threaded use `insert(k, v)` returns true iff no entry with key `k` was
present; when it returns true the map afterwards holds exactly the previous entries plus
`(k, v)`; when it returns false memory and entries are unchanged and `find(k, out)` yields
the value `w` stored for `k` before the call, before it as after it. -/
theorem insert_put_if_absent (s : ConcurrentSkipListMap K V) (m : List (K × V)) (k : K) (v : V)
    (r : Int) (fuel : Nat) (hs : Holds s m) (hf : m.length < fuel) :
    ∃ b s1, insert k v r fuel s = some (b, s1) ∧
      (b = true ↔ ∀ e ∈ m, e.1 ≠ k) ∧
      (b = true → ∃ m1, Holds s1 m1 ∧ m1.Perm ((k, v) :: m)) ∧
      (b = false → s1.mem = s.mem ∧ Holds s1 m ∧ ∃ w, (k, w) ∈ m ∧
        ∀ out, (∃ s0, findValue k out fuel s = some (true, w, s0)) ∧
          ∃ s2, findValue k out fuel s1 = some (true, w, s2)) := by
  obtain ⟨l, hq, rfl⟩ := hs
  rw [entriesOf_length] at hf
  have hsorted := hq.2.2.1
  obtain ⟨b, s1, l1, hins, hq1, -, hiff, hfalse, htrue, -⟩ := insert_entries hq k v r hf
  refine ⟨b, s1, hins, ?_, ?_, ?_⟩
  · rw [hiff]
    constructor
    · intro h e he hek
      obtain ⟨x, hx, hxk⟩ := (mem_entriesOf_key k).mp ⟨e, he, hek⟩
      exact h x hx hxk
    · intro h x hx hxk
      exact h _ (List.mem_map_of_mem (fun x => (x.2.key, x.2.value)) hx) hxk
  · intro hb
    refine ⟨_, ⟨l1, hq1, rfl⟩, ?_⟩
    rw [htrue hb]
    conv_rhs => rw [← nodesBelow_append_nodesFrom k l, entriesOf_append]
    exact List.perm_middle
  · intro hb
    obtain ⟨rfl, hmem⟩ := hfalse hb
    have hex : ∃ x ∈ l1, x.2.key = k := by
      by_contra hne
      have := hiff.mpr (fun x hx hxk => hne ⟨x, hx, hxk⟩)
      rw [hb] at this; cases this
    obtain ⟨x, hx, hk⟩ := hex
    have hmemw : (k, x.2.value) ∈ entriesOf l1 := by
      rw [← hk]; exact List.mem_map_of_mem (fun x => (x.2.key, x.2.value)) hx
    have hlook := (lookup_eq_some_iff hsorted k x.2.value).mpr hmemw
    refine ⟨hmem, ⟨l1, hq1, rfl⟩, x.2.value, hmemw, fun out => ⟨?_, ?_⟩⟩
    · rw [findValue_quiescent hq k out hf, hlook]; exact ⟨_, rfl⟩
    · rw [findValue_quiescent hq1 k out hf, hlook]; exact ⟨_, rfl⟩

/-- C2: in single-threaded use `erase(k)` returns true iff an entry with key `k` was present;
afterwards the map holds the entries with another key, unchanged, `exists(k)` is false and a
repeated `erase(k)` returns false. -/
theorem erase_removes (s : ConcurrentSkipListMap K V) (m : List (K × V)) (k : K)
    (fuel : Nat) (hs : Holds s m) (hf : m.length < fuel) :
    ∃ b s1, erase k fuel s = some (b, s1) ∧
      (b = true ↔ ∃ e ∈ m, e.1 = k) ∧
      Holds s1 (remove m k) ∧
      (∃ s2, existsKey k fuel s1 = some (false, s2)) ∧
      ∃ s3, erase k fuel s1 = some (false, s3) := by
  obtain ⟨l, hq, rfl⟩ := hs
  rw [entriesOf_length] at hf
  obtain ⟨b, s1, l1, he, hq1, hlen, hiff, hent, -⟩ := erase_entries hq k hf
  have habs := absent_after_remove hent
  have hf1 : l1.length < fuel := by omega
  refine ⟨b, s1, he, ?_, ⟨l1, hq1, hent⟩, ?_, ?_⟩
  · rw [hiff]; exact (mem_entriesOf_key k).symm
  · rw [existsKey_quiescent hq1 k hf1, lookup_isSome_iff hq1.2.2.1,
      matchOf_false_of_absent habs]
    exact ⟨_, rfl⟩
  · obtain ⟨s3, h3, -⟩ := erase_absent hq1 habs hf1
    exact ⟨s3, h3⟩


/-- C3: after every finite sequence of `insert` and `erase` calls by one thread on a new map,
`find(k, out)` and `exists(k)` agree with the abstract map on which `insert` is put-if-absent
and `erase` is remove: `find(k, out)` returns true and writes `v` when the abstract map binds
`k` to `v`, and returns false and leaves `out` as it was when it binds nothing to `k`. -/
theorem find_refines_abstract_map [Inhabited K] [Inhabited V] (ops : List (Op K V))
    (fuel : Nat) (hf : ops.length < fuel) :
    ∃ s, runOps fuel ops (ConcurrentSkipListMap.new : ConcurrentSkipListMap K V) = some s ∧
      ∀ (k : K) (out : V),
        (∀ v, lookup (absRun ops) k = some v →
          ∃ s1, findValue k out fuel s = some (true, v, s1)) ∧
        (lookup (absRun ops) k = none → ∃ s1, findValue k out fuel s = some (false, out, s1)) ∧
        ∃ s2, existsKey k fuel s = some ((lookup (absRun ops) k).isSome, s2) := by
  obtain ⟨s, l, hrun, hq, hag, hlen⟩ := runOps_refines fuel ops
    (ConcurrentSkipListMap.new : ConcurrentSkipListMap K V) [] [] quiescent_new
    (fun _ => rfl) (by simpa using hf)
  have hfl : l.length < fuel := by simp at hlen; omega
  refine ⟨s, hrun, fun k out => ⟨fun v hv => ?_, fun hn => ?_, ?_⟩⟩
  · rw [findValue_quiescent hq k out hfl, hag k]
    unfold absRun at hv
    rw [hv]; exact ⟨_, rfl⟩
  · rw [findValue_quiescent hq k out hfl, hag k]
    unfold absRun at hn
    rw [hn]; exact ⟨_, rfl⟩
  · rw [existsKey_quiescent hq k hfl, hag k]
    exact ⟨_, rfl⟩

/-- C4: after every sequence of `insert` and `erase` calls by one thread on a new map, the
walk from the sentinel along `next_[0]` visits nodes whose keys are strictly ascending, hence
without a duplicate key. -/
theorem level0_sorted_after_calls [Inhabited K] [Inhabited V] (ops : List (Op K V))
    (fuel : Nat) (hf : ops.length < fuel) :
    ∃ s l, runOps fuel ops (ConcurrentSkipListMap.new : ConcurrentSkipListMap K V) = some s ∧
      Level0 s l ∧ (l.map (fun x => x.2.key)).Pairwise (· < ·) ∧
      (l.map (fun x => x.2.key)).Nodup := by
  obtain ⟨s, l, hrun, hq, -, -⟩ := runOps_refines fuel ops
    (ConcurrentSkipListMap.new : ConcurrentSkipListMap K V) [] [] quiescent_new
    (fun _ => rfl) (by simpa using hf)
  exact ⟨s, l, hrun, ⟨headOk_load_zero hq.1, hq.2.1⟩, hq.2.2.1,
    hq.2.2.1.imp (fun h => ne_of_lt h)⟩

/-- C5 (the code at the failing input): while a thread is inside `erase(1)` and the node with
key 1, at address 16, is marked but still linked before the live node with key 2, at address
24, the search primitive for key 2 unlinks the marked node and returns a null `cur` and no
match, so `exists(2)` returns false and `find(2, out)` returns false without writing `out`;
the same `exists(2)` asked once more returns true. -/
theorem find_misses_live_key_after_dead_node :
    midErase = some
        { mem := [⟨0, 0, 12, 0, [16, 1, 1, 1, 1, 1, 1, 1, 1, 1, 1, 1]⟩, ⟨1, 10, 1, 1, [25]⟩,
            ⟨2, 20, 1, 1, [0]⟩]
          head_ := 8
          height_ := 0
          hp := ⟨0, 0, 0, 0⟩
          retired := [] } ∧
      (midErase.bind (fun s => (find 2 5 s).map (fun x => x.1))) = some ⟨8, 0, 25, false⟩ ∧
      (midErase.bind (fun s => (existsKey 2 5 s).map (fun x => x.1))) = some false ∧
      (midErase.bind (fun s => (findValue 2 7 5 s).map (fun x => (x.1, x.2.1)))) =
        some (false, 7) ∧
      (midErase.bind (fun s => (existsKey 2 5 s).bind
        (fun x => (existsKey 2 5 x.2).map (fun y => y.1)))) = some true := by
  decide

/-- C6: on a quiescent state `entries()` returns every stored pair exactly once, in ascending
key order, and `values()` returns the values of the same sequence; a pair is stored when
`find` of its key yields its value. After inserts of the keys 3, 1, 4, 1, 5, 9, 2, 6 the keys
returned are 1, 2, 3, 4, 5, 6, 9, each with its first-inserted value. -/
theorem entries_values_ascending (s : ConcurrentSkipListMap K V) (m : List (K × V))
    (fuel : Nat) (hs : Holds s m) (hf : m.length < fuel) :
    (∃ s1, entries fuel s = some (m, s1)) ∧
      (∃ s2, values fuel s = some (m.map Prod.snd, s2)) ∧
      (m.map Prod.fst).Pairwise (· < ·) ∧ m.Nodup ∧
      (∀ k v out, (k, v) ∈ m ↔ ∃ s3, findValue k out fuel s = some (true, v, s3)) ∧
      (runOps 9 piOps ConcurrentSkipListMap.new).bind
          (fun s0 => (entries 9 s0).map (fun x => x.1)) =
        some [(1, 10), (2, 20), (3, 30), (4, 40), (5, 50), (6, 60), (9, 90)] := by
  obtain ⟨l, hq, rfl⟩ := hs
  rw [entriesOf_length] at hf
  have hsorted := hq.2.2.1
  have hkeys : (entriesOf l).map Prod.fst = l.map (fun x => x.2.key) := by
    unfold entriesOf; rw [List.map_map]; rfl
  obtain ⟨s1, h1, -⟩ := extractor_quiescent (fun n => (n.key, n.value)) hq hf
  obtain ⟨s2, h2, -⟩ := extractor_quiescent (fun n => n.value) hq hf
  refine ⟨⟨s1, h1⟩, ⟨s2, ?_⟩, ?_, ?_, ?_, by decide⟩
  · unfold values; rw [h2]; unfold entriesOf; rw [List.map_map]; rfl
  · rw [hkeys]; exact hsorted
  · have : ((entriesOf l).map Prod.fst).Nodup := by
      rw [hkeys]; exact hsorted.imp (fun h => ne_of_lt h)
    exact List.Nodup.of_map _ this
  · intro k v out
    rw [findValue_quiescent hq k out hf, ← lookup_eq_some_iff hsorted]
    constructor
    · intro h; rw [h]; exact ⟨_, rfl⟩
    · rintro ⟨s3, h3⟩
      cases hl : lookup (entriesOf l) k with
      | none => rw [hl] at h3; simp at h3
      | some w => rw [hl] at h3; simp at h3; rw [h3.1]

/-- C7: on a quiescent state `firstKey()` returns the smallest key stored in the map when the
map is not empty and a default-constructed key when it is empty, and it leaves memory,
`head_`, `height_` and the retired list unchanged. -/
theorem firstKey_smallest [Inhabited K] (s : ConcurrentSkipListMap K V) (m : List (K × V))
    (fuel : Nat) (hs : Holds s m) (hf : 0 < fuel) :
    ∃ s1, firstKey fuel s = some ((m.head?.map Prod.fst).getD default, s1) ∧
      s1.mem = s.mem ∧ s1.head_ = s.head_ ∧ s1.height_ = s.height_ ∧
      s1.retired = s.retired ∧
      (m ≠ [] → (m.head?.map Prod.fst).getD default ∈ m.map Prod.fst) ∧
      ∀ e ∈ m, (m.head?.map Prod.fst).getD default ≤ e.1 := by
  obtain ⟨l, hq, rfl⟩ := hs
  obtain ⟨f, rfl⟩ : ∃ f, fuel = f + 1 := ⟨fuel - 1, by omega⟩
  have hloop := firstKeyLoop_quiescent hq.1 (headPtr_even hq.2.1 rfl) f
  unfold firstKey
  rw [hloop]
  cases l with
  | nil =>
    refine ⟨clearHazard (setHazard s 1 0) 1, by simp [entriesOf], rfl, rfl, rfl, rfl,
      fun h => absurd rfl h, ?_⟩
    intro e he; cases he
  | cons x r =>
    obtain ⟨a, n⟩ := x
    have hd := hq.2.1.1
    refine ⟨clearHazard (setHazard s 1 a) 1, ?_, rfl, rfl, rfl, rfl, fun _ => ?_, ?_⟩
    · simp [entriesOf, hd, deref_ne_zero hd]
    · simp [entriesOf]
    · intro e he
      have hs := hq.2.2.1
      rw [List.map_cons, List.pairwise_cons] at hs
      simp only [entriesOf, List.map_cons, List.head?_cons, Option.map_some', Option.getD_some]
      rcases List.mem_cons.mp he with rfl | he
      · exact le_rfl
      · obtain ⟨y, hy, rfl⟩ := List.mem_map.mp he
        exact le_of_lt (hs.1 _ (List.mem_map_of_mem (fun x => x.2.key) hy))

/-- C8: on every quiescent state and for every key, the search primitive `find(key)` ends in
its first pass, without a restart, and leaves memory, `head_`, `height_` and the retired list
unchanged; it returns as `cur` the first level-0 node with key at least `key` (null if
none), as `prev` the node before it (the sentinel if there is none), whose `next_[0]` is
`cur`, as `next` the `next_[0]` of `cur` when `cur` is not null, and `match` is true iff
`cur` is a node with key `key`. -/
theorem find_quiescent_snapshot (s : ConcurrentSkipListMap K V) (l : List (Nat × Node K V))
    (key : K) (fuel : Nat) (hq : Quiescent s l) (hf : l.length < fuel) :
    ∃ r s1, findAttempt key fuel s = some (FindCtl.brk s1 r.prev r.cur r.next) ∧
      find key fuel s = some (r, s1) ∧
      s1.mem = s.mem ∧ s1.head_ = s.head_ ∧ s1.height_ = s.height_ ∧
      s1.retired = s.retired ∧
      r.cur = headPtr (nodesFrom key l) 0 ∧
      r.prev = lastPtr (nodesBelow key l) s.head_ ∧
      loadNext s r.prev 0 = some r.cur ∧
      (r.cur ≠ 0 → loadNext s r.cur 0 = some r.next) ∧
      (r.match_ = true ↔ ∃ n, deref s.mem r.cur = some n ∧ n.key = key) := by
  have hqs := quiescent_split hq key
  have hfs : (nodesBelow key l ++ nodesFrom key l).length < fuel := by
    rw [nodesBelow_append_nodesFrom]; exact hf
  have hatt := findAttempt_split hqs hfs (nodesBelow_lt key l) (nodesFrom_head_ge key l)
  have hfind := find_split hqs hfs (nodesBelow_lt key l) (nodesFrom_head_ge key l)
  obtain ⟨pn, hpn, hpc⟩ := quiescent_prev hqs
  have hseg : Seg s.mem (nodesFrom key l) 0 := ((seg_append _ _ 0).mp hqs.2.1).2
  refine ⟨_, _, hatt, hfind, by simp, by simp, by simp, by simp, rfl, rfl, ?_, ?_, ?_⟩
  · show loadNext s (lastPtr (nodesBelow key l) s.head_) 0 = _
    rw [loadNext_of_deref hpn]; exact hpc
  · show headPtr (nodesFrom key l) 0 ≠ 0 →
      loadNext s (headPtr (nodesFrom key l) 0) 0 = some (nextOf (nodesFrom key l))
    cases hl : nodesFrom key l with
    | nil => intro h; exact absurd rfl h
    | cons y r =>
      obtain ⟨a, n⟩ := y
      rw [hl] at hseg
      intro _
      rw [headPtr_cons, loadNext_of_deref hseg.1]; exact hseg.2.1
  · show matchOf key (nodesFrom key l) = true ↔
      ∃ n, deref s.mem (headPtr (nodesFrom key l) 0) = some n ∧ n.key = key
    cases hl : nodesFrom key l with
    | nil => simp [matchOf, deref_zero]
    | cons y r =>
      obtain ⟨a, n⟩ := y
      rw [hl] at hseg
      simp [matchOf, hseg.1]

/-- C14: the level-aware mark test `marked(p, level)` is, on level 0, true iff the low bit of
`p` is set, so it is true for marked null; on every level above 0 it is true iff the low bit
of `p` is set and the address part of `p` is not null, so it is false for marked null and
true for `mark(q)` when `q` is a non-null aligned pointer. -/
theorem marked_level_aware (p level j : Nat) :
    (marked p 0 = true ↔ p % 2 = 1) ∧
      (marked p (level + 1) = true ↔ p % 2 = 1 ∧ clear p ≠ 0) ∧
      marked (mark 0) 0 = true ∧
      marked (mark 0) (level + 1) = false ∧
      marked (mark (2 * (j + 1))) (level + 1) = true := by
  have hm : mark (2 * (j + 1)) = 2 * (j + 1) + 1 := mark_of_even (by omega)
  refine ⟨?_, ?_, by decide, ?_, ?_⟩
  · simp [marked, marked0, Nat.and_one_is_mod]
  · simp only [marked, Nat.add_one_ne_zero, if_false, markedi, clear, Nat.and_one_is_mod,
      Bool.and_eq_true, bne_iff_ne, ne_eq]
    omega
  · simp [marked, mark_zero, markedi_one]
  · rw [hm]
    simp only [marked, Nat.add_one_ne_zero, if_false, markedi, Nat.and_one_is_mod,
      Bool.and_eq_true, bne_iff_ne, ne_eq]
    omega

/-- C13: for every height `h` from 1 to 255, `mkNode(h, k, v)` returns a node with key `k`,
value `v`, height `h`, `link_count` 0 and a `next_` array of exactly `h` entries, of which
`next_[0]` is the unmarked null pointer and `next_[i]` is the marked null pointer (address 0,
low bit set) for every `1 ≤ i < h`. The range holds every height that the class passes:
`kMaxHeight` in the constructor and `level + 1` in `insert`, where `level` is the smaller of
the drawn level and `height_ + 1`; the field `height` is a `uint8_t`. -/
theorem mkNode_fields {K V : Type} (h : Nat) (k : K) (v : V) (h1 : 1 ≤ h) (h2 : h ≤ 255) :
    (mkNode h k v).key = k ∧ (mkNode h k v).value = v ∧ (mkNode h k v).height = h ∧
      (mkNode h k v).link_count = 0 ∧ (mkNode h k v).next_.length = h ∧
      (mkNode h k v).next_ = 0 :: List.replicate (h - 1) (mark 0) ∧
      clear (mark 0) = 0 ∧ mark 0 % 2 = 1 ∧
      (mkNode h k v).next_[0]? = some 0 ∧
      (∀ i, 1 ≤ i → i < h → (mkNode h k v).next_[i]? = some (mark 0)) ∧
      1 ≤ kMaxHeight ∧ kMaxHeight ≤ 255 ∧
      ∀ (r : Int) (height : Nat), 1 ≤ min (randomLevel r) (height + 1) + 1 ∧
        min (randomLevel r) (height + 1) + 1 ≤ kMaxHeight := by
  obtain ⟨g, rfl⟩ : ∃ g, h = g + 1 := ⟨h - 1, by omega⟩
  have hn := mkNode_next g k v
  refine ⟨rfl, rfl, ?_, rfl, ?_, ?_, by decide, by decide, ?_, ?_, by decide, by decide, ?_⟩
  · show (g + 1) % 256 = g + 1
    omega
  · rw [hn]; simp
  · rw [hn]; rfl
  · rw [hn, List.getElem?_cons_zero]
  · intro i hi1 hi2
    obtain ⟨j, rfl⟩ : ∃ j, i = j + 1 := ⟨i - 1, by omega⟩
    rw [hn, List.getElem?_cons_succ, List.getElem?_replicate, if_pos (by omega)]
  · intro r height
    have := randomLevel_lt r
    omega

/-- C11 fails in the code: in the map holding 1 ↦ 10 and 3 ↦ 30, a `values()` call that has
loaded the node of key 1 as `cur` while another thread erases key 1 and unlinks its node
returns the values `[10]` only. Key 3 is present before and after, is never erased, and its
value 30 is not in the returned sequence; the reload loop of `extractor` moves `cur` to the
node of key 3 without pushing its value. -/
theorem values_misses_key_after_erased_predecessor :
    Quiescent demoMap demoNodes ∧ entriesOf demoNodes = [(1, 10), (3, 30)] ∧
      (existsKey 3 5 demoMap).map (fun r => r.1) = some true ∧
      (valuesDuringErase 1 5 demoMap).map (fun r => (r.1, r.2.1)) = some ([10], true) ∧
      (∀ r, valuesDuringErase 1 5 demoMap = some r →
        30 ∉ r.1 ∧ (existsKey 3 5 r.2.2).map (fun x => x.1) = some true ∧
          (findValue 3 0 5 r.2.2).map (fun x => (x.1, x.2.1)) = some (true, 30)) ∧
      (values 5 demoMap).map (fun r => r.1) = some [10, 30] := by
  refine ⟨by decide, by decide, by decide, by decide, ?_, by decide⟩
  intro r hr
  have h : (valuesDuringErase 1 5 demoMap).map
      (fun r => (decide (30 ∉ r.1), (existsKey 3 5 r.2.2).map (fun x => x.1),
        (findValue 3 0 5 r.2.2).map (fun x => (x.1, x.2.1)))) =
      some (true, some true, some (true, 30)) := by decide
  rw [hr] at h
  simp only [Option.map_some', Option.some.injEq, Prod.mk.injEq, decide_eq_true_eq] at h
  exact h

/-- C12 fails in the code: on the map holding 1 ↦ 10 and 3 ↦ 30, whose four hazard slots are
null, `insert(3, 99)` returns false at `if (result.match) return false;` with slot 1 on the
node of key 3 and slot 2 on the node of key 1, and `erase(2)` returns false at
`if (!result.match) return false;` with the same two slots set. The other return paths of
`insert` and `erase`, and `find(key, out)` and `exists`, leave slots 0, 1 and 2 null. -/
theorem early_returns_keep_hazards :
    demoMap.hp = ⟨0, 0, 0, 0⟩ ∧
      (insert 3 99 0 5 demoMap).map (fun r => (r.1, r.2.hp)) = some (false, ⟨0, 24, 16, 0⟩) ∧
      (erase 2 5 demoMap).map (fun r => (r.1, r.2.hp)) = some (false, ⟨0, 24, 16, 0⟩) ∧
      (insert 2 99 0 5 demoMap).map (fun r => (r.1, r.2.hp)) = some (true, ⟨0, 0, 0, 0⟩) ∧
      (erase 3 5 demoMap).map (fun r => (r.1, r.2.hp)) = some (true, ⟨0, 0, 0, 0⟩) ∧
      (findValue 3 0 5 demoMap).map (fun r => (r.1, r.2.2.hp)) = some (true, ⟨0, 0, 0, 0⟩) ∧
      (findValue 2 0 5 demoMap).map (fun r => (r.1, r.2.2.hp)) = some (false, ⟨0, 0, 0, 0⟩) ∧
      (existsKey 3 5 demoMap).map (fun r => (r.1, r.2.hp)) = some (true, ⟨0, 0, 0, 0⟩) ∧
      (existsKey 2 5 demoMap).map (fun r => (r.1, r.2.hp)) = some (false, ⟨0, 0, 0, 0⟩) := by
  decide

/-- C15: for every value `r` of the random source, `randomLevel` returns the smaller of
`kMaxHeight - 1` and the number of consecutive 1-bits of `r` from bit 1 upwards (bit 0 is not
looked at), so the result is at most 11; and for each `k` from 0 to 11, exactly `2 ^ (64 - k)`
of the `2 ^ 64` values of an `int64_t` give a level of at least `k`. -/
theorem randomLevel_geometric (r : Int) (k : Nat) (hk : k ≤ kMaxHeight - 1) :
    randomLevel r = min (kMaxHeight - 1) (onesFrom r 1 63) ∧
      randomLevel r ≤ 11 ∧ kMaxHeight - 1 = 11 ∧
      randomLevel r = randomLevel (r - r % 2) ∧
      (Finset.Ico (-2 ^ 63 : Int) (2 ^ 63)).card = 2 ^ 64 ∧
      ((Finset.Ico (-2 ^ 63 : Int) (2 ^ 63)).filter (fun x => k ≤ randomLevel x)).card =
        2 ^ (64 - k) := by
  have hlt := randomLevel_lt r
  refine ⟨randomLevel_ones r, by unfold kMaxHeight at hlt; omega, by decide, ?_, ?_,
    randomLevel_count k hk⟩
  · have e : (r - r % 2) >>> (1 : Int) = r >>> (1 : Int) := by
      rw [shr_one, shr_one]
      omega
    unfold randomLevel kMaxHeight
    show randomLevelLoop (10 + 1) r 0 = randomLevelLoop (10 + 1) (r - r % 2) 0
    conv_lhs => rw [randomLevelLoop]
    conv_rhs => rw [randomLevelLoop, e]
  · rw [Int.card_Ico]
    decide

/-- C16: after any calls of public methods on a new map, made by one thread, the field
`height_` is at most `kMaxHeight - 1 = 11` and the sentinel has `kMaxHeight` entries in
`next_`; the next call, whatever it is, ends and leaves `height_` at least what it was and at
most one more, again at most 11; a call other than `insert` leaves it unchanged, and
`insert` raises it by one exactly when the level drawn by `randomLevel` is above it. -/
theorem height_bounded_monotone [Inhabited K] [Inhabited V] (fuel : Nat)
    (cs : List (Call K V)) (c : Call K V) (hf : cs.length < fuel) :
    ∃ s s1 hd, runCalls fuel cs ConcurrentSkipListMap.new = some s ∧
      applyCall fuel s c = some s1 ∧
      s.height_ ≤ kMaxHeight - 1 ∧ kMaxHeight - 1 = 11 ∧
      deref s.mem s.head_ = some hd ∧ hd.next_.length = kMaxHeight ∧
      s.height_ ≤ s1.height_ ∧ s1.height_ ≤ s.height_ + 1 ∧ s1.height_ ≤ kMaxHeight - 1 ∧
      (c.isInsert = false → s1.height_ = s.height_) ∧
      ∀ k v r, c = .insert k v r →
        s1.height_ = if randomLevel r > s.height_ then s.height_ + 1 else s.height_ := by
  obtain ⟨s, l, hrun, hq, hlen, -⟩ := runCalls_quiescent fuel cs
    (ConcurrentSkipListMap.new : ConcurrentSkipListMap K V) [] quiescent_new
    (by simp only [List.length_nil]; omega)
  simp only [List.length_nil, Nat.zero_add] at hlen
  obtain ⟨s1, l1, h1, hq1, -, hni, hi⟩ := applyCall_quiescent hq c (show l.length < fuel by omega)
  obtain ⟨hd, hd1, hd2⟩ := headOk_deref hq.1
  have hb := hq.2.2.2.2.2
  have hb1 := hq1.2.2.2.2.2
  have hk : kMaxHeight = 12 := rfl
  refine ⟨s, s1, hd, hrun, h1, by omega, by decide, hd1, by rw [hd2]; simp [hk], ?_, ?_,
    by omega, hni, hi⟩
  · cases c with
    | insert k v r => rw [hi k v r rfl]; split_ifs <;> omega
    | _ => rw [hni rfl]
  · cases c with
    | insert k v r => rw [hi k v r rfl]; split_ifs <;> omega
    | _ => rw [hni rfl]; omega

/-- C17: in the state after any calls of `insert` and `erase` on a new map, made by one
thread, each node of the level-0 list has `link_count` equal to the number of levels on which
`next_` of some node of the list, sentinel included, points to it. A further call of `insert`
ends and leaves a state in which this holds again; when it returns true, the new node, of
height `min(level, height_ + 1) + 1` for the level drawn, has `link_count` 1 and is linked
on one level. -/
theorem link_count_counts_levels [Inhabited K] [Inhabited V] (fuel : Nat)
    (ops : List (Op K V)) (k : K) (v : V) (r : Int) (hf : ops.length + 1 < fuel) :
    ∃ s l b s1 l1, runOps fuel ops ConcurrentSkipListMap.new = some s ∧ Quiescent s l ∧
      (∀ x ∈ l, deref s.mem x.1 = some x.2 ∧ x.2.link_count = linkedLevels s l x.1) ∧
      insert k v r fuel s = some (b, s1) ∧ Quiescent s1 l1 ∧
      (∀ x ∈ l1, deref s1.mem x.1 = some x.2 ∧ x.2.link_count = linkedLevels s1 l1 x.1) ∧
      (b = true → ∃ x ∈ l1, x.1 = freshPtr s.mem ∧ x.2.key = k ∧ x.2.value = v ∧
        x.2.height = min (randomLevel r) (s.height_ + 1) + 1 ∧
        x.2.link_count = 1 ∧ linkedLevels s1 l1 x.1 = 1) := by
  obtain ⟨s, l, hrun, hq, -, hlen⟩ := runOps_refines fuel ops
    (ConcurrentSkipListMap.new : ConcurrentSkipListMap K V) [] [] quiescent_new
    (fun _ => rfl) (by simp only [List.length_nil]; omega)
  simp only [List.length_nil, Nat.zero_add] at hlen
  have hall : ∀ {t : ConcurrentSkipListMap K V} {m : List (Nat × Node K V)}, Quiescent t m →
      ∀ x ∈ m, deref t.mem x.1 = some x.2 ∧ x.2.link_count = linkedLevels t m x.1 :=
    fun ht x hx => ⟨(quiescent_link_count ht x hx).1, (quiescent_link_count ht x hx).2.1⟩
  have hlf : (nodesBelow k l ++ nodesFrom k l).length < fuel := by
    rw [nodesBelow_append_nodesFrom]; omega
  obtain ⟨s1, -, -, h1⟩ := insert_spec k v r (quiescent_split hq k) hlf (nodesBelow_lt k l)
    (nodesFrom_head_ge k l)
  by_cases hm : matchOf k (nodesFrom k l) = true
  · rw [if_pos hm, nodesBelow_append_nodesFrom] at h1
    obtain ⟨hins, -, hq1, -⟩ := h1
    exact ⟨s, l, false, s1, l, hrun, hq, hall hq, hins, hq1, hall hq1, (fun h => nomatch h)⟩
  · rw [if_neg hm] at h1
    obtain ⟨nf, hins, hq1, hk, hv, hh, -⟩ := h1
    refine ⟨s, l, true, s1, _, hrun, hq, hall hq, hins, hq1, hall hq1, fun _ => ?_⟩
    have hx : (freshPtr s.mem, nf) ∈ setLast (freshPtr s.mem) (nodesBelow k l) ++
        (freshPtr s.mem, nf) :: nodesFrom k l :=
      List.mem_append_right _ (List.mem_cons_self _ _)
    obtain ⟨-, h2, h3⟩ := quiescent_link_count hq1 _ hx
    exact ⟨_, hx, rfl, hk, hv, hh, by rw [h2]; exact h3, h3⟩

/-- C18: after any calls of `insert` and `erase` on a new map, made by one thread, no node is
retired twice and the number of retired nodes is the number of calls of `erase` that returned
true; when the calls leave the abstract map empty, the list is the sentinel alone and its
`next_[0]` is null. A further call ends, and no node of the list, sentinel included, then
holds a pointer that is marked for its level. A call of `insert`, and one of `erase` that
returns false, leave the retired list as it was. A call `erase(k)` that returns true takes a
node with key `k` that was linked on one level and was not retired: the node is no longer in
the list, no `next_` entry of the list points to it on any level, its `link_count` is 0, and
it is appended once to the retired list. -/
theorem erase_unlinks_and_retires [Inhabited K] [Inhabited V] (fuel : Nat)
    (ops : List (Op K V)) (op : Op K V) (hf : ops.length + 1 < fuel) :
    ∃ bs s l b s1 l1, runTrace fuel ops ConcurrentSkipListMap.new = some (bs, s) ∧
      Quiescent s l ∧ s.retired.Nodup ∧ s.retired.length = eraseHits ops bs ∧
      (absRun ops = [] → l = [] ∧ loadNext s s.head_ 0 = some 0) ∧
      step fuel s op = some (b, s1) ∧ Quiescent s1 l1 ∧ s1.retired.Nodup ∧
      (∀ n ∈ listNodes s1 l1, ∀ i p, n.next_[i]? = some p → marked p i = false) ∧
      ((∃ k v r, op = .insert k v r) ∨ b = false → s1.retired = s.retired) ∧
      ∀ k, op = .erase k → b = true →
        ∃ a n, a ∈ l.map Prod.fst ∧ linkedLevels s l a = 1 ∧ a ∉ s.retired ∧
          a ∉ l1.map Prod.fst ∧ linkedLevels s1 l1 a = 0 ∧
          s1.retired = s.retired ++ [a] ∧ deref s1.mem a = some n ∧ n.link_count = 0 ∧
          n.key = k := by
  have hr0 : RetiredOk (ConcurrentSkipListMap.new : ConcurrentSkipListMap K V) [] :=
    ⟨List.nodup_nil, fun a ha => nomatch ha⟩
  obtain ⟨bs, s, l, htr, hrun, hq, hr, hlen, hcnt⟩ := runTrace_spec fuel ops
    (ConcurrentSkipListMap.new : ConcurrentSkipListMap K V) [] quiescent_new hr0
    (by simp only [List.length_nil]; omega)
  simp only [List.length_nil, Nat.zero_add] at hlen
  obtain ⟨s0, l0, hrun0, hq0, hlook, -⟩ := runOps_refines fuel ops
    (ConcurrentSkipListMap.new : ConcurrentSkipListMap K V) [] [] quiescent_new
    (fun _ => rfl) (by simp only [List.length_nil]; omega)
  obtain rfl : s0 = s := Option.some.inj (hrun0.symm.trans hrun)
  obtain rfl : l0 = l := quiescent_unique hq0 hq
  obtain ⟨b, s1, l1, hstep, hq1, hr1, -, -, hsame, herase⟩ := step_retired hq hr op
    (show l0.length < fuel by omega)
  refine ⟨bs, s0, l0, b, s1, l1, htr, hq, hr.1, ?_, ?_, hstep, hq1, hr1.1,
    quiescent_no_mark hq1, fun h => hsame (eraseHits_single op b h), ?_⟩
  · rw [hcnt]
    show ([] : List Nat).length + _ = _
    simp
  · intro hempty
    have hl : l0 = [] := by
      apply lookup_all_none
      intro k
      rw [hlook k]
      unfold absRun at hempty
      rw [hempty]
      rfl
    subst hl
    exact ⟨rfl, headOk_load_zero hq.1⟩
  · intro k e hb
    obtain ⟨a, n, h1, h2, h3, h4, h5, h6, h7⟩ := herase k e hb
    have ha0 : a ≠ 0 := by
      obtain ⟨x, hx, rfl⟩ := List.mem_map.mp h1
      exact deref_ne_zero (seg_deref hq.2.1 hx)
    exact ⟨a, n, h1, by rw [linkedLevels_quiescent hq ha0, if_pos h1], h3, h2,
      by rw [linkedLevels_quiescent hq1 ha0, if_neg h2], h4, h5, h6, h7⟩

/-- C19: in a registry reached from a new one by any calls, for names `a ≠ b`, let `counter(a)`
return `c1`, then `counter(b)` return `c2`, then `counter(a)` return `c3`. Then `c3` is `c1`,
as is the result of `counter(a)` called directly after the first call, and `c2` is another
object; `counters()` then has no name twice and holds exactly the names it held before and
`a` and `b`; on a new registry it has two entries. The same holds for `timer` and
`timers()`. -/
theorem registry_get_or_insert (cs : List RegCall) (a b : String)
    (reg r1 r2 r3 u1 u2 u3 : MetricRegistryImpl) (c1 c2 c3 t1 t2 t3 : Nat) (hab : a ≠ b)
    (hreg : reg = runReg cs MetricRegistryImpl.new)
    (h1 : reg.counter a = (c1, r1)) (h2 : r1.counter b = (c2, r2))
    (h3 : r2.counter a = (c3, r3))
    (g1 : reg.timer a = (t1, u1)) (g2 : u1.timer b = (t2, u2)) (g3 : u2.timer a = (t3, u3)) :
    (c3 = c1 ∧ (r1.counter a).1 = c1 ∧ c2 ≠ c1 ∧ (r3.counters.map Prod.fst).Nodup ∧
        (∀ k, k ∈ r3.counters.map Prod.fst ↔ k ∈ reg.counters.map Prod.fst ∨ k = a ∨ k = b) ∧
        (cs = [] → r3.counters.length = 2)) ∧
      (t3 = t1 ∧ (u1.timer a).1 = t1 ∧ t2 ≠ t1 ∧ (u3.timers.map Prod.fst).Nodup ∧
        (∀ k, k ∈ u3.timers.map Prod.fst ↔ k ∈ reg.timers.map Prod.fst ∨ k = a ∨ k = b) ∧
        (cs = [] → u3.timers.length = 2)) := by
  obtain ⟨hc, ht, -⟩ := runReg_ok cs MetricRegistryImpl.new (mapOk_nil 0) (mapOk_nil 0)
    (mapOk_nil 0)
  rw [← hreg] at hc ht
  obtain ⟨rfl, rfl⟩ : c1 = (reg.counter a).1 ∧ r1 = (reg.counter a).2 := by
    rw [h1]; exact ⟨rfl, rfl⟩
  obtain ⟨rfl, rfl⟩ : c2 = ((reg.counter a).2.counter b).1 ∧
      r2 = ((reg.counter a).2.counter b).2 := by rw [h2]; exact ⟨rfl, rfl⟩
  obtain ⟨rfl, rfl⟩ : c3 = (((reg.counter a).2.counter b).2.counter a).1 ∧
      r3 = (((reg.counter a).2.counter b).2.counter a).2 := by rw [h3]; exact ⟨rfl, rfl⟩
  obtain ⟨rfl, rfl⟩ : t1 = (reg.timer a).1 ∧ u1 = (reg.timer a).2 := by
    rw [g1]; exact ⟨rfl, rfl⟩
  obtain ⟨rfl, rfl⟩ : t2 = ((reg.timer a).2.timer b).1 ∧
      u2 = ((reg.timer a).2.timer b).2 := by rw [g2]; exact ⟨rfl, rfl⟩
  obtain ⟨rfl, rfl⟩ : t3 = (((reg.timer a).2.timer b).2.timer a).1 ∧
      u3 = (((reg.timer a).2.timer b).2.timer a).2 := by rw [g3]; exact ⟨rfl, rfl⟩
  obtain ⟨p1, p2, p3, p4, p5, p6⟩ := getOrInsert_thrice hc hab
  obtain ⟨q1, q2, q3, q4, q5, q6⟩ := getOrInsert_thrice ht hab
  have ec : (((reg.counter a).2.counter b).2.counter a).2.counters =
      ((reg.counter a).2.counter b).2.counters := p4
  have et : (((reg.timer a).2.timer b).2.timer a).2.timers =
      ((reg.timer a).2.timer b).2.timers := q4
  refine ⟨⟨p3, p1, p2, ?_, ?_, ?_⟩, ⟨q3, q1, q2, ?_, ?_, ?_⟩⟩
  · rw [ec]; exact p5
  · intro k
    rw [ec]; exact p6 k
  · intro hcs
    subst hcs
    rw [ec, hreg]
    exact getOrInsert_two hab 0
  · rw [et]; exact q5
  · intro k
    rw [et]; exact q6 k
  · intro hcs
    subst hcs
    rw [et, hreg]
    exact getOrInsert_two hab 0

/-- C21: for every pointer word `p`, `marked0(mark(p))` is true and `marked0(clear(p))` is
false; `mark` and `clear` are idempotent; `clear(mark(p)) = p` holds exactly when the low bit
of `p` is 0, so it holds for every 8-byte aligned address and for null; `clear` resets bit 0
and leaves every other bit as it was, as does `mark`, which sets bit 0. -/
theorem mark_clear_algebra (p j : Nat) :
    marked0 (mark p) = true ∧ marked0 (clear p) = false ∧
      mark (mark p) = mark p ∧ clear (clear p) = clear p ∧
      (clear (mark p) = p ↔ p % 2 = 0) ∧
      clear (mark (8 * j)) = 8 * j ∧ clear (mark 0) = 0 ∧
      (clear p).testBit 0 = false ∧ (clear p).testBit (j + 1) = p.testBit (j + 1) ∧
      clear p / 2 = p / 2 ∧
      (mark p).testBit 0 = true ∧ (mark p).testBit (j + 1) = p.testBit (j + 1) ∧
      mark p / 2 = p / 2 := by
  have hc : clear p % 2 = 0 ∧ clear p / 2 = p / 2 := by
    unfold clear; rw [Nat.and_one_is_mod]; omega
  have hm : mark p % 2 = 1 ∧ mark p / 2 = p / 2 := by
    rcases Nat.mod_two_eq_zero_or_one p with h | h
    · rw [mark_of_even h]; omega
    · rw [mark_of_odd h]; omega
  have h8 : (8 * j) % 2 = 0 := by omega
  refine ⟨?_, marked0_of_even hc.1, mark_of_odd hm.1, clear_of_even hc.1, ?_, ?_, by decide,
    ?_, ?_, hc.2, ?_, ?_, hm.2⟩
  · simp only [marked0, Nat.and_one_is_mod, hm.1]; decide
  · rw [clear_mark]
    constructor
    · intro h; rw [← h]; exact hc.1
    · exact clear_of_even
  · rw [mark_of_even h8, clear_succ_of_even h8]
  · rw [Nat.testBit_zero]; simp [hc.1]
  · rw [Nat.testBit_succ, Nat.testBit_succ, hc.2]
  · rw [Nat.testBit_zero]; simp [hm.1]
  · rw [Nat.testBit_succ, Nat.testBit_succ, hm.2]

/-- C22: after any calls of `insert`, `erase`, `find`, `exists`, `firstKey`, `values` and
`entries` on a new map, made by one thread, `next_[i]` of the sentinel is marked null on every
level `i` from 1 to `kMaxHeight - 1`. The index-linkage loop of `insert`, started on any level
above 0, goes to `exit` in its first iteration with `overage` as it was, having set hazard
slot 1 only. Every node of the list has marked null in all its entries above level 0, and no
`next_` entry above level 0 of the list points to a node. The descent of `find` from level
`height_` arrives on level 0 with `prev` still the sentinel, and `find` returns the place
that the walk along level 0 gives: `prev` is the last node with a smaller key and `cur` the
first node with a key not smaller. -/
theorem upper_levels_never_linked [Inhabited K] [Inhabited V] (fuel : Nat)
    (cs : List (Call K V)) (hf : cs.length < fuel) :
    ∃ s l hd, runCalls fuel cs ConcurrentSkipListMap.new = some s ∧ Quiescent s l ∧
      deref s.mem s.head_ = some hd ∧
      hd.next_ = headPtr l 0 :: List.replicate (kMaxHeight - 1) (mark 0) ∧
      (∀ i, i + 1 < kMaxHeight → loadNext s s.head_ (i + 1) = some (mark 0)) ∧
      marked0 (mark 0) = true ∧ clear (mark 0) = 0 ∧
      (∀ (key : K) (n level m : Nat) (ov : Int), m + 1 < kMaxHeight →
        insertIndexLevels key n level fuel (m + 1) s s.head_ ov =
          some (ov, setHazard s 1 (mark 0))) ∧
      (∀ x ∈ l, deref s.mem x.1 = some x.2 ∧
        x.2.next_.tail = List.replicate (x.2.height - 1) (mark 0)) ∧
      (∀ n ∈ listNodes s l, ∀ i a, a ≠ 0 → pointsTo n (i + 1) a = false) ∧
      (∀ key : K, 0 < s.height_ → findAttempt key fuel s =
        findLevels key fuel 1 (setHazard (setHazard s 2 s.head_) 1 (mark 0)) s.head_
          (mark 0) 0) ∧
      ∀ key : K, find key fuel s =
        some (⟨lastPtr (nodesBelow key l) s.head_, headPtr (nodesFrom key l) 0,
          nextOf (nodesFrom key l), matchOf key (nodesFrom key l)⟩,
          findState s (nodesBelow key l) (nodesFrom key l)) := by
  obtain ⟨s, l, hrun, hq, hlen, -⟩ := runCalls_quiescent fuel cs
    (ConcurrentSkipListMap.new : ConcurrentSkipListMap K V) [] quiescent_new
    (by simp only [List.length_nil]; omega)
  simp only [List.length_nil, Nat.zero_add] at hlen
  obtain ⟨hd, hd1, hd2⟩ := headOk_deref hq.1
  have hshape := listNodes_shape hq
  refine ⟨s, l, hd, hrun, hq, hd1, hd2, ?_, by decide, by decide, ?_, ?_, ?_, ?_, ?_⟩
  · intro i hi
    rw [mark_zero]
    exact headOk_load_succ hq.1 hi
  · intro key n level m ov hm
    rw [insertIndexLevels, loadAndSetHazard_eq (headOk_load_succ hq.1 hm)]
    simp [marked0_one, mark_zero]
  · intro x hx
    exact ⟨seg_deref hq.2.1 hx, (hq.2.2.2.1 x hx).1⟩
  · intro n hn i a ha
    obtain ⟨q, h, hs, -⟩ := hshape n hn
    exact pointsTo_shape hs ha i
  · intro key hpos
    obtain ⟨i, hi⟩ : ∃ i, s.height_ = i + 1 := ⟨s.height_ - 1, by omega⟩
    have hb := hq.2.2.2.2.2
    have h2 : HeadOk (setHazard s 2 s.head_) (headPtr l 0) := headOk_congr hq.1 rfl rfl
    have := findLevels_upper key (show 1 ≤ fuel by omega) i (setHazard s 2 s.head_) 0 0 h2
      (by omega)
    unfold findAttempt
    rw [hi, mark_zero]
    exact this
  · intro key
    exact find_split (quiescent_split hq key)
      (by rw [nodesBelow_append_nodesFrom]; omega) (nodesBelow_lt key l)
      (nodesFrom_head_ge key l)

/-- C23: `insert` stores the new `height_` before it calls `find`. On every quiescent state,
for every key that is present and every drawn level above `height_`, `insert` returns false,
memory and the entries are as before, and `height_` is one more than before. Such a case
exists: after `insert(1, 10)` with level 0 on a new map, `insert(1, 99)` with level 1
returns false and `height_` goes from 0 to 1. -/
theorem insert_present_key_raises_height (s : ConcurrentSkipListMap K V) (m : List (K × V))
    (k : K) (v : V) (r : Int) (fuel : Nat) (hs : Holds s m) (hf : m.length < fuel)
    (hk : k ∈ m.map Prod.fst) (hr : s.height_ < randomLevel r) :
    (∃ s1 e e1, insert k v r fuel s = some (false, s1) ∧ s1.height_ = s.height_ + 1 ∧
        s1.mem = s.mem ∧ Holds s1 m ∧ entries fuel s = some (m, e) ∧
        entries fuel s1 = some (m, e1)) ∧
      randomLevel 2 = 1 ∧
      (runOps 5 [Op.insert 1 10 0]
          (ConcurrentSkipListMap.new : ConcurrentSkipListMap Nat Nat)).bind
          (fun s0 => (insert 1 99 2 5 s0).map (fun x => (x.1, s0.height_, x.2.height_))) =
        some (false, 0, 1) ∧
      (runOps 5 [Op.insert 1 10 0]
          (ConcurrentSkipListMap.new : ConcurrentSkipListMap Nat Nat)).bind
          (fun s0 => (entries 5 s0).map (fun y => y.1)) = some [(1, 10)] ∧
      (runOps 5 [Op.insert 1 10 0]
          (ConcurrentSkipListMap.new : ConcurrentSkipListMap Nat Nat)).bind
          (fun s0 => (insert 1 99 2 5 s0).bind
            (fun x => (entries 5 x.2).map (fun y => y.1))) = some [(1, 10)] := by
  refine ⟨?_, by decide, by decide, by decide, by decide⟩
  obtain ⟨l, hq, rfl⟩ := hs
  rw [entriesOf_length] at hf
  obtain ⟨b, s1, l1, hins, hq1, -, hiff, hfalse, -, hht, -⟩ := insert_entries hq k v r hf
  have hb : b = false := by
    cases b with
    | false => rfl
    | true =>
      exfalso
      obtain ⟨e, he, hke⟩ := List.mem_map.mp hk
      obtain ⟨x, hx, rfl⟩ := List.mem_map.mp he
      exact hiff.mp rfl x hx hke
  subst hb
  obtain ⟨rfl, hmem⟩ := hfalse rfl
  obtain ⟨e, he, -⟩ := extractor_quiescent (fun n => (n.key, n.value)) hq hf
  obtain ⟨e1, he1, -⟩ := extractor_quiescent (fun n => (n.key, n.value)) hq1 hf
  exact ⟨s1, e, e1, hins, by rw [hht, if_pos hr], hmem, ⟨l1, hq1, rfl⟩, he, he1⟩

end Claims

/-! ## The properties at sample inputs -/

section Witnesses

/-- C1 at a sample input: the key 2 is inserted into `demoMap`. -/
theorem insert_put_if_absent_witness :
    Holds demoMap demoEntries ∧ demoEntries.length < 5 ∧
      ∃ b s1, insert 2 20 6 5 demoMap = some (b, s1) ∧
        (b = true ↔ ∀ e ∈ demoEntries, e.1 ≠ 2) ∧
        (b = true → ∃ m1, Holds s1 m1 ∧ m1.Perm ((2, 20) :: demoEntries)) ∧
        (b = false → s1.mem = demoMap.mem ∧ Holds s1 demoEntries ∧ ∃ w, (2, w) ∈ demoEntries ∧
          ∀ out, (∃ s0, findValue 2 out 5 demoMap = some (true, w, s0)) ∧
            ∃ s2, findValue 2 out 5 s1 = some (true, w, s2)) :=
  ⟨⟨demoNodes, by decide, rfl⟩, by decide,
    insert_put_if_absent demoMap demoEntries 2 20 6 5 ⟨demoNodes, by decide, rfl⟩ (by decide)⟩

/-- C2 at a sample input: the key 3 is erased from `demoMap`. -/
theorem erase_removes_witness :
    Holds demoMap demoEntries ∧ demoEntries.length < 5 ∧
      ∃ b s1, erase 3 5 demoMap = some (b, s1) ∧
        (b = true ↔ ∃ e ∈ demoEntries, e.1 = 3) ∧
        Holds s1 (remove demoEntries 3) ∧
        (∃ s2, existsKey 3 5 s1 = some (false, s2)) ∧
        ∃ s3, erase 3 5 s1 = some (false, s3) :=
  ⟨⟨demoNodes, by decide, rfl⟩, by decide,
    erase_removes demoMap demoEntries 3 5 ⟨demoNodes, by decide, rfl⟩ (by decide)⟩

/-- C3 at a sample input: the calls `piOps`. -/
theorem find_refines_abstract_map_witness :
    piOps.length < 9 ∧
      ∃ s, runOps 9 piOps (ConcurrentSkipListMap.new : ConcurrentSkipListMap Nat Nat) = some s ∧
        ∀ (k : Nat) (out : Nat),
          (∀ v, lookup (absRun piOps) k = some v →
            ∃ s1, findValue k out 9 s = some (true, v, s1)) ∧
          (lookup (absRun piOps) k = none →
            ∃ s1, findValue k out 9 s = some (false, out, s1)) ∧
          ∃ s2, existsKey k 9 s = some ((lookup (absRun piOps) k).isSome, s2) :=
  ⟨by decide, find_refines_abstract_map piOps 9 (by decide)⟩

/-- C4 at a sample input: the calls `piOps`. -/
theorem level0_sorted_after_calls_witness :
    piOps.length < 9 ∧
      ∃ s l, runOps 9 piOps (ConcurrentSkipListMap.new : ConcurrentSkipListMap Nat Nat) =
          some s ∧
        Level0 s l ∧ (l.map (fun x => x.2.key)).Pairwise (· < ·) ∧
        (l.map (fun x => x.2.key)).Nodup :=
  ⟨by decide, level0_sorted_after_calls piOps 9 (by decide)⟩

/-- C6 at a sample input: the snapshots of `demoMap`. -/
theorem entries_values_ascending_witness :
    Holds demoMap demoEntries ∧ demoEntries.length < 5 ∧
      (∃ s1, entries 5 demoMap = some (demoEntries, s1)) ∧
      (∃ s2, values 5 demoMap = some (demoEntries.map Prod.snd, s2)) ∧
      (demoEntries.map Prod.fst).Pairwise (· < ·) ∧ demoEntries.Nodup ∧
      (∀ k v out, (k, v) ∈ demoEntries ↔
        ∃ s3, findValue k out 5 demoMap = some (true, v, s3)) ∧
      (runOps 9 piOps ConcurrentSkipListMap.new).bind
          (fun s0 => (entries 9 s0).map (fun x => x.1)) =
        some [(1, 10), (2, 20), (3, 30), (4, 40), (5, 50), (6, 60), (9, 90)] :=
  ⟨⟨demoNodes, by decide, rfl⟩, by decide,
    entries_values_ascending demoMap demoEntries 5 ⟨demoNodes, by decide, rfl⟩ (by decide)⟩

/-- C7 at a sample input: the first key of `demoMap`. -/
theorem firstKey_smallest_witness :
    Holds demoMap demoEntries ∧ 0 < 1 ∧
      ∃ s1, firstKey 1 demoMap = some ((demoEntries.head?.map Prod.fst).getD default, s1) ∧
        s1.mem = demoMap.mem ∧ s1.head_ = demoMap.head_ ∧ s1.height_ = demoMap.height_ ∧
        s1.retired = demoMap.retired ∧
        (demoEntries ≠ [] →
          (demoEntries.head?.map Prod.fst).getD default ∈ demoEntries.map Prod.fst) ∧
        ∀ e ∈ demoEntries, (demoEntries.head?.map Prod.fst).getD default ≤ e.1 :=
  ⟨⟨demoNodes, by decide, rfl⟩, by decide,
    firstKey_smallest demoMap demoEntries 1 ⟨demoNodes, by decide, rfl⟩ (by decide)⟩

/-- C8 at a sample input: the search for key 3 in `demoMap`. -/
theorem find_quiescent_snapshot_witness :
    Quiescent demoMap demoNodes ∧ demoNodes.length < 5 ∧
      ∃ r s1, findAttempt 3 5 demoMap = some (FindCtl.brk s1 r.prev r.cur r.next) ∧
        find 3 5 demoMap = some (r, s1) ∧
        s1.mem = demoMap.mem ∧ s1.head_ = demoMap.head_ ∧ s1.height_ = demoMap.height_ ∧
        s1.retired = demoMap.retired ∧
        r.cur = headPtr (nodesFrom 3 demoNodes) 0 ∧
        r.prev = lastPtr (nodesBelow 3 demoNodes) demoMap.head_ ∧
        loadNext demoMap r.prev 0 = some r.cur ∧
        (r.cur ≠ 0 → loadNext demoMap r.cur 0 = some r.next) ∧
        (r.match_ = true ↔ ∃ n, deref demoMap.mem r.cur = some n ∧ n.key = 3) :=
  ⟨by decide, by decide, find_quiescent_snapshot demoMap demoNodes 3 5 (by decide) (by decide)⟩

/-- C13 at a sample input: the sentinel's height 12. -/
theorem mkNode_fields_witness :
    1 ≤ 12 ∧ 12 ≤ 255 ∧
      (mkNode 12 (0 : Nat) (0 : Nat)).key = 0 ∧ (mkNode 12 (0 : Nat) (0 : Nat)).value = 0 ∧
      (mkNode 12 (0 : Nat) (0 : Nat)).height = 12 ∧
      (mkNode 12 (0 : Nat) (0 : Nat)).link_count = 0 ∧
      (mkNode 12 (0 : Nat) (0 : Nat)).next_.length = 12 ∧
      (mkNode 12 (0 : Nat) (0 : Nat)).next_ = 0 :: List.replicate (12 - 1) (mark 0) ∧
      clear (mark 0) = 0 ∧ mark 0 % 2 = 1 ∧
      (mkNode 12 (0 : Nat) (0 : Nat)).next_[0]? = some 0 ∧
      (∀ i, 1 ≤ i → i < 12 → (mkNode 12 (0 : Nat) (0 : Nat)).next_[i]? = some (mark 0)) ∧
      1 ≤ kMaxHeight ∧ kMaxHeight ≤ 255 ∧
      ∀ (r : Int) (height : Nat), 1 ≤ min (randomLevel r) (height + 1) + 1 ∧
        min (randomLevel r) (height + 1) + 1 ≤ kMaxHeight :=
  ⟨by decide, by decide, mkNode_fields 12 0 0 (by decide) (by decide)⟩

/-- C15 at a sample input: the value 14, whose bits 1, 2 and 3 are set, and the level 3. -/
theorem randomLevel_geometric_witness :
    3 ≤ kMaxHeight - 1 ∧ randomLevel 14 = 3 ∧
      (randomLevel 14 = min (kMaxHeight - 1) (onesFrom 14 1 63) ∧
        randomLevel 14 ≤ 11 ∧ kMaxHeight - 1 = 11 ∧
        randomLevel 14 = randomLevel (14 - 14 % 2) ∧
        (Finset.Ico (-2 ^ 63 : Int) (2 ^ 63)).card = 2 ^ 64 ∧
        ((Finset.Ico (-2 ^ 63 : Int) (2 ^ 63)).filter (fun x => 3 ≤ randomLevel x)).card =
          2 ^ (64 - 3)) :=
  ⟨by decide, by decide, randomLevel_geometric 14 3 (by decide)⟩

/-- C16 at a sample input: two calls of `insert` on a new map, both with a drawn level above
`height_`. -/
theorem height_bounded_monotone_witness :
    [Call.insert 1 10 2].length < 5 ∧
      ∃ (s s1 : ConcurrentSkipListMap Nat Nat) (hd : Node Nat Nat),
        runCalls 5 [Call.insert 1 10 2] ConcurrentSkipListMap.new = some s ∧
        applyCall 5 s (Call.insert 2 20 6) = some s1 ∧
        s.height_ ≤ kMaxHeight - 1 ∧ kMaxHeight - 1 = 11 ∧
        deref s.mem s.head_ = some hd ∧ hd.next_.length = kMaxHeight ∧
        s.height_ ≤ s1.height_ ∧ s1.height_ ≤ s.height_ + 1 ∧ s1.height_ ≤ kMaxHeight - 1 ∧
        ((Call.insert 2 20 6 : Call Nat Nat).isInsert = false → s1.height_ = s.height_) ∧
        ∀ k v r, Call.insert 2 20 6 = Call.insert k v r →
          s1.height_ = if randomLevel r > s.height_ then s.height_ + 1 else s.height_ :=
  ⟨by decide, height_bounded_monotone 5 [Call.insert 1 10 2] (Call.insert 2 20 6) (by decide)⟩

/-- C17 at a sample input: three calls and then `insert(2, 20)` with a drawn level of 3. -/
theorem link_count_counts_levels_witness :
    [Op.insert 1 10 2, Op.insert 3 30 0, Op.erase 1].length + 1 < 6 ∧
      ∃ (s : ConcurrentSkipListMap Nat Nat) (l : List (Nat × Node Nat Nat)) (b : Bool)
        (s1 : ConcurrentSkipListMap Nat Nat) (l1 : List (Nat × Node Nat Nat)),
        runOps 6 [Op.insert 1 10 2, Op.insert 3 30 0, Op.erase 1] ConcurrentSkipListMap.new =
          some s ∧ Quiescent s l ∧
        (∀ x ∈ l, deref s.mem x.1 = some x.2 ∧ x.2.link_count = linkedLevels s l x.1) ∧
        insert 2 20 14 6 s = some (b, s1) ∧ Quiescent s1 l1 ∧
        (∀ x ∈ l1, deref s1.mem x.1 = some x.2 ∧ x.2.link_count = linkedLevels s1 l1 x.1) ∧
        (b = true → ∃ x ∈ l1, x.1 = freshPtr s.mem ∧ x.2.key = 2 ∧ x.2.value = 20 ∧
          x.2.height = min (randomLevel 14) (s.height_ + 1) + 1 ∧
          x.2.link_count = 1 ∧ linkedLevels s1 l1 x.1 = 1) :=
  ⟨by decide, link_count_counts_levels 6 [Op.insert 1 10 2, Op.insert 3 30 0, Op.erase 1]
    2 20 14 (by decide)⟩

/-- C18 at a sample input: two calls of `insert` and then `erase(1)`. -/
theorem erase_unlinks_and_retires_witness :
    [Op.insert 1 10 2, Op.insert 3 30 0].length + 1 < 6 ∧
      ∃ (bs : List Bool) (s : ConcurrentSkipListMap Nat Nat) (l : List (Nat × Node Nat Nat))
        (b : Bool) (s1 : ConcurrentSkipListMap Nat Nat) (l1 : List (Nat × Node Nat Nat)),
        runTrace 6 [Op.insert 1 10 2, Op.insert 3 30 0] ConcurrentSkipListMap.new =
          some (bs, s) ∧
        Quiescent s l ∧ s.retired.Nodup ∧
        s.retired.length = eraseHits [Op.insert 1 10 2, Op.insert 3 30 0] bs ∧
        (absRun [Op.insert 1 10 2, Op.insert 3 30 0] = [] →
          l = [] ∧ loadNext s s.head_ 0 = some 0) ∧
        step 6 s (Op.erase 1) = some (b, s1) ∧ Quiescent s1 l1 ∧ s1.retired.Nodup ∧
        (∀ n ∈ listNodes s1 l1, ∀ i p, n.next_[i]? = some p → marked p i = false) ∧
        ((∃ k v r, (Op.erase 1 : Op Nat Nat) = .insert k v r) ∨ b = false →
          s1.retired = s.retired) ∧
        ∀ k, (Op.erase 1 : Op Nat Nat) = .erase k → b = true →
          ∃ a n, a ∈ l.map Prod.fst ∧ linkedLevels s l a = 1 ∧ a ∉ s.retired ∧
            a ∉ l1.map Prod.fst ∧ linkedLevels s1 l1 a = 0 ∧
            s1.retired = s.retired ++ [a] ∧ deref s1.mem a = some n ∧ n.link_count = 0 ∧
            n.key = k :=
  ⟨by decide, erase_unlinks_and_retires 6 [Op.insert 1 10 2, Op.insert 3 30 0] (Op.erase 1)
    (by decide)⟩

/-- C19 at a sample input: the names "foo", "bar", "foo" on a new registry. -/
theorem registry_get_or_insert_witness :
    "foo" ≠ "bar" ∧
      (0 = 0 ∧ ((MetricRegistryImpl.new.counter "foo").2.counter "foo").1 = 0 ∧ 1 ≠ 0 ∧
        ((⟨[("bar", 1), ("foo", 0)], [], [], 2⟩ : MetricRegistryImpl).counters.map
          Prod.fst).Nodup ∧
        (∀ k, k ∈ (⟨[("bar", 1), ("foo", 0)], [], [], 2⟩ : MetricRegistryImpl).counters.map
          Prod.fst ↔ k ∈ MetricRegistryImpl.new.counters.map Prod.fst ∨ k = "foo" ∨ k = "bar") ∧
        (([] : List RegCall) = [] →
          (⟨[("bar", 1), ("foo", 0)], [], [], 2⟩ : MetricRegistryImpl).counters.length = 2)) ∧
      (0 = 0 ∧ ((MetricRegistryImpl.new.timer "foo").2.timer "foo").1 = 0 ∧ 1 ≠ 0 ∧
        ((⟨[], [("bar", 1), ("foo", 0)], [], 2⟩ : MetricRegistryImpl).timers.map
          Prod.fst).Nodup ∧
        (∀ k, k ∈ (⟨[], [("bar", 1), ("foo", 0)], [], 2⟩ : MetricRegistryImpl).timers.map
          Prod.fst ↔ k ∈ MetricRegistryImpl.new.timers.map Prod.fst ∨ k = "foo" ∨ k = "bar") ∧
        (([] : List RegCall) = [] →
          (⟨[], [("bar", 1), ("foo", 0)], [], 2⟩ : MetricRegistryImpl).timers.length = 2)) :=
  ⟨by decide, registry_get_or_insert [] "foo" "bar" MetricRegistryImpl.new
    ⟨[("foo", 0)], [], [], 1⟩ ⟨[("bar", 1), ("foo", 0)], [], [], 2⟩
    ⟨[("bar", 1), ("foo", 0)], [], [], 2⟩
    ⟨[], [("foo", 0)], [], 1⟩ ⟨[], [("bar", 1), ("foo", 0)], [], 2⟩
    ⟨[], [("bar", 1), ("foo", 0)], [], 2⟩ 0 1 0 0 1 0 (by decide) rfl
    (by decide) (by decide) (by decide) (by decide) (by decide) (by decide)⟩

/-- C22 at a sample input: two calls of `insert` that raise `height_` and a call of `find`. -/
theorem upper_levels_never_linked_witness :
    [Call.insert 1 10 2, Call.insert 3 30 6, Call.find 3 0].length < 5 ∧
      ∃ (s : ConcurrentSkipListMap Nat Nat) (l : List (Nat × Node Nat Nat)) (hd : Node Nat Nat),
        runCalls 5 [Call.insert 1 10 2, Call.insert 3 30 6, Call.find 3 0]
          ConcurrentSkipListMap.new = some s ∧ Quiescent s l ∧
        deref s.mem s.head_ = some hd ∧
        hd.next_ = headPtr l 0 :: List.replicate (kMaxHeight - 1) (mark 0) ∧
        (∀ i, i + 1 < kMaxHeight → loadNext s s.head_ (i + 1) = some (mark 0)) ∧
        marked0 (mark 0) = true ∧ clear (mark 0) = 0 ∧
        (∀ (key : Nat) (n level m : Nat) (ov : Int), m + 1 < kMaxHeight →
          insertIndexLevels key n level 5 (m + 1) s s.head_ ov =
            some (ov, setHazard s 1 (mark 0))) ∧
        (∀ x ∈ l, deref s.mem x.1 = some x.2 ∧
          x.2.next_.tail = List.replicate (x.2.height - 1) (mark 0)) ∧
        (∀ n ∈ listNodes s l, ∀ i a, a ≠ 0 → pointsTo n (i + 1) a = false) ∧
        (∀ key : Nat, 0 < s.height_ → findAttempt key 5 s =
          findLevels key 5 1 (setHazard (setHazard s 2 s.head_) 1 (mark 0)) s.head_
            (mark 0) 0) ∧
        ∀ key : Nat, find key 5 s =
          some (⟨lastPtr (nodesBelow key l) s.head_, headPtr (nodesFrom key l) 0,
            nextOf (nodesFrom key l), matchOf key (nodesFrom key l)⟩,
            findState s (nodesBelow key l) (nodesFrom key l)) :=
  ⟨by decide, upper_levels_never_linked 5
    [Call.insert 1 10 2, Call.insert 3 30 6, Call.find 3 0] (by decide)⟩

/-- C23 at a sample input: the map holding 1 ↦ 10 and 3 ↦ 30, whose `height_` is 1, the
present key 3 and a drawn level of 3. -/
theorem insert_present_key_raises_height_witness :
    Holds demoMap demoEntries ∧ demoEntries.length < 5 ∧ 3 ∈ demoEntries.map Prod.fst ∧
      demoMap.height_ < randomLevel 14 ∧
      (∃ s1 e e1, insert 3 99 14 5 demoMap = some (false, s1) ∧
          s1.height_ = demoMap.height_ + 1 ∧ s1.mem = demoMap.mem ∧ Holds s1 demoEntries ∧
          entries 5 demoMap = some (demoEntries, e) ∧
          entries 5 s1 = some (demoEntries, e1)) ∧
        randomLevel 2 = 1 ∧
        (runOps 5 [Op.insert 1 10 0]
            (ConcurrentSkipListMap.new : ConcurrentSkipListMap Nat Nat)).bind
            (fun s0 => (insert 1 99 2 5 s0).map (fun x => (x.1, s0.height_, x.2.height_))) =
          some (false, 0, 1) ∧
        (runOps 5 [Op.insert 1 10 0]
            (ConcurrentSkipListMap.new : ConcurrentSkipListMap Nat Nat)).bind
            (fun s0 => (entries 5 s0).map (fun y => y.1)) = some [(1, 10)] ∧
        (runOps 5 [Op.insert 1 10 0]
            (ConcurrentSkipListMap.new : ConcurrentSkipListMap Nat Nat)).bind
            (fun s0 => (insert 1 99 2 5 s0).bind
              (fun x => (entries 5 x.2).map (fun y => y.1))) = some [(1, 10)] :=
  ⟨⟨demoNodes, by decide, rfl⟩, by decide, by decide, by decide,
    insert_present_key_raises_height demoMap demoEntries 3 99 14 5
      ⟨demoNodes, by decide, rfl⟩ (by decide) (by decide) (by decide)⟩

end Witnesses

end ccmetrics
